import Mathlib

/-!
# Mstamp: the `nob.h` build-orchestration runtime

A shallow embedding of the POSIX branch (`#else` of `#ifdef _WIN32`, non-Apple) of
`src/nob.h`, followed by theorems about it.

Conventions of the embedding

* A C string (`const char *`) is the list of its bytes before the terminator.
* The operating system is a record of oracles over an abstract state `σ`; every
  theorem quantifies over all oracles and all states.
* Effects that the program performs on the outside world are appended to a trace.
* `size_t` arithmetic is arithmetic modulo `2 ^ 64`; `int` is 32 bits wide.
-/

namespace Nob

/-! ## Basic types -/

/-- A C string: the bytes before the terminating NUL. -/
abbrev CStr := List Char

/-- The enumeration `Nob_LogLevel` (nob.h:72). -/
inductive Nob_LogLevel
  | NOB_NONE
  | NOB_INFO
  | NOB_WARNING
  | NOB_ERROR
  | NOB_DEBUG
  deriving DecidableEq

/-- Externally visible actions of the process. A `log` records the format string of the
`nob_log` call and its string arguments (the `errno` text and numbers are left out). -/
inductive Event
  | log (level : Nob_LogLevel) (fmt : String) (args : List CStr)
  | rename (old_path new_path : CStr)
  | fork (argv : List (Option CStr))
  | waitpid (pid : Int)
  deriving DecidableEq

/-- What `stat(2)` answers: success with the `st_mtime` field (a 64-bit `time_t`), failure
with `errno == ENOENT`, or failure with another `errno`. -/
inductive StatResult
  | ok (st_mtime : Int)
  | enoent
  | error
  deriving DecidableEq

/-- Classification of a `wstatus` by the macros `WIFEXITED` / `WIFSIGNALED`:
`exited c` has `WEXITSTATUS = c`, `signaled s` has `WTERMSIG = s`, `other` is neither. -/
inductive WStatus
  | exited (exit_status : Nat)
  | signaled (termsig : Nat)
  | other
  deriving DecidableEq

/-- What `waitpid(p, &wstatus, 0)` answers: a negative return value, or a status. -/
inductive WaitResult
  | failed
  | status (wstatus : WStatus)
  deriving DecidableEq

/-- The system calls used by `nob.h`, as oracles over an abstract system state.
`rename` answers `true` when `rename(2)` returned 0; `fork` answers the value returned by
`fork(2)`, and is told the arguments of the command for which `nob_cmd_run_async` calls
it. -/
structure OS (σ : Type) where
  stat : σ → CStr → StatResult
  rename : σ → CStr → CStr → Bool × σ
  fork : σ → List (Option CStr) → Int × σ
  waitpid : σ → Int → WaitResult × σ

/-- The state threaded through the program: the system state and the trace of actions. -/
structure World (σ : Type) where
  os : σ
  trace : List Event

/-- How a piece of code ends: it returns a value, the process ends through `exit(status)`,
an `NOB_ASSERT` fails, `fork` returned 0 (the code is now the child, which replaces itself
through `execvp` or exits), or there is no result at all (a loop that does not end within
the given fuel, or a memory fault). -/
inductive Outcome (α : Type)
  | ret (a : α)
  | exit (status : Int)
  | abort
  | child
  | stuck
  deriving DecidableEq

variable {σ : Type}

/-- The function `nob_log` (nob.h:369): one line on stderr. -/
def nob_log (level : Nob_LogLevel) (fmt : String) (args : List CStr) (w : World σ) : World σ :=
  { w with trace := w.trace ++ [Event.log level fmt args] }

/-! ## Staleness detection -/

/-- Smallest value of `int`. -/
def INT_MIN : Int := -2147483648

/-- Largest value of `int`. -/
def INT_MAX : Int := 2147483647

/-- Conversion of a `time_t` to `int` in `int output_path_time = statbuf.st_mtime;`:
the value modulo `2 ^ 32`, in the signed range. -/
def c_int (t : Int) : Int := (t + 2147483648) % 4294967296 - 2147483648

/-- The loop of `nob_needs_rebuild` over the inputs (nob.h:973-985). -/
def nob_needs_rebuild_loop (os : OS σ) (output_path_time : Int) :
    List CStr → World σ → Int × World σ
  | [], w => (0, w)
  | input_path :: rest, w =>
    match os.stat w.os input_path with
    | StatResult.ok st_mtime =>
      let input_path_time := c_int st_mtime
      if input_path_time > output_path_time then (1, w)
      else nob_needs_rebuild_loop os output_path_time rest w
    | _ => (-1, nob_log Nob_LogLevel.NOB_ERROR "Could not stat `%s`: %s" [input_path] w)

/-- The function `nob_needs_rebuild` (nob.h:920); `input_paths` stands for the array
`input_paths[0 .. input_paths_count)`. -/
def nob_needs_rebuild (os : OS σ) (output_path : CStr) (input_paths : List CStr)
    (w : World σ) : Int × World σ :=
  match os.stat w.os output_path with
  | StatResult.enoent => (1, w)
  | StatResult.error =>
    (-1, nob_log Nob_LogLevel.NOB_ERROR "Could not stat `%s`: %s" [output_path] w)
  | StatResult.ok st_mtime =>
    let output_path_time := c_int st_mtime
    nob_needs_rebuild_loop os output_path_time input_paths w

/-- The function `nob_needs_rebuild1` (nob.h:991). -/
def nob_needs_rebuild1 (os : OS σ) (output_path input_path : CStr) (w : World σ) :
    Int × World σ :=
  nob_needs_rebuild os output_path [input_path] w

/-! ## Dynamic arrays, string builders, commands -/

/-- Number of values of `size_t`: `2 ^ 64`. -/
def SIZE_MOD : Nat := 18446744073709551616

/-- The constant `DA_INIT_CAP` (nob.h:119). -/
def DA_INIT_CAP : Nat := 256

/-- The layout `{ items, count, capacity }` shared by `Nob_FilePaths`, `Nob_StringBuilder`,
`Nob_Procs` and `Nob_Cmd`. `items` is `none` for `NULL`, otherwise the heap block, given by
its initialised slots in index order (the slots behind them are not represented). -/
structure Nob_DA (α : Type) where
  items : Option (List α)
  count : Nat
  capacity : Nat

/-- The initialiser `= {0}`. -/
def Nob_DA.zero {α : Type} : Nob_DA α := { items := none, count := 0, capacity := 0 }

/-- The call `NOB_REALLOC(items, capacity * sizeof(*items))`, assumed to succeed (its
failure stops the program in the following `NOB_ASSERT`): the old contents, cut to the new
size. -/
def da_realloc {α : Type} (items : Option (List α)) (capacity : Nat) : List α :=
  (items.getD []).take capacity

/-- Storing `new_items` into a block from slot `index` on. -/
def da_store {α : Type} (block : List α) (index : Nat) (new_items : List α) : List α :=
  block.take index ++ new_items ++ block.drop (index + new_items.length)

/-- The macro `nob_da_append` (nob.h:121). The result is `none` when the store goes through
a `NULL` pointer or outside the block. -/
def nob_da_append {α : Type} (da : Nob_DA α) (item : α) : Option (Nob_DA α) :=
  let da1 : Nob_DA α :=
    if da.count >= da.capacity then
      let capacity := ((if da.capacity = 0 then 1 else 0) * DA_INIT_CAP +
        (if da.capacity ≠ 0 then 1 else 0) * (da.capacity * 2 % SIZE_MOD)) % SIZE_MOD
      { items := some (da_realloc da.items capacity), count := da.count, capacity := capacity }
    else da
  match da1.items with
  | none => none
  | some block =>
    if da1.count < da1.capacity then
      some { items := some (da_store block da1.count [item]),
             count := (da1.count + 1) % SIZE_MOD,
             capacity := da1.capacity }
    else none

/-- The loop `while (count + new_items_count >= capacity) capacity *= 2UL;` of
`nob_da_append_many`, where `need` is `count + new_items_count`. After 64 doublings the
capacity is 0 modulo `2 ^ 64` and stays 0, so 65 rounds of fuel decide whether the loop
ends; `none` says that it does not. -/
def da_grow_loop : Nat → Nat → Nat → Option Nat
  | 0, _, _ => none
  | fuel + 1, need, capacity =>
    if need >= capacity then da_grow_loop fuel need (capacity * 2 % SIZE_MOD)
    else some capacity

/-- The macro `nob_da_append_many` (nob.h:133); `new_items` stands for the
`new_items_count` items behind the pointer. The result is `none` when the growth loop does
not end, or when `memcpy` writes through `NULL` or outside the block. -/
def nob_da_append_many {α : Type} (da : Nob_DA α) (new_items : List α) : Option (Nob_DA α) :=
  let new_items_count := new_items.length
  let da1 : Option (Nob_DA α) :=
    if (da.count + new_items_count) % SIZE_MOD >= da.capacity then
      let capacity0 := ((if da.capacity = 0 then 1 else 0) * DA_INIT_CAP +
        (if da.capacity ≠ 0 then 1 else 0) * da.capacity) % SIZE_MOD
      match da_grow_loop 65 ((da.count + new_items_count) % SIZE_MOD) capacity0 with
      | none => none
      | some capacity =>
        some { items := some (da_realloc da.items capacity), count := da.count,
               capacity := capacity }
    else some da
  match da1 with
  | none => none
  | some da1 =>
    match da1.items with
    | none => none
    | some block =>
      if da1.count + new_items_count ≤ da1.capacity then
        some { items := some (da_store block da1.count new_items),
               count := (da1.count + new_items_count) % SIZE_MOD,
               capacity := da1.capacity }
      else none

/-- The macros `nob_da_free`, `nob_sb_free` and `nob_cmd_free` (nob.h:151, 174, 221). -/
def nob_da_free {α : Type} (da : Nob_DA α) : Nob_DA α :=
  { da with items := none }

/-- The elements `items[0 .. count)`; `none` when reading them would go through `NULL` or
behind the initialised slots. -/
def da_elems {α : Type} (da : Nob_DA α) : Option (List α) :=
  if da.count = 0 then some []
  else
    match da.items with
    | none => none
    | some block => if da.count ≤ block.length then some (block.take da.count) else none

/-- The type `Nob_StringBuilder` (nob.h:155). -/
abbrev Nob_StringBuilder := Nob_DA Char

/-- The type `Nob_Cmd` (nob.h:201); an argument is `none` for a `NULL` pointer. -/
abbrev Nob_Cmd := Nob_DA (Option CStr)

/-- The type `Nob_Procs` (nob.h:188). -/
abbrev Nob_Procs := Nob_DA Int

/-- The byte `'\0'`. -/
def NUL : Char := Char.ofNat 0

/-- The macro `nob_sb_append_cstr` (nob.h:165): `strlen` bytes of the string. -/
def nob_sb_append_cstr (sb : Nob_StringBuilder) (cstr : CStr) : Option Nob_StringBuilder :=
  nob_da_append_many sb cstr

/-- The macro `nob_sb_append_null` (nob.h:173): the one byte of the literal `""`. -/
def nob_sb_append_null (sb : Nob_StringBuilder) : Option Nob_StringBuilder :=
  nob_da_append_many sb [NUL]

/-- Reading a `char *` as a C string: the bytes before the first NUL; `none` for `NULL`
and for a block without a NUL. -/
def c_str_of (items : Option (List Char)) : Option CStr :=
  match items with
  | none => none
  | some block => if NUL ∈ block then some (block.takeWhile (fun c => c != NUL)) else none

/-- The function `nob_cmd_append_null` (nob.h:688): appends the arguments up to the first
`NULL`. -/
def nob_cmd_append_null : Nob_Cmd → List (Option CStr) → Option Nob_Cmd
  | cmd, [] => some cmd
  | cmd, none :: _ => some cmd
  | cmd, some arg :: rest =>
    match nob_da_append cmd (some arg) with
    | none => none
    | some cmd1 => nob_cmd_append_null cmd1 rest

/-- The macro `nob_cmd_append` (nob.h:214). -/
def nob_cmd_append (cmd : Nob_Cmd) (args : List (Option CStr)) : Option Nob_Cmd :=
  nob_cmd_append_null cmd (args ++ [none])

/-- The single quote character. -/
def QUOTE : Char := Char.ofNat 39

/-- The loop of `nob_cmd_render` (nob.h:674) from index `i` on, over the arguments
`items[i .. count)`. -/
def nob_cmd_render_loop : Nat → List (Option CStr) → Nob_StringBuilder →
    Option Nob_StringBuilder
  | _, [], render => some render
  | _, none :: _, render => some render
  | i, some arg :: rest, render =>
    match (if i > 0 then nob_sb_append_cstr render [' '] else some render) with
    | none => none
    | some r1 =>
      match (if ¬ (' ' ∈ arg) then nob_sb_append_cstr r1 arg
             else (nob_da_append r1 QUOTE).bind fun r2 =>
               (nob_sb_append_cstr r2 arg).bind fun r3 => nob_da_append r3 QUOTE) with
      | none => none
      | some r4 => nob_cmd_render_loop (i + 1) rest r4

/-- The function `nob_cmd_render` (nob.h:673). -/
def nob_cmd_render (cmd : Nob_Cmd) (render : Nob_StringBuilder) : Option Nob_StringBuilder :=
  match da_elems cmd with
  | none => none
  | some args => nob_cmd_render_loop 0 args render

/-! ## Processes -/

/-- The type `Nob_Process` on POSIX: `int`. -/
abbrev Nob_Process := Int

/-- The constant `NOB_INVALID_PROC` (nob.h:185). -/
def NOB_INVALID_PROC : Nob_Process := -1

/-- Sequencing: run `k` on the value and world of a returning computation, pass every
other outcome on. -/
def Outcome.andThen {α β : Type} (r : Outcome α × World σ)
    (k : α → World σ → Outcome β × World σ) : Outcome β × World σ :=
  match r with
  | (Outcome.ret a, w) => k a w
  | (Outcome.exit status, w) => (Outcome.exit status, w)
  | (Outcome.abort, w) => (Outcome.abort, w)
  | (Outcome.child, w) => (Outcome.child, w)
  | (Outcome.stuck, w) => (Outcome.stuck, w)

/-- The `for (;;)` loop of `nob_proc_wait` (nob.h:727-748), run for at most `fuel` rounds. -/
def nob_proc_wait_loop (os : OS σ) (p : Nob_Process) : Nat → World σ → Outcome Bool × World σ
  | 0, w => (Outcome.stuck, w)
  | fuel + 1, w =>
    let w1 : World σ := { os := (os.waitpid w.os p).2, trace := w.trace ++ [Event.waitpid p] }
    match (os.waitpid w.os p).1 with
    | WaitResult.failed =>
      (Outcome.ret false,
        nob_log Nob_LogLevel.NOB_ERROR "Could not wait on command (pid %d): %s" [] w1)
    | WaitResult.status (WStatus.exited exit_status) =>
      if exit_status ≠ 0 then
        (Outcome.ret false,
          nob_log Nob_LogLevel.NOB_ERROR "Command exited with exit code %d" [] w1)
      else (Outcome.ret true, w1)
    | WaitResult.status (WStatus.signaled _) =>
      (Outcome.ret false,
        nob_log Nob_LogLevel.NOB_ERROR "Command process was terminated by %s" [] w1)
    | WaitResult.status WStatus.other => nob_proc_wait_loop os p fuel w1

/-- The function `nob_proc_wait` (nob.h:703). -/
def nob_proc_wait (os : OS σ) (fuel : Nat) (p : Nob_Process) (w : World σ) :
    Outcome Bool × World σ :=
  if p = NOB_INVALID_PROC then (Outcome.ret false, w)
  else nob_proc_wait_loop os p fuel w

/-- The loop of `nob_procs_wait` (nob.h:756-758) over `items[i .. count)`. -/
def nob_procs_wait_loop (os : OS σ) (fuel : Nat) :
    List Nob_Process → Bool → World σ → Outcome Bool × World σ
  | [], success, w => (Outcome.ret success, w)
  | p :: rest, success, w =>
    Outcome.andThen (nob_proc_wait os fuel p w) fun b w1 =>
      nob_procs_wait_loop os fuel rest (b && success) w1

/-- The function `nob_procs_wait` (nob.h:754). -/
def nob_procs_wait (os : OS σ) (fuel : Nat) (procs : Nob_Procs) (w : World σ) :
    Outcome Bool × World σ :=
  match da_elems procs with
  | none => (Outcome.stuck, w)
  | some handles => nob_procs_wait_loop os fuel handles true w

/-- The function `nob_cmd_run_async` (nob.h:762), as seen by the calling process: the
branch `cpid == 0` runs in the child and ends in `execvp` or `exit(1)`; the caller sees the
child through `waitpid` only. What the child hands to `execvp` is the subject of
`nob_cmd_run_async_child`. -/
def nob_cmd_run_async (os : OS σ) (cmd : Nob_Cmd) (w : World σ) :
    Outcome Nob_Process × World σ :=
  if cmd.count < 1 then
    (Outcome.ret NOB_INVALID_PROC,
      nob_log Nob_LogLevel.NOB_ERROR "Could not run empty command" [] w)
  else
    match (nob_cmd_render cmd Nob_DA.zero).bind nob_sb_append_null with
    | none => (Outcome.stuck, w)
    | some sb =>
      match c_str_of sb.items, da_elems cmd with
      | some text, some argv =>
        let w1 := nob_log Nob_LogLevel.NOB_INFO "CMD: %s" [text] w
        let cpid := (os.fork w1.os argv).1
        let w2 : World σ := { os := (os.fork w1.os argv).2, trace := w1.trace ++ [Event.fork argv] }
        if cpid < 0 then
          (Outcome.ret NOB_INVALID_PROC,
            nob_log Nob_LogLevel.NOB_ERROR "Could not fork child process: %s" [] w2)
        else if cpid = 0 then (Outcome.child, w2)
        else (Outcome.ret cpid, w2)
      | _, _ => (Outcome.stuck, w)

/-- The function `nob_cmd_run_sync` (nob.h:830). -/
def nob_cmd_run_sync (os : OS σ) (fuel : Nat) (cmd : Nob_Cmd) (w : World σ) :
    Outcome Bool × World σ :=
  Outcome.andThen (nob_cmd_run_async os cmd w) fun p w1 =>
    if p = NOB_INVALID_PROC then (Outcome.ret false, w1)
    else nob_proc_wait os fuel p w1

/-- The function `nob_cmd_run_sync_and_reset` (nob.h:836): the value of `res` together
with the command as the assignment `cmd->count = 0UL` leaves it. When `nob_cmd_run_sync`
does not return, the assignment is not reached. -/
def nob_cmd_run_sync_and_reset (os : OS σ) (fuel : Nat) (cmd : Nob_Cmd) (w : World σ) :
    Outcome (Bool × Nob_Cmd) × World σ :=
  Outcome.andThen (nob_cmd_run_sync os fuel cmd w) fun res w1 =>
    (Outcome.ret (res, { cmd with count := 0 }), w1)

/-! ## Self-rebuild bootstrap -/

/-- The function `nob_rename` (nob.h:899). -/
def nob_rename (os : OS σ) (old_path new_path : CStr) (w : World σ) : Bool × World σ :=
  let w1 := nob_log Nob_LogLevel.NOB_INFO "Renaming `%s` -> `%s`" [old_path, new_path] w
  let w2 : World σ :=
    { os := (os.rename w1.os old_path new_path).2,
      trace := w1.trace ++ [Event.rename old_path new_path] }
  if (os.rename w1.os old_path new_path).1 then (true, w2)
  else
    (false,
      nob_log Nob_LogLevel.NOB_ERROR "Could not rename `%s` to `%s`: %s" [old_path, new_path] w2)

/-- The macro `NOB_REBUILD_URSELF` on POSIX (nob.h:258). -/
def NOB_REBUILD_URSELF (binary_path source_path : CStr) : List (Option CStr) :=
  [some ['g', 'c', 'c'], some ['-', 'o'], some binary_path, some source_path]

/-- The string built in `sb` by lines 291-294 of nob.h, read back through `sb.items`. -/
def rebuild_backup_path (binary_path : CStr) : Option CStr :=
  match nob_sb_append_cstr Nob_DA.zero binary_path with
  | none => none
  | some sb1 =>
    match nob_sb_append_cstr sb1 ['.', 'o', 'l', 'd'] with
    | none => none
    | some sb2 =>
      match nob_sb_append_null sb2 with
      | none => none
      | some sb3 => c_str_of sb3.items

/-- The macro `NOB_GO_REBUILD_URSELF(argc, argv)` (nob.h:282), where `source_path` is the
value of `__FILE__`. `Outcome.ret ()` says that control leaves the macro and goes on with
the rest of `main`. -/
def NOB_GO_REBUILD_URSELF (os : OS σ) (fuel : Nat) (source_path : CStr) (argc : Int)
    (argv : List CStr) (w : World σ) : Outcome Unit × World σ :=
  if ¬ (argc ≥ 1) then (Outcome.abort, w)
  else
    match argv.head? with
    | none => (Outcome.stuck, w)
    | some binary_path =>
      let rebuild_is_needed := (nob_needs_rebuild1 os binary_path source_path w).1
      let w1 := (nob_needs_rebuild1 os binary_path source_path w).2
      if rebuild_is_needed < 0 then (Outcome.exit 1, w1)
      else if rebuild_is_needed ≠ 0 then
        match rebuild_backup_path binary_path with
        | none => (Outcome.stuck, w1)
        | some sb_items =>
          if ¬ (nob_rename os binary_path sb_items w1).1 then
            (Outcome.exit 1, (nob_rename os binary_path sb_items w1).2)
          else
            match nob_cmd_append Nob_DA.zero (NOB_REBUILD_URSELF binary_path source_path) with
            | none => (Outcome.stuck, (nob_rename os binary_path sb_items w1).2)
            | some rebuild =>
              Outcome.andThen
                (nob_cmd_run_sync os fuel rebuild (nob_rename os binary_path sb_items w1).2)
                fun rebuild_succeeded w3 =>
                  if ¬ rebuild_succeeded then
                    (Outcome.exit 1, (nob_rename os sb_items binary_path w3).2)
                  else
                    match nob_da_append_many Nob_DA.zero
                        ((argv.take argc.toNat).map some) with
                    | none => (Outcome.stuck, w3)
                    | some cmd =>
                      Outcome.andThen (nob_cmd_run_sync os fuel cmd w3) fun ran w5 =>
                        if ¬ ran then (Outcome.exit 1, w5)
                        else (Outcome.exit 0, w5)
      else (Outcome.ret (), w1)

/-! ## String views -/

/-- The type `Nob_StringView` (nob.h:316): `items` is the memory from the pointer on,
`count` the number of bytes of the view. -/
structure Nob_StringView where
  items : List Char
  count : Nat
  deriving DecidableEq

/-- The bytes `items[0 .. count)` of a view. -/
def Nob_StringView.bytes (sv : Nob_StringView) : List Char := sv.items.take sv.count

/-- The function `nob_sv_from_parts` (nob.h:1064). -/
def nob_sv_from_parts (data : List Char) (count : Nat) : Nob_StringView :=
  { items := data, count := count }

/-- The loop `while (i < sv->count && sv->items[i] != delim) i++;` (nob.h:1016), started
at `i`; it makes at most `count` rounds, so `fuel = count` never runs out early. -/
def nob_sv_chop_scan (sv : Nob_StringView) (delim : Char) : Nat → Nat → Nat
  | 0, i => i
  | fuel + 1, i =>
    if i < sv.count ∧ sv.items[i]? ≠ some delim then nob_sv_chop_scan sv delim fuel (i + 1)
    else i

/-- The function `nob_sv_chop_by_delim` (nob.h:1014): the returned view and the new value
of `*sv`. -/
def nob_sv_chop_by_delim (sv : Nob_StringView) (delim : Char) :
    Nob_StringView × Nob_StringView :=
  let i := nob_sv_chop_scan sv delim sv.count 0
  let result := nob_sv_from_parts sv.items i
  if i < sv.count then
    (result, { items := sv.items.drop (i + 1), count := sv.count - (i + 1) })
  else
    (result, { items := sv.items.drop i, count := sv.count - i })

/-- A loop `while (i < count && test(i)) i++;` started at `i`; it makes at most `count`
rounds, so `fuel = count` never runs out early. -/
def sv_scan (count : Nat) (test : Nat → Bool) : Nat → Nat → Nat
  | 0, i => i
  | fuel + 1, i =>
    if i < count ∧ test i = true then sv_scan count test fuel (i + 1)
    else i

/-- The function `nob_sv_rchop_by_delim` (nob.h:1031): the returned view and the new value
of `*sv`. The loop is
`while (i < sv->count && sv->items[sv->count - 1UL - i] != delim) i++;`. -/
def nob_sv_rchop_by_delim (sv : Nob_StringView) (delim : Char) :
    Nob_StringView × Nob_StringView :=
  let i := sv_scan sv.count (fun i => sv.items[sv.count - 1 - i]? != some delim) sv.count 0
  let result := nob_sv_from_parts (sv.items.drop (sv.count - i)) i
  if i < sv.count then (result, { items := sv.items, count := sv.count - (i + 1) })
  else (result, { items := sv.items, count := sv.count - i })

/-- The function `isspace` of `<ctype.h>` (C library, not part of the repository), as the
C standard fixes it for the "C" locale: true for space, `\t`, `\n`, `\v`, `\f` and `\r`
only. -/
def isspace (c : Char) : Bool :=
  c = ' ' || c = Char.ofNat 9 || c = Char.ofNat 10 || c = Char.ofNat 11 || c = Char.ofNat 12 ||
    c = Char.ofNat 13

/-- The function `nob_sv_trim_left` (nob.h:1043), with the loop
`while (i < sv.count && isspace(sv.items[i])) i++;`. -/
def nob_sv_trim_left (sv : Nob_StringView) : Nob_StringView :=
  let i := sv_scan sv.count (fun i => (sv.items[i]?).any isspace) sv.count 0
  nob_sv_from_parts (sv.items.drop i) (sv.count - i)

/-- The function `nob_sv_trim_right` (nob.h:1049), with the loop
`while (i < sv.count && isspace(sv.items[sv.count - 1 - i])) i++;`. -/
def nob_sv_trim_right (sv : Nob_StringView) : Nob_StringView :=
  let i := sv_scan sv.count (fun i => (sv.items[sv.count - 1 - i]?).any isspace) sv.count 0
  nob_sv_from_parts sv.items (sv.count - i)

/-- The function `nob_sv_trim` (nob.h:1055). -/
def nob_sv_trim (sv : Nob_StringView) : Nob_StringView :=
  nob_sv_trim_right (nob_sv_trim_left sv)

/-- The test `memcmp(a, b, n) == 0` of `<string.h>` (C library, not part of the
repository): the first `n` bytes are equal. -/
def memcmp_is_zero (a b : List Char) (n : Nat) : Bool := decide (a.take n = b.take n)

/-- The function `nob_sv_eq` (nob.h:1057). -/
def nob_sv_eq (a b : Nob_StringView) : Bool :=
  if a.count ≠ b.count then false
  else memcmp_is_zero a.items b.items a.count

/-- The function `nob_sv_starts_with` (nob.h:1071). -/
def nob_sv_starts_with (sv expected_prefix : Nob_StringView) : Bool :=
  if expected_prefix.count ≤ sv.count then
    let actual_prefix := nob_sv_from_parts sv.items expected_prefix.count
    nob_sv_eq expected_prefix actual_prefix
  else false

/-- The function `nob_sv_ends_with` (nob.h:1080). -/
def nob_sv_ends_with (sv expected_suffix : Nob_StringView) : Bool :=
  if expected_suffix.count ≤ sv.count then
    let actual_suffix :=
      nob_sv_from_parts (sv.items.drop (sv.count - expected_suffix.count)) expected_suffix.count
    nob_sv_eq expected_suffix actual_suffix
  else false

/-! ## Temporary arena -/

/-- The default of `NOB_TEMP_CAPACITY` (nob.h:230): `8*1024`. -/
def NOB_TEMP_CAPACITY : Nat := 8192

/-- The two statics of the temporary allocator (nob.h:844-845): the cursor `nob_temp_size`
and the buffer `nob_temp`. -/
structure TempArena where
  nob_temp_size : Nat
  nob_temp : List Char

/-- The function `nob_temp_alloc` (nob.h:849): the returned pointer, as an offset into
`nob_temp` (`none` for `NULL`), and the new state. The sum is a `size_t` sum. -/
def nob_temp_alloc (size : Nat) (a : TempArena) : Option Nat × TempArena :=
  if (a.nob_temp_size + size) % SIZE_MOD > NOB_TEMP_CAPACITY then (none, a)
  else
    (some a.nob_temp_size,
      { a with nob_temp_size := (a.nob_temp_size + size) % SIZE_MOD })

/-- The function `nob_temp_reset` (nob.h:881). -/
def nob_temp_reset (a : TempArena) : TempArena := { a with nob_temp_size := 0 }

/-- The function `nob_temp_save` (nob.h:882). -/
def nob_temp_save (a : TempArena) : Nat := a.nob_temp_size

/-- The function `nob_temp_rewind` (nob.h:883). -/
def nob_temp_rewind (checkpoint : Nat) (a : TempArena) : TempArena :=
  { a with nob_temp_size := checkpoint }

/-! ## Vocabulary of the statements -/

/-- The system state after `k` calls of `waitpid` on `p`. -/
def wait_state (os : OS σ) (p : Nob_Process) : Nat → σ → σ
  | 0, s => s
  | k + 1, s => wait_state os p k (os.waitpid s p).2

/-- The answer of call number `k` (counted from 0) of `waitpid` on `p`. -/
def wait_answer (os : OS σ) (p : Nob_Process) (k : Nat) (s : σ) : WaitResult :=
  (os.waitpid (wait_state os p k s) p).1

/-- One call of `nob_proc_wait` per handle, in list order, whatever the earlier calls
returned; the results in the same order. -/
def wait_each (os : OS σ) (fuel : Nat) :
    List Nob_Process → World σ → Outcome (List Bool) × World σ
  | [], w => (Outcome.ret [], w)
  | p :: rest, w =>
    Outcome.andThen (nob_proc_wait os fuel p w) fun b w1 =>
      Outcome.andThen (wait_each os fuel rest w1) fun bs w2 => (Outcome.ret (b :: bs), w2)

/-- The process ids of the `waitpid` calls of a trace, in order. -/
def waited : List Event → List Int
  | [] => []
  | Event.waitpid p :: rest => p :: waited rest
  | _ :: rest => waited rest

/-- The `rename` and `fork` calls of a trace, in order. -/
def actions : List Event → List Event
  | [] => []
  | Event.rename a b :: rest => Event.rename a b :: actions rest
  | Event.fork argv :: rest => Event.fork argv :: actions rest
  | _ :: rest => actions rest

/-- The backup name `<binary path>.old`. -/
def backup_of (binary_path : CStr) : CStr := binary_path ++ ['.', 'o', 'l', 'd']

/-- The command `rebuild` after `nob_cmd_append(&rebuild, NOB_REBUILD_URSELF(...))`. -/
def rebuild_cmd (binary_path source_path : CStr) : Nob_Cmd :=
  { items := some (NOB_REBUILD_URSELF binary_path source_path), count := 4, capacity := 256 }

/-- The results of `n` successive calls of `nob_sv_chop_by_delim` on one source, in call
order, and the source left by the last call. -/
def chop_repeat (delim : Char) : Nat → Nob_StringView → List Nob_StringView × Nob_StringView
  | 0, sv => ([], sv)
  | n + 1, sv =>
    ((nob_sv_chop_by_delim sv delim).1 ::
        (chop_repeat delim n (nob_sv_chop_by_delim sv delim).2).1,
      (chop_repeat delim n (nob_sv_chop_by_delim sv delim).2).2)

/-- The fields joined by the delimiter: `f1 d f2 d ... fn`. -/
def join_fields (delim : Char) : List (List Char) → List Char
  | [] => []
  | [field] => field
  | field :: next :: rest => field ++ delim :: join_fields delim (next :: rest)

/-- The view of exactly the given bytes. -/
def sv_of (bytes : List Char) : Nob_StringView := { items := bytes, count := bytes.length }

/-- Storing `data` into the arena buffer from `offset` on (a `memcpy` through a pointer
returned by `nob_temp_alloc`); bytes that would fall behind the buffer are dropped. -/
def arena_write (a : TempArena) (offset : Nat) (data : List Char) : TempArena :=
  { a with
    nob_temp :=
      (a.nob_temp.take offset ++ data ++ a.nob_temp.drop (offset + data.length)).take
        a.nob_temp.length }

/-- Reading `n` bytes of the arena buffer from `offset` on. -/
def arena_read (a : TempArena) (offset n : Nat) : List Char := (a.nob_temp.drop offset).take n

/-- What a user of the arena does between a save and a rewind: allocations and writes. -/
inductive ArenaStep
  | alloc (size : Nat)
  | write (offset : Nat) (data : List Char)

/-- Running a sequence of allocations and writes. -/
def arena_run : List ArenaStep → TempArena → TempArena
  | [], a => a
  | ArenaStep.alloc size :: rest, a => arena_run rest (nob_temp_alloc size a).2
  | ArenaStep.write offset data :: rest, a => arena_run rest (arena_write a offset data)

/-- The representation of a dynamic array is sound: the capacity is a `size_t` value, a
`NULL` block has capacity 0, the block has at most `capacity` slots, and the first `count`
slots are initialised. In particular `count ≤ capacity`. -/
def Nob_DA.sound {α : Type} (da : Nob_DA α) : Prop :=
  da.capacity < SIZE_MOD ∧ (da.items = none → da.capacity = 0) ∧
  (da.items.getD []).length ≤ da.capacity ∧ da.count ≤ (da.items.getD []).length

/-- The elements `items[0 .. count)` of an array, in order. -/
def Nob_DA.contents {α : Type} (da : Nob_DA α) : List α := (da.items.getD []).take da.count

/-- What `nob_cmd_render` writes for one argument: the argument itself, between single
quotes when it contains a space. -/
def quote_arg (arg : CStr) : CStr :=
  if ' ' ∈ arg then QUOTE :: (arg ++ [QUOTE]) else arg

/-- The rendering of a list of arguments: the quoted arguments joined by single spaces. -/
def render_text (args : List CStr) : CStr := join_fields ' ' (args.map quote_arg)

/-- The fields, each with the delimiter in front: `d f1 d f2 ... d fn`. -/
def join_rest (delim : Char) : List (List Char) → List Char
  | [] => []
  | field :: rest => delim :: (field ++ join_rest delim rest)

/-! ## Track times -/

/-- The number of values of `unsigned` and of `uint32_t`. -/
def UINT_MOD : Nat := 4294967296

/-- The function `moddiv` (tracks.h:36), called with two distinct objects behind `mod` and
`div`: the values stored through `mod` and through `div`, in this order, computed in
`unsigned` arithmetic. The division by zero is undefined (`none`). -/
def moddiv (a b : Nat) : Option (Nat × Nat) :=
  if b = 0 then none
  else
    let div := a / b
    let mod := (a + UINT_MOD - div * b % UINT_MOD) % UINT_MOD
    some (mod, div)

/-- The constant `SEC60` (tracks.h:41). -/
def SEC60 : Nat := 60

/-- The character of a decimal digit. -/
def digit_char (d : Nat) : Char := Char.ofNat (48 + d)

/-- The decimal digits of `n`, most significant first, without leading zeros (one digit
for 0); `fuel` bounds the number of digits. -/
def utoa_digits : Nat → Nat → List Char
  | 0, _ => []
  | fuel + 1, n =>
    (if n / 10 = 0 then [] else utoa_digits fuel (n / 10)) ++ [digit_char (n % 10)]

/-- The conversion `%0<width>u` of `printf` for an `unsigned` argument (at most 10
digits): the decimal digits, with zeros in front up to `width` characters. `%u` is the
case of width 0. `printf` is not part of the repository; this is what the C standard says
about it. -/
def printf_u (width n : Nat) : List Char :=
  List.replicate (width - (utoa_digits 10 n).length) '0' ++ utoa_digits 10 n

/-- The function `time_from_seconds` (tracks.h:42): the text at the returned pointer.
`arena_sprintf` belongs to the third-party header `arena.h`; it formats as `sprintf`
does, into memory of the arena `a`, which has no other part in the result. -/
def time_from_seconds (seconds : Nat) : Option CStr :=
  match moddiv seconds SEC60 with
  | none => none
  | some (value0, value1) =>
    if value1 >= SEC60 then
      match moddiv value1 SEC60 with
      | none => none
      | some (value1b, value2) =>
        some (printf_u 0 value2 ++ (':' :: (printf_u 2 value1b ++ (':' :: printf_u 2 value0))))
    else some (printf_u 1 value1 ++ (':' :: printf_u 2 value0))

/-- The function `nob_temp_sv_to_cstr` (nob.h:885): the returned pointer, as an offset
into `nob_temp`, and the new state of the arena; `none` when the `NOB_ASSERT` fails. -/
def nob_temp_sv_to_cstr (sv : Nob_StringView) (a : TempArena) : Option (Nat × TempArena) :=
  match nob_temp_alloc ((sv.count + 1) % SIZE_MOD) a with
  | (none, _) => none
  | (some result, a1) => some (result, arena_write a1 result (sv.bytes ++ [NUL]))

/-- The C string that starts at `offset` in the arena buffer. -/
def arena_cstr (a : TempArena) (offset : Nat) : CStr :=
  (a.nob_temp.drop offset).takeWhile (fun c => c != NUL)

/-- The classification `isdigit` of `<ctype.h>`. -/
def isdigit (c : Char) : Bool := decide (48 ≤ c.toNat ∧ c.toNat ≤ 57)

/-- The digits that `atoi` reads, up to the first character that is not a digit. -/
def atoi_digits : List Char → Nat → Nat
  | [], acc => acc
  | c :: rest, acc =>
    if isdigit c then atoi_digits rest (acc * 10 + (c.toNat - 48)) else acc

/-- The function `atoi` of `<stdlib.h>` (not part of the repository), as the C standard
describes it: white space, an optional sign, decimal digits. A value that does not fit an
`int` is undefined (`none`). -/
def atoi (nptr : CStr) : Option Int :=
  let value : Int :=
    match nptr.dropWhile isspace with
    | [] => 0
    | c :: rest =>
      if c = '-' then -(atoi_digits rest 0 : Int)
      else if c = '+' then (atoi_digits rest 0 : Int)
      else (atoi_digits (c :: rest) 0 : Int)
  if INT_MIN ≤ value ∧ value ≤ INT_MAX then some value else none

/-- Conversion of an `int` to `uint32_t`. -/
def uint32_of_int (n : Int) : Nat := (n % 4294967296).toNat

/-- The first loop of `seconds_from_time` (tracks.h:56-60), started at `i`; it makes at
most 3 rounds. The result is the final `i`, the array `value` and the arena. -/
def seconds_from_time_fields : Nat → Nat → Nob_StringView → List Nat → TempArena →
    Option (Nat × List Nat × TempArena)
  | 0, i, _, value, a => some (i, value, a)
  | fuel + 1, i, time, value, a =>
    if i < 3 ∧ time.count ≠ 0 then
      let sv_value := (nob_sv_chop_by_delim time ':').1
      let time1 := (nob_sv_chop_by_delim time ':').2
      match nob_temp_sv_to_cstr sv_value a with
      | none => none
      | some (cstr_value, a1) =>
        match atoi (arena_cstr a1 cstr_value) with
        | none => none
        | some n =>
          seconds_from_time_fields fuel (i + 1) time1 (value.set i (uint32_of_int n)) a1
    else some (i, value, a)

/-- The loop `for (uint8_t k = 0; k < j; k++) mult *= SEC60;` (tracks.h:65), with `k`
rounds to go. -/
def seconds_from_time_mult : Nat → Nat → Nat
  | 0, mult => mult
  | k + 1, mult => seconds_from_time_mult k (mult * SEC60 % UINT_MOD)

/-- The second loop of `seconds_from_time` (tracks.h:63-67), started at `j`; it makes at
most `i` rounds. -/
def seconds_from_time_sum (i : Nat) (value : List Nat) : Nat → Nat → Nat → Nat
  | 0, _, res => res
  | fuel + 1, j, res =>
    if j < i then
      seconds_from_time_sum i value fuel (j + 1)
        ((res + value.getD (i - j - 1) 0 * seconds_from_time_mult j 1 % UINT_MOD) % UINT_MOD)
    else res

/-- The function `seconds_from_time` (tracks.h:53): the result and the new state of the
arena; `none` when an assertion fails or `atoi` is undefined. -/
def seconds_from_time (time : Nob_StringView) (a : TempArena) : Option (Nat × TempArena) :=
  match seconds_from_time_fields 3 0 time [0, 0, 0] a with
  | none => none
  | some (i, value, a1) => some (seconds_from_time_sum i value i 0 0, a1)

/-- Two decimal digits: tens and units. -/
def two_digits (n : Nat) : List Char := [digit_char (n / 10), digit_char (n % 10)]

/-- The text of a number of seconds: `m:ss` below one hour, `h:mm:ss` from one hour on. -/
def time_text (s : Nat) : List Char :=
  if s < 3600 then printf_u 0 (s / 60) ++ (':' :: two_digits (s % 60))
  else
    printf_u 0 (s / 3600) ++
      (':' :: (two_digits (s / 60 % 60) ++ (':' :: two_digits (s % 60))))

/-- Every character of the list is a decimal digit. -/
def all_digits (l : List Char) : Prop := ∀ c ∈ l, ∃ d, d < 10 ∧ c = digit_char d

/-! ## Concrete systems used to instantiate the theorems -/

/-- A file system given by a fixed table of modification times; `rename` and `fork` fail
and there is no child to wait for. -/
def statOnlyOS (table : CStr → StatResult) : OS Unit where
  stat := fun _ p => table p
  rename := fun s _ _ => (false, s)
  fork := fun s _ => (-1, s)
  waitpid := fun s _ => (WaitResult.failed, s)

/-- The initial world over the trivial system state. -/
def world0 : World Unit := { os := (), trace := [] }

/-- Table with `out` (mtime 100), `a` (mtime 100) and `b` (mtime 101). -/
def tableC1 : CStr → StatResult := fun p =>
  if p = ['o', 'u', 't'] then StatResult.ok 100
  else if p = ['a'] then StatResult.ok 100
  else if p = ['b'] then StatResult.ok 101
  else StatResult.enoent

/-- State of a scripted system: the files (path, `st_mtime`, content), and the answers of
the coming `rename`, `fork` and `waitpid` calls. -/
structure Sim where
  files : List (CStr × Int × Nat)
  renames : List Bool
  forks : List Int
  waits : List WaitResult
  deriving DecidableEq

/-- Looking a path up in the files of a scripted system. -/
def Sim.lookup (s : Sim) (path : CStr) : Option (Int × Nat) :=
  (s.files.find? (fun f => f.1 = path)).map (fun f => f.2)

/-- The scripted system: `stat` reads the file table; `rename` moves the entry when the
script allows it and the old path exists; `fork` and `waitpid` answer from the script. -/
def simOS : OS Sim where
  stat := fun s path =>
    match s.lookup path with
    | some f => StatResult.ok f.1
    | none => StatResult.enoent
  rename := fun s old_path new_path =>
    match s.renames with
    | [] => (false, s)
    | allowed :: rest =>
      match allowed, s.lookup old_path with
      | true, some f =>
        (true, { s with
          files := (new_path, f) ::
            s.files.filter (fun g => g.1 ≠ old_path ∧ g.1 ≠ new_path),
          renames := rest })
      | _, _ => (false, { s with renames := rest })
  fork := fun s _ =>
    match s.forks with
    | [] => (-1, s)
    | cpid :: rest => (cpid, { s with forks := rest })
  waitpid := fun s _ =>
    match s.waits with
    | [] => (WaitResult.failed, s)
    | r :: rest => (r, { s with waits := rest })

/-- The content of a file of the scripted system. -/
def simContent (s : Sim) (path : CStr) : Option Nat := (s.lookup path).map (fun f => f.2)

/-- A world of the scripted system with the given files and scripts. -/
def simWorld (files : List (CStr × Int × Nat)) (renames : List Bool) (forks : List Int)
    (waits : List WaitResult) : World Sim :=
  { os := { files := files, renames := renames, forks := forks, waits := waits }, trace := [] }

/-- A child that is reported stopped once and then exits with status 0. -/
def worldC4 : World Sim :=
  simWorld [] [] [] [WaitResult.status WStatus.other, WaitResult.status (WStatus.exited 0)]

/-- A system in which the child with process id `p` exits with status `p % 2`. -/
def parityOS : OS Unit where
  stat := fun _ _ => StatResult.enoent
  rename := fun s _ _ => (false, s)
  fork := fun s _ => (-1, s)
  waitpid := fun s p => (WaitResult.status (WStatus.exited (p % 2).toNat), s)

/-- Two handles: child 11 (exits with status 1) and child 12 (exits with status 0). -/
def procsC5 : Nob_Procs := { items := some [11, 12], count := 2, capacity := 256 }

/-- The path `nob`. -/
def pathNob : CStr := ['n', 'o', 'b']

/-- The path `nob.c`. -/
def pathNobC : CStr := ['n', 'o', 'b', '.', 'c']

/-- A scripted world in which the binary `nob` (mtime 200, content 1) is not older than
its source `nob.c` (mtime 100, content 2). -/
def worldFresh : World Sim :=
  simWorld [(pathNob, 200, 1), (pathNobC, 100, 2)] [true, true] [7, 8]
    [WaitResult.status (WStatus.exited 0), WaitResult.status (WStatus.exited 0)]

/-- A scripted world in which the binary `nob` (mtime 100, content 1) is older than its
source `nob.c` (mtime 200, content 2), with the given scripts. -/
def worldStale (renames : List Bool) (forks : List Int) (waits : List WaitResult) :
    World Sim :=
  simWorld [(pathNob, 100, 1), (pathNobC, 200, 2)] renames forks waits

/-- Stale binary; both renames are allowed and the compiler (child 7) exits with status 1. -/
def worldC8 : World Sim := worldStale [true, true] [7] [WaitResult.status (WStatus.exited 1)]

/-- An arena with cursor 8 and a buffer of `NOB_TEMP_CAPACITY` zero bytes. -/
def arenaC15 : TempArena := { nob_temp_size := 8, nob_temp := List.replicate NOB_TEMP_CAPACITY NUL }

/-- A full array of capacity 2 holding 10 and 20. -/
def daC17 : Nob_DA Nat := { items := some [10, 20], count := 2, capacity := 2 }

/-- A string builder holding `ab` in a block of capacity 2. -/
def sbC18 : Nob_StringBuilder := { items := some ['a', 'b'], count := 2, capacity := 2 }

/-- A string builder holding `gcc` and a terminator in a block of capacity 256, as
`nob_cmd_run_async` has it before `nob_sb_free`. -/
def sbC19 : Nob_StringBuilder :=
  { items := some ['g', 'c', 'c', NUL], count := 4, capacity := 256 }

/-- The command `cc -o 'my prog' it's` (the last argument contains a quote). -/
def cmdC20 : Nob_Cmd :=
  { items := some [some ['c', 'c'], some ['-', 'o'], some ['m', 'y', ' ', 'p', 'r', 'o', 'g'],
      some ['i', 't', QUOTE, 's']],
    count := 4, capacity := 256 }

/-- The arguments of `cmdC20`. -/
def argsC20 : List CStr :=
  [['c', 'c'], ['-', 'o'], ['m', 'y', ' ', 'p', 'r', 'o', 'g'], ['i', 't', QUOTE, 's']]

/-- A string builder that already holds `$ `. -/
def sbC20 : Nob_StringBuilder := { items := some ['$', ' '], count := 2, capacity := 4 }

/-- A child that exits with status 0 after one `waitpid`. -/
def worldC21 : World Sim := simWorld [] [] [7] [WaitResult.status (WStatus.exited 0)]

/-- Two arguments for the next command. -/
def argsC21 : List CStr := [['l', 's'], ['-', 'l']]

/-- Table with `out`, modified at 1700000000 (November 2023), and `in`, modified at
2147483648 (January 2038, one second after the largest `int`). -/
def tableC22 : CStr → StatResult := fun p =>
  if p = ['o', 'u', 't'] then StatResult.ok 1700000000
  else if p = ['i', 'n'] then StatResult.ok 2147483648
  else StatResult.enoent

/-! ## Theorems -/

/-! ### Staleness detection (C1, C2, C3) -/

theorem c_int_of_int_range (t : Int) (h : INT_MIN ≤ t ∧ t ≤ INT_MAX) : c_int t = t := by
  unfold INT_MIN INT_MAX at h
  unfold c_int
  omega

theorem nob_needs_rebuild_loop_all_exist (os : OS σ) (w : World σ) (t_out : Int)
    (mtime : CStr → Int) (input_paths : List CStr)
    (hin : ∀ p ∈ input_paths, os.stat w.os p = StatResult.ok (mtime p)) :
    nob_needs_rebuild_loop os t_out input_paths w =
      (if ∃ p ∈ input_paths, c_int (mtime p) > t_out then 1 else 0, w) := by
  induction input_paths with
  | nil => simp [nob_needs_rebuild_loop]
  | cons p rest ih =>
    have hp : os.stat w.os p = StatResult.ok (mtime p) := hin p (List.mem_cons_self _ _)
    have hrest : ∀ q ∈ rest, os.stat w.os q = StatResult.ok (mtime q) :=
      fun q hq => hin q (List.mem_cons_of_mem _ hq)
    simp only [nob_needs_rebuild_loop, hp]
    by_cases hgt : c_int (mtime p) > t_out
    · simp [hgt]
    · simp [hgt, ih hrest]

/-- C1: when the output exists and all inputs exist, with modification times in the range
of a 32-bit `int`, `nob_needs_rebuild` returns 1 exactly when some input is strictly newer
than the output and 0 exactly when none is (ties are up to date); an empty input list
gives 0. Nothing is logged and the system state is untouched. -/
theorem C1_needs_rebuild_compares_mtimes (os : OS σ) (w : World σ) (output_path : CStr)
    (input_paths : List CStr) (t_out : Int) (mtime : CStr → Int)
    (hout : os.stat w.os output_path = StatResult.ok t_out)
    (hin : ∀ p ∈ input_paths, os.stat w.os p = StatResult.ok (mtime p))
    (hrange_out : INT_MIN ≤ t_out ∧ t_out ≤ INT_MAX)
    (hrange_in : ∀ p ∈ input_paths, INT_MIN ≤ mtime p ∧ mtime p ≤ INT_MAX) :
    ((nob_needs_rebuild os output_path input_paths w).1 = 1 ↔
        ∃ p ∈ input_paths, mtime p > t_out) ∧
    ((nob_needs_rebuild os output_path input_paths w).1 = 0 ↔
        ∀ p ∈ input_paths, mtime p ≤ t_out) ∧
    ((nob_needs_rebuild os output_path input_paths w).1 = 1 ∨
        (nob_needs_rebuild os output_path input_paths w).1 = 0) ∧
    (input_paths = [] → (nob_needs_rebuild os output_path input_paths w).1 = 0) ∧
    (nob_needs_rebuild os output_path input_paths w).2 = w := by
  have hiff : (∃ p ∈ input_paths, c_int (mtime p) > c_int t_out) ↔
      ∃ p ∈ input_paths, mtime p > t_out := by
    constructor
    · rintro ⟨p, hp, h⟩
      rw [c_int_of_int_range _ (hrange_in p hp), c_int_of_int_range _ hrange_out] at h
      exact ⟨p, hp, h⟩
    · rintro ⟨p, hp, h⟩
      refine ⟨p, hp, ?_⟩
      rw [c_int_of_int_range _ (hrange_in p hp), c_int_of_int_range _ hrange_out]
      exact h
  have hval : nob_needs_rebuild os output_path input_paths w =
      (if ∃ p ∈ input_paths, mtime p > t_out then 1 else 0, w) := by
    simp only [nob_needs_rebuild, hout]
    rw [nob_needs_rebuild_loop_all_exist os w (c_int t_out) mtime input_paths hin]
    simp only [hiff]
  rw [hval]
  by_cases hex : ∃ p ∈ input_paths, mtime p > t_out
  · rw [if_pos hex]
    refine ⟨⟨fun _ => hex, fun _ => rfl⟩, ⟨fun h => absurd (show (1 : Int) = 0 from h) (by decide), ?_⟩,
      Or.inl rfl, ?_, rfl⟩
    · intro hall
      obtain ⟨p, hp, hgt⟩ := hex
      have := hall p hp
      omega
    · intro hnil
      subst hnil
      simp at hex
  · rw [if_neg hex]
    refine ⟨⟨fun h => absurd (show (0 : Int) = 1 from h) (by decide), fun h => absurd h hex⟩, ⟨?_, fun _ => rfl⟩,
      Or.inr rfl, fun _ => rfl, rfl⟩
    intro _ p hp
    by_contra hle
    exact hex ⟨p, hp, by omega⟩

theorem C1_needs_rebuild_compares_mtimes_witness :
    ((nob_needs_rebuild (statOnlyOS tableC1) ['o', 'u', 't'] [['a'], ['b']] world0).1 = 1 ↔
        ∃ p ∈ [['a'], ['b']], (fun q : CStr => if q = ['a'] then (100 : Int) else 101) p > 100) ∧
    ((nob_needs_rebuild (statOnlyOS tableC1) ['o', 'u', 't'] [['a'], ['b']] world0).1 = 0 ↔
        ∀ p ∈ [['a'], ['b']], (fun q : CStr => if q = ['a'] then (100 : Int) else 101) p ≤ 100) ∧
    ((nob_needs_rebuild (statOnlyOS tableC1) ['o', 'u', 't'] [['a'], ['b']] world0).1 = 1 ∨
        (nob_needs_rebuild (statOnlyOS tableC1) ['o', 'u', 't'] [['a'], ['b']] world0).1 = 0) ∧
    (([['a'], ['b']] : List CStr) = [] →
        (nob_needs_rebuild (statOnlyOS tableC1) ['o', 'u', 't'] [['a'], ['b']] world0).1 = 0) ∧
    (nob_needs_rebuild (statOnlyOS tableC1) ['o', 'u', 't'] [['a'], ['b']] world0).2 = world0 :=
  C1_needs_rebuild_compares_mtimes (statOnlyOS tableC1) world0 ['o', 'u', 't'] [['a'], ['b']] 100
    (fun q => if q = ['a'] then 100 else 101) (by decide) (by decide) (by decide) (by decide)

/-- C2: when the output path does not exist (`stat` fails with `ENOENT`),
`nob_needs_rebuild` returns 1 for every list of inputs, whatever their state, and
`nob_needs_rebuild1` returns 1 for its single input; nothing is logged. -/
theorem C2_missing_output_needs_rebuild (os : OS σ) (w : World σ) (output_path : CStr)
    (input_paths : List CStr) (input_path : CStr)
    (hout : os.stat w.os output_path = StatResult.enoent) :
    nob_needs_rebuild os output_path input_paths w = (1, w) ∧
    nob_needs_rebuild1 os output_path input_path w = (1, w) := by
  simp [nob_needs_rebuild1, nob_needs_rebuild, hout]

theorem C2_missing_output_needs_rebuild_witness :
    nob_needs_rebuild (statOnlyOS tableC1) ['n', 'e', 'w'] [['a'], ['z'], ['b']] world0
      = (1, world0) ∧
    nob_needs_rebuild1 (statOnlyOS tableC1) ['n', 'e', 'w'] ['z'] world0 = (1, world0) :=
  C2_missing_output_needs_rebuild (statOnlyOS tableC1) world0 ['n', 'e', 'w']
    [['a'], ['z'], ['b']] ['z'] (by decide)

/-- C3 as stated fails: with a missing output and a missing input the result is 1, and
with an existing output (mtime 100), a newer input `b` (mtime 101) listed before a missing
input `z` the result is 1 as well, not -1. -/
theorem C3_missing_input_counterexample :
    (statOnlyOS tableC1).stat world0.os ['z'] = StatResult.enoent ∧
    (statOnlyOS tableC1).stat world0.os ['n', 'e', 'w'] = StatResult.enoent ∧
    (nob_needs_rebuild (statOnlyOS tableC1) ['n', 'e', 'w'] [['z']] world0).1 = 1 ∧
    (statOnlyOS tableC1).stat world0.os ['o', 'u', 't'] = StatResult.ok 100 ∧
    (nob_needs_rebuild (statOnlyOS tableC1) ['o', 'u', 't'] [['b'], ['z']] world0).1 = 1 := by
  decide

theorem nob_needs_rebuild_loop_first_missing (os : OS σ) (w : World σ) (t_out : Int)
    (mtime : CStr → Int) (before : List CStr) (missing : CStr) (after : List CStr)
    (hbefore : ∀ p ∈ before, os.stat w.os p = StatResult.ok (mtime p))
    (hmissing : ∀ t, os.stat w.os missing ≠ StatResult.ok t) :
    (nob_needs_rebuild_loop os t_out (before ++ missing :: after) w).1 =
      (if ∃ p ∈ before, c_int (mtime p) > t_out then 1 else -1) := by
  induction before with
  | nil =>
    simp only [List.nil_append, nob_needs_rebuild_loop]
    cases hs : os.stat w.os missing with
    | ok t => exact absurd hs (hmissing t)
    | enoent => simp
    | error => simp
  | cons p rest ih =>
    have hp : os.stat w.os p = StatResult.ok (mtime p) := hbefore p (List.mem_cons_self _ _)
    have hrest : ∀ q ∈ rest, os.stat w.os q = StatResult.ok (mtime q) :=
      fun q hq => hbefore q (List.mem_cons_of_mem _ hq)
    simp only [List.cons_append, nob_needs_rebuild_loop, hp]
    by_cases hgt : c_int (mtime p) > t_out
    · simp [hgt]
    · simp [hgt, ih hrest]

/-- C3, amended: when the output exists and `missing` is the first input that `stat` cannot
find, `nob_needs_rebuild` returns -1 unless one of the inputs listed before it is strictly
newer than the output (compared as `int`), in which case it returns 1; it never returns 0.
When `stat` fails on the output for a reason other than `ENOENT` the result is -1. -/
theorem C3_missing_input_is_error (os : OS σ) (w : World σ) (output_path : CStr)
    (mtime : CStr → Int) (before : List CStr) (missing : CStr) (after : List CStr)
    (hbefore : ∀ p ∈ before, os.stat w.os p = StatResult.ok (mtime p))
    (hmissing : os.stat w.os missing = StatResult.enoent) :
    (∀ t_out, os.stat w.os output_path = StatResult.ok t_out →
      (nob_needs_rebuild os output_path (before ++ missing :: after) w).1 =
        (if ∃ p ∈ before, c_int (mtime p) > c_int t_out then 1 else -1) ∧
      (nob_needs_rebuild os output_path (before ++ missing :: after) w).1 ≠ 0) ∧
    (os.stat w.os output_path = StatResult.error →
      (nob_needs_rebuild os output_path (before ++ missing :: after) w).1 = -1) := by
  constructor
  · intro t_out hout
    have hval : (nob_needs_rebuild os output_path (before ++ missing :: after) w).1 =
        (if ∃ p ∈ before, c_int (mtime p) > c_int t_out then 1 else -1) := by
      simp only [nob_needs_rebuild, hout]
      exact nob_needs_rebuild_loop_first_missing os w (c_int t_out) mtime before missing after
        hbefore (by intro t; rw [hmissing]; exact fun h => StatResult.noConfusion h)
    refine ⟨hval, ?_⟩
    rw [hval]
    split <;> decide
  · intro hout
    simp [nob_needs_rebuild, hout]

theorem C3_missing_input_is_error_witness :
    (∀ t_out, (statOnlyOS tableC1).stat world0.os ['o', 'u', 't'] = StatResult.ok t_out →
      (nob_needs_rebuild (statOnlyOS tableC1) ['o', 'u', 't'] ([['a']] ++ ['z'] :: [['b']])
          world0).1 =
        (if ∃ p ∈ [['a']], c_int ((fun _ : CStr => (100 : Int)) p) > c_int t_out
          then 1 else -1) ∧
      (nob_needs_rebuild (statOnlyOS tableC1) ['o', 'u', 't'] ([['a']] ++ ['z'] :: [['b']])
          world0).1 ≠ 0) ∧
    ((statOnlyOS tableC1).stat world0.os ['o', 'u', 't'] = StatResult.error →
      (nob_needs_rebuild (statOnlyOS tableC1) ['o', 'u', 't'] ([['a']] ++ ['z'] :: [['b']])
          world0).1 = -1) :=
  C3_missing_input_is_error (statOnlyOS tableC1) world0 ['o', 'u', 't'] (fun _ => 100)
    [['a']] ['z'] [['b']] (by decide) (by decide)

/-! ### Waiting for processes (C4, C5) -/

theorem wait_answer_succ (os : OS σ) (p : Nob_Process) (k : Nat) (s : σ) :
    wait_answer os p (k + 1) s = wait_answer os p k (os.waitpid s p).2 := rfl

theorem nob_proc_wait_loop_terminal (os : OS σ) (p : Nob_Process) (k : Nat) :
    ∀ (fuel : Nat) (w : World σ),
      (∀ j < k, wait_answer os p j w.os = WaitResult.status WStatus.other) →
      wait_answer os p k w.os ≠ WaitResult.status WStatus.other →
      k < fuel →
      (nob_proc_wait_loop os p fuel w).1 =
        Outcome.ret (decide (wait_answer os p k w.os = WaitResult.status (WStatus.exited 0))) := by
  induction k with
  | zero =>
    intro fuel w _ hterm hfuel
    obtain ⟨f, rfl⟩ : ∃ f, fuel = f + 1 := ⟨fuel - 1, by omega⟩
    have h0 : wait_answer os p 0 w.os = (os.waitpid w.os p).1 := rfl
    rw [h0] at hterm ⊢
    unfold nob_proc_wait_loop
    cases hr : (os.waitpid w.os p).1 with
    | failed => simp
    | status st =>
      cases st with
      | exited c =>
        by_cases hc : c = 0
        · simp [hc]
        · simp [hc]
      | signaled sg => simp
      | other => exact absurd hr hterm
  | succ k ih =>
    intro fuel w hother hterm hfuel
    obtain ⟨f, rfl⟩ : ∃ f, fuel = f + 1 := ⟨fuel - 1, by omega⟩
    have h0 : (os.waitpid w.os p).1 = WaitResult.status WStatus.other :=
      hother 0 (Nat.succ_pos k)
    unfold nob_proc_wait_loop
    simp only [h0]
    rw [wait_answer_succ]
    apply ih
    · intro j hj
      have := hother (j + 1) (by omega)
      rw [wait_answer_succ] at this
      exact this
    · rw [wait_answer_succ] at hterm
      exact hterm
    · omega

/-- C4: for a valid handle whose `waitpid` reports end after `k` reports that are neither
an exit nor a signal, `nob_proc_wait` (with more than `k` rounds of fuel) returns a boolean,
which is true exactly when the child exited normally with status 0: false for every
non-zero exit status, every signal and a failed `waitpid`. For `NOB_INVALID_PROC` it
returns false without calling `waitpid` (the world is unchanged). -/
theorem C4_proc_wait_result (os : OS σ) (p : Nob_Process) (w : World σ) (fuel k : Nat)
    (hp : p ≠ NOB_INVALID_PROC)
    (hother : ∀ j < k, wait_answer os p j w.os = WaitResult.status WStatus.other)
    (hterm : wait_answer os p k w.os ≠ WaitResult.status WStatus.other)
    (hfuel : k < fuel) :
    (∃ b : Bool, (nob_proc_wait os fuel p w).1 = Outcome.ret b ∧
      (b = true ↔ wait_answer os p k w.os = WaitResult.status (WStatus.exited 0)) ∧
      (∀ c, c ≠ 0 → wait_answer os p k w.os = WaitResult.status (WStatus.exited c) →
        b = false) ∧
      (∀ sg, wait_answer os p k w.os = WaitResult.status (WStatus.signaled sg) → b = false) ∧
      (wait_answer os p k w.os = WaitResult.failed → b = false)) ∧
    nob_proc_wait os fuel NOB_INVALID_PROC w = (Outcome.ret false, w) := by
  refine ⟨⟨decide (wait_answer os p k w.os = WaitResult.status (WStatus.exited 0)),
    ?_, by simp, ?_, ?_, ?_⟩, by simp [nob_proc_wait]⟩
  · simp only [nob_proc_wait, hp, if_false]
    exact nob_proc_wait_loop_terminal os p k fuel w hother hterm hfuel
  · intro c hc h
    simp [h, hc]
  · intro sg h
    simp [h]
  · intro h
    simp [h]

theorem C4_proc_wait_result_witness :
    (∃ b : Bool, (nob_proc_wait simOS 2 7 worldC4).1 = Outcome.ret b ∧
      (b = true ↔ wait_answer simOS 7 1 worldC4.os = WaitResult.status (WStatus.exited 0)) ∧
      (∀ c, c ≠ 0 → wait_answer simOS 7 1 worldC4.os = WaitResult.status (WStatus.exited c) →
        b = false) ∧
      (∀ sg, wait_answer simOS 7 1 worldC4.os = WaitResult.status (WStatus.signaled sg) →
        b = false) ∧
      (wait_answer simOS 7 1 worldC4.os = WaitResult.failed → b = false)) ∧
    nob_proc_wait simOS 2 NOB_INVALID_PROC worldC4 = (Outcome.ret false, worldC4) :=
  C4_proc_wait_result simOS 7 worldC4 2 1 (by decide) (by decide) (by decide) (by decide)

theorem nob_procs_wait_loop_eq_wait_each (os : OS σ) (fuel : Nat) (handles : List Nob_Process) :
    ∀ (success : Bool) (w : World σ),
      nob_procs_wait_loop os fuel handles success w =
        Outcome.andThen (wait_each os fuel handles w)
          (fun bs w1 => (Outcome.ret (bs.all id && success), w1)) := by
  induction handles with
  | nil => intro success w; simp [nob_procs_wait_loop, wait_each, Outcome.andThen]
  | cons p rest ih =>
    intro success w
    simp only [nob_procs_wait_loop, wait_each]
    rcases hw : nob_proc_wait os fuel p w with ⟨o, w1⟩
    cases o with
    | ret b =>
      simp only [Outcome.andThen]
      rw [ih]
      rcases hr : wait_each os fuel rest w1 with ⟨o2, w2⟩
      cases o2 with
      | ret bs =>
        simp only [Outcome.andThen, List.all_cons, id]
        cases b <;> cases success <;> simp
      | exit c => simp [Outcome.andThen]
      | abort => simp [Outcome.andThen]
      | child => simp [Outcome.andThen]
      | stuck => simp [Outcome.andThen]
    | exit c => simp [Outcome.andThen]
    | abort => simp [Outcome.andThen]
    | child => simp [Outcome.andThen]
    | stuck => simp [Outcome.andThen]

theorem wait_each_length (os : OS σ) (fuel : Nat) (handles : List Nob_Process) :
    ∀ (w : World σ) (bs : List Bool) (w1 : World σ),
      wait_each os fuel handles w = (Outcome.ret bs, w1) → bs.length = handles.length := by
  induction handles with
  | nil =>
    intro w bs w1 h
    simp only [wait_each, Prod.mk.injEq, Outcome.ret.injEq] at h
    rw [← h.1]
    rfl
  | cons p rest ih =>
    intro w bs w1 h
    simp only [wait_each] at h
    rcases hw : nob_proc_wait os fuel p w with ⟨o, w2⟩
    rw [hw] at h
    cases o with
    | ret b =>
      simp only [Outcome.andThen] at h
      rcases hr : wait_each os fuel rest w2 with ⟨o2, w3⟩
      rw [hr] at h
      cases o2 with
      | ret bs2 =>
        simp only [Outcome.andThen, Prod.mk.injEq, Outcome.ret.injEq] at h
        rw [← h.1, List.length_cons, ih w2 bs2 w3 hr, List.length_cons]
      | exit c => simp [Outcome.andThen] at h
      | abort => simp [Outcome.andThen] at h
      | child => simp [Outcome.andThen] at h
      | stuck => simp [Outcome.andThen] at h
    | exit c => simp [Outcome.andThen] at h
    | abort => simp [Outcome.andThen] at h
    | child => simp [Outcome.andThen] at h
    | stuck => simp [Outcome.andThen] at h

theorem waited_append (xs ys : List Event) : waited (xs ++ ys) = waited xs ++ waited ys := by
  induction xs with
  | nil => rfl
  | cons e rest ih => cases e <;> simp [waited, ih]

theorem nob_proc_wait_once (os : OS σ) (fuel : Nat) (p : Nob_Process) (w : World σ)
    (hno : ∀ s q, (os.waitpid s q).1 ≠ WaitResult.status WStatus.other) (hfuel : 0 < fuel) :
    (∃ b, (nob_proc_wait os fuel p w).1 = Outcome.ret b) ∧
    waited (nob_proc_wait os fuel p w).2.trace =
      waited w.trace ++ (if p ≠ NOB_INVALID_PROC then [p] else []) := by
  by_cases hp : p = NOB_INVALID_PROC
  · simp [nob_proc_wait, hp]
  · obtain ⟨f, rfl⟩ : ∃ f, fuel = f + 1 := ⟨fuel - 1, by omega⟩
    simp only [nob_proc_wait, hp, if_false, nob_proc_wait_loop]
    cases hr : (os.waitpid w.os p).1 with
    | failed => simp [nob_log, waited_append, waited, hp]
    | status st =>
      cases st with
      | exited c =>
        by_cases hc : c = 0
        · simp [hc, nob_log, waited_append, waited, hp]
        · simp [hc, nob_log, waited_append, waited, hp]
      | signaled sg => simp [nob_log, waited_append, waited, hp]
      | other => exact absurd hr (hno _ _)

theorem nob_procs_wait_loop_waits (os : OS σ) (fuel : Nat)
    (hno : ∀ s q, (os.waitpid s q).1 ≠ WaitResult.status WStatus.other) (hfuel : 0 < fuel)
    (handles : List Nob_Process) :
    ∀ (success : Bool) (w : World σ),
      (∃ b, (nob_procs_wait_loop os fuel handles success w).1 = Outcome.ret b) ∧
      waited (nob_procs_wait_loop os fuel handles success w).2.trace =
        waited w.trace ++ handles.filter (fun p => p ≠ NOB_INVALID_PROC) := by
  induction handles with
  | nil => intro success w; simp [nob_procs_wait_loop]
  | cons p rest ih =>
    intro success w
    obtain ⟨⟨b, hb⟩, htr⟩ := nob_proc_wait_once os fuel p w hno hfuel
    rcases hw : nob_proc_wait os fuel p w with ⟨o, w1⟩
    rw [hw] at hb htr
    simp only at hb htr
    subst hb
    simp only [nob_procs_wait_loop, hw, Outcome.andThen]
    obtain ⟨hex, hwt⟩ := ih (b && success) w1
    refine ⟨hex, ?_⟩
    rw [hwt, htr]
    by_cases hp : p = NOB_INVALID_PROC
    · simp [hp]
    · simp [hp]

/-- C5: `nob_procs_wait` is one call of `nob_proc_wait` per handle, in list order and
whatever the earlier calls returned, followed by the conjunction of the results: it returns
true exactly when every call returned true. When `waitpid` always reports an end, every
valid handle is waited for exactly once, in list order. -/
theorem C5_procs_wait_all (os : OS σ) (fuel : Nat) (procs : Nob_Procs)
    (handles : List Nob_Process) (w : World σ) (helems : da_elems procs = some handles) :
    nob_procs_wait os fuel procs w =
      Outcome.andThen (wait_each os fuel handles w)
        (fun bs w1 => (Outcome.ret (bs.all id), w1)) ∧
    (∀ bs w1, wait_each os fuel handles w = (Outcome.ret bs, w1) →
      bs.length = handles.length ∧
      ((nob_procs_wait os fuel procs w).1 = Outcome.ret true ↔ ∀ b ∈ bs, b = true) ∧
      ((nob_procs_wait os fuel procs w).1 = Outcome.ret false ↔ ∃ b ∈ bs, b = false)) ∧
    ((∀ s q, (os.waitpid s q).1 ≠ WaitResult.status WStatus.other) → 0 < fuel →
      (∃ b, (nob_procs_wait os fuel procs w).1 = Outcome.ret b) ∧
      waited (nob_procs_wait os fuel procs w).2.trace =
        waited w.trace ++ handles.filter (fun p => p ≠ NOB_INVALID_PROC)) := by
  have heq : nob_procs_wait os fuel procs w =
      Outcome.andThen (wait_each os fuel handles w)
        (fun bs w1 => (Outcome.ret (bs.all id), w1)) := by
    simp only [nob_procs_wait, helems]
    rw [nob_procs_wait_loop_eq_wait_each]
    simp
  refine ⟨heq, ?_, ?_⟩
  · intro bs w1 hbs
    refine ⟨wait_each_length os fuel handles w bs w1 hbs, ?_, ?_⟩
    · rw [heq, hbs]
      simp [Outcome.andThen]
    · rw [heq, hbs]
      simp [Outcome.andThen]
  · intro hno hfuel
    simp only [nob_procs_wait, helems]
    exact nob_procs_wait_loop_waits os fuel hno hfuel handles true w

theorem C5_procs_wait_all_witness :
    da_elems procsC5 = some [11, 12] ∧
    (nob_procs_wait parityOS 1 procsC5 world0).1 = Outcome.ret false ∧
    waited (nob_procs_wait parityOS 1 procsC5 world0).2.trace = [11, 12] ∧
    (nob_procs_wait parityOS 1 procsC5 world0 =
      Outcome.andThen (wait_each parityOS 1 [11, 12] world0)
        (fun bs w1 => (Outcome.ret (bs.all id), w1)) ∧
    (∀ bs w1, wait_each parityOS 1 [11, 12] world0 = (Outcome.ret bs, w1) →
      bs.length = [(11 : Int), 12].length ∧
      ((nob_procs_wait parityOS 1 procsC5 world0).1 = Outcome.ret true ↔ ∀ b ∈ bs, b = true) ∧
      ((nob_procs_wait parityOS 1 procsC5 world0).1 = Outcome.ret false ↔
        ∃ b ∈ bs, b = false)) ∧
    ((∀ s q, (parityOS.waitpid s q).1 ≠ WaitResult.status WStatus.other) → 0 < 1 →
      (∃ b, (nob_procs_wait parityOS 1 procsC5 world0).1 = Outcome.ret b) ∧
      waited (nob_procs_wait parityOS 1 procsC5 world0).2.trace =
        waited world0.trace ++ [(11 : Int), 12].filter (fun p => p ≠ NOB_INVALID_PROC))) :=
  ⟨by decide, by decide, by decide,
    C5_procs_wait_all parityOS 1 procsC5 [11, 12] world0 (by decide)⟩

/-! ### Running commands (C6) -/

/-- C6: for a command with zero arguments `nob_cmd_run_async` returns `NOB_INVALID_PROC`;
its whole effect is one `NOB_ERROR` log line: the system state is unchanged and the trace
gains no `fork`. `nob_cmd_run_sync` then returns false with the same single effect, so it
calls neither `fork` nor `waitpid`. -/
theorem C6_empty_command_rejected (os : OS σ) (fuel : Nat) (cmd : Nob_Cmd) (w : World σ)
    (hempty : cmd.count = 0) :
    nob_cmd_run_async os cmd w =
      (Outcome.ret NOB_INVALID_PROC,
        { os := w.os,
          trace := w.trace ++
            [Event.log Nob_LogLevel.NOB_ERROR "Could not run empty command" []] }) ∧
    nob_cmd_run_sync os fuel cmd w =
      (Outcome.ret false,
        { os := w.os,
          trace := w.trace ++
            [Event.log Nob_LogLevel.NOB_ERROR "Could not run empty command" []] }) := by
  have hasync : nob_cmd_run_async os cmd w =
      (Outcome.ret NOB_INVALID_PROC,
        { os := w.os,
          trace := w.trace ++
            [Event.log Nob_LogLevel.NOB_ERROR "Could not run empty command" []] }) := by
    simp [nob_cmd_run_async, hempty, nob_log]
  refine ⟨hasync, ?_⟩
  simp [nob_cmd_run_sync, hasync, Outcome.andThen]

theorem C6_empty_command_rejected_witness :
    (Nob_DA.zero : Nob_Cmd).count = 0 ∧
    nob_cmd_run_async simOS Nob_DA.zero (simWorld [] [] [5] []) =
      (Outcome.ret NOB_INVALID_PROC,
        { os := (simWorld [] [] [5] []).os,
          trace := (simWorld [] [] [5] []).trace ++
            [Event.log Nob_LogLevel.NOB_ERROR "Could not run empty command" []] }) ∧
    nob_cmd_run_sync simOS 3 Nob_DA.zero (simWorld [] [] [5] []) =
      (Outcome.ret false,
        { os := (simWorld [] [] [5] []).os,
          trace := (simWorld [] [] [5] []).trace ++
            [Event.log Nob_LogLevel.NOB_ERROR "Could not run empty command" []] }) :=
  ⟨rfl, C6_empty_command_rejected simOS 3 Nob_DA.zero (simWorld [] [] [5] []) rfl⟩

/-! ### Dynamic arrays: growth -/

theorem da_grow_loop_ends (need : Nat) (hneed : need < 2 ^ 63) :
    ∀ (fuel capacity : Nat), 0 < capacity → capacity < SIZE_MOD →
      need < capacity * 2 ^ fuel →
      ∃ grown, da_grow_loop (fuel + 1) need capacity = some grown ∧ need < grown ∧
        capacity ≤ grown ∧ grown < SIZE_MOD := by
  intro fuel
  induction fuel with
  | zero =>
    intro capacity _ hlt hbig
    refine ⟨capacity, ?_, by omega, le_refl _, hlt⟩
    have : ¬ need ≥ capacity := by omega
    simp [da_grow_loop, this]
  | succ fuel ih =>
    intro capacity hpos hlt hbig
    by_cases hge : need ≥ capacity
    · have hdouble : capacity * 2 % SIZE_MOD = capacity * 2 := by
        apply Nat.mod_eq_of_lt
        unfold SIZE_MOD
        omega
      have hlt2 : capacity * 2 < SIZE_MOD := by
        unfold SIZE_MOD
        omega
      have hbig2 : need < capacity * 2 * 2 ^ fuel := by
        have : capacity * 2 * 2 ^ fuel = capacity * 2 ^ (fuel + 1) := by ring
        omega
      obtain ⟨grown, hg, h1, h2, h3⟩ := ih (capacity * 2) (by omega) hlt2 hbig2
      refine ⟨grown, ?_, h1, by omega, h3⟩
      rw [da_grow_loop]
      simp only [hge, if_true, hdouble]
      exact hg
    · refine ⟨capacity, ?_, by omega, le_refl _, hlt⟩
      rw [da_grow_loop]
      simp [hge]

theorem da_store_at_end {α : Type} (block new_items : List α) :
    da_store block block.length new_items = block ++ new_items := by
  simp [da_store]

/-- Appending to an array whose representation is sound: the capacity fits `size_t`, a
`NULL` block has capacity 0, and the initialised slots cover `count` and fit the
capacity. -/
theorem nob_da_append_many_grows {α : Type} (da : Nob_DA α) (new_items : List α)
    (hcap : da.capacity < SIZE_MOD)
    (hnull : da.items = none → da.capacity = 0)
    (hblock : (da.items.getD []).length ≤ da.capacity)
    (hbound : da.count + new_items.length < 2 ^ 63) :
    ∃ grown, nob_da_append_many da new_items =
        some { items := some (da_store (da.items.getD []) da.count new_items),
               count := da.count + new_items.length,
               capacity := grown } ∧
      da.count + new_items.length ≤ grown ∧ da.capacity ≤ grown ∧ grown < SIZE_MOD ∧
      (da.count + new_items.length < da.capacity → grown = da.capacity) := by
  have hmod : (da.count + new_items.length) % SIZE_MOD = da.count + new_items.length := by
    apply Nat.mod_eq_of_lt
    unfold SIZE_MOD
    omega
  by_cases hge : da.count + new_items.length ≥ da.capacity
  · have hcap0 : ((if da.capacity = 0 then 1 else 0) * DA_INIT_CAP +
        (if da.capacity ≠ 0 then 1 else 0) * da.capacity) % SIZE_MOD =
        (if da.capacity = 0 then 256 else da.capacity) := by
      by_cases hz : da.capacity = 0
      · simp [hz, DA_INIT_CAP, SIZE_MOD]
      · simp [hz, Nat.mod_eq_of_lt hcap]
    have hpos : 0 < (if da.capacity = 0 then 256 else da.capacity) := by
      split <;> omega
    have hlt : (if da.capacity = 0 then 256 else da.capacity) < SIZE_MOD := by
      split
      · unfold SIZE_MOD; omega
      · exact hcap
    have hbig : da.count + new_items.length <
        (if da.capacity = 0 then 256 else da.capacity) * 2 ^ 64 := by
      have h1 : 1 * 2 ^ 64 ≤ (if da.capacity = 0 then 256 else da.capacity) * 2 ^ 64 :=
        Nat.mul_le_mul_right _ hpos
      omega
    obtain ⟨grown, hg, h1, h2, h3⟩ :=
      da_grow_loop_ends (da.count + new_items.length) hbound 64 _ hpos hlt hbig
    have hle : da.capacity ≤ grown := by
      have : da.capacity ≤ (if da.capacity = 0 then 256 else da.capacity) := by
        split <;> omega
      omega
    have hrealloc : da_realloc da.items grown = da.items.getD [] := by
      unfold da_realloc
      exact List.take_of_length_le (by omega)
    refine ⟨grown, ?_, by omega, hle, h3, by omega⟩
    unfold nob_da_append_many
    simp only [hmod, hge, if_true, hcap0, hg, hrealloc]
    have : da.count + new_items.length ≤ grown := by omega
    simp [this]
  · have hsome : ∃ block, da.items = some block := by
      cases hi : da.items with
      | none => have := hnull hi; omega
      | some block => exact ⟨block, rfl⟩
    obtain ⟨block, hb⟩ := hsome
    refine ⟨da.capacity, ?_, by omega, le_refl _, hcap, fun _ => rfl⟩
    unfold nob_da_append_many
    simp only [hmod, hge, if_false, hb]
    have : da.count + new_items.length ≤ da.capacity := by omega
    simp [this]

theorem nob_da_append_many_packed {α : Type} (block new_items : List α) (capacity : Nat)
    (hcap : capacity < SIZE_MOD) (hfit : block.length ≤ capacity)
    (hbound : block.length + new_items.length < 2 ^ 63) :
    ∃ grown, nob_da_append_many
        { items := some block, count := block.length, capacity := capacity } new_items =
      some { items := some (block ++ new_items), count := block.length + new_items.length,
             capacity := grown } ∧
      block.length + new_items.length ≤ grown ∧ grown < SIZE_MOD := by
  obtain ⟨grown, h, h1, _, h3, _⟩ := nob_da_append_many_grows
    ({ items := some block, count := block.length, capacity := capacity } : Nob_DA α)
    new_items hcap (by simp) (by simpa using hfit) (by simpa using hbound)
  refine ⟨grown, ?_, by simpa using h1, h3⟩
  rw [h]
  simp [da_store_at_end]

/-! ### Self-rebuild bootstrap (C7, C8, C9) -/

theorem rebuild_backup_path_eq (binary_path : CStr) (hnul : NUL ∉ binary_path)
    (hlen : binary_path.length + 5 < 2 ^ 63) :
    rebuild_backup_path binary_path = some (backup_of binary_path) := by
  obtain ⟨g1, h1, hg1, _, hg1m, _⟩ :=
    nob_da_append_many_grows (Nob_DA.zero : Nob_StringBuilder) binary_path
      (by simp [Nob_DA.zero, SIZE_MOD]) (by simp [Nob_DA.zero]) (by simp [Nob_DA.zero])
      (by simp only [Nob_DA.zero]; omega)
  have h1b : nob_da_append_many (Nob_DA.zero : Nob_StringBuilder) binary_path =
      some { items := some binary_path, count := binary_path.length, capacity := g1 } := by
    rw [h1]
    simp [Nob_DA.zero, da_store]
  simp only [Nob_DA.zero, zero_add] at hg1
  obtain ⟨g2, h2, hg2, hg2m⟩ :=
    nob_da_append_many_packed binary_path ['.', 'o', 'l', 'd'] g1 hg1m hg1
      (by simp only [List.length_cons, List.length_nil]; omega)
  have hlen2 : (binary_path ++ ['.', 'o', 'l', 'd']).length = binary_path.length + 4 := by
    simp
  obtain ⟨g3, h3, _, _⟩ :=
    nob_da_append_many_packed (binary_path ++ ['.', 'o', 'l', 'd']) [NUL] g2 hg2m
      (by rw [hlen2]; simpa using hg2)
      (by rw [hlen2]; simp only [List.length_cons, List.length_nil]; omega)
  rw [hlen2] at h3
  simp only [List.length_cons, List.length_nil] at h2
  unfold rebuild_backup_path nob_sb_append_cstr nob_sb_append_null
  rw [h1b]
  simp only
  rw [h2]
  simp only
  rw [h3]
  simp only [c_str_of, List.mem_append, List.mem_singleton, or_true, if_true, backup_of,
    Option.some.injEq]
  have hall : ∀ c ∈ binary_path ++ ['.', 'o', 'l', 'd'], (c != NUL) = true := by
    intro c hc
    rcases List.mem_append.mp hc with h | h
    · have : c ≠ NUL := fun e => hnul (e ▸ h)
      simpa using this
    · have hcases : c = '.' ∨ c = 'o' ∨ c = 'l' ∨ c = 'd' := by simpa using h
      rcases hcases with e | e | e | e <;> subst e <;> decide
  rw [List.takeWhile_append_of_pos hall]
  simp

theorem nob_cmd_append_rebuild (binary_path source_path : CStr) :
    nob_cmd_append Nob_DA.zero (NOB_REBUILD_URSELF binary_path source_path) =
      some (rebuild_cmd binary_path source_path) := by
  rfl

theorem actions_append (xs ys : List Event) : actions (xs ++ ys) = actions xs ++ actions ys := by
  induction xs with
  | nil => rfl
  | cons e rest ih => cases e <;> simp [actions, ih]

theorem nob_proc_wait_loop_frame {β : Type} (os : OS σ) (p : Nob_Process) (f : σ → β)
    (hwait : ∀ s q, f (os.waitpid s q).2 = f s) :
    ∀ (fuel : Nat) (w : World σ),
      actions (nob_proc_wait_loop os p fuel w).2.trace = actions w.trace ∧
      f (nob_proc_wait_loop os p fuel w).2.os = f w.os := by
  intro fuel
  induction fuel with
  | zero => intro w; simp [nob_proc_wait_loop]
  | succ fuel ih =>
    intro w
    unfold nob_proc_wait_loop
    cases hr : (os.waitpid w.os p).1 with
    | failed => simp [nob_log, actions_append, actions, hwait]
    | status st =>
      cases st with
      | exited c =>
        by_cases hc : c = 0
        · simp [hc, nob_log, actions_append, actions, hwait]
        · simp [hc, nob_log, actions_append, actions, hwait]
      | signaled sg => simp [nob_log, actions_append, actions, hwait]
      | other =>
        simp only
        obtain ⟨h1, h2⟩ := ih
          { os := (os.waitpid w.os p).2, trace := w.trace ++ [Event.waitpid p] }
        rw [h1, h2]
        simp [actions_append, actions, hwait]

theorem nob_cmd_run_sync_frame {β : Type} (os : OS σ) (fuel : Nat) (cmd : Nob_Cmd)
    (args : List (Option CStr)) (w w1 : World σ) (ran : Bool) (f : σ → β)
    (hcount : 1 ≤ cmd.count) (helems : da_elems cmd = some args)
    (hrun : nob_cmd_run_sync os fuel cmd w = (Outcome.ret ran, w1))
    (hfork : ∀ s a, f (os.fork s a).2 = f s)
    (hwait : ∀ s q, f (os.waitpid s q).2 = f s) :
    actions w1.trace = actions w.trace ++ [Event.fork args] ∧ f w1.os = f w.os := by
  have hc : ¬ cmd.count < 1 := by omega
  unfold nob_cmd_run_sync nob_cmd_run_async at hrun
  simp only [hc, if_false, helems] at hrun
  cases hrender : (nob_cmd_render cmd Nob_DA.zero).bind nob_sb_append_null with
  | none =>
    rw [hrender] at hrun
    simp [Outcome.andThen] at hrun
  | some sb =>
    rw [hrender] at hrun
    simp only at hrun
    cases htext : c_str_of sb.items with
    | none =>
      rw [htext] at hrun
      simp [Outcome.andThen] at hrun
    | some text =>
      rw [htext] at hrun
      simp only at hrun
      by_cases hneg : (os.fork (nob_log Nob_LogLevel.NOB_INFO "CMD: %s" [text] w).os args).1 < 0
      · simp only [hneg, if_true, Outcome.andThen, NOB_INVALID_PROC] at hrun
        simp only [if_true, Prod.mk.injEq, Outcome.ret.injEq] at hrun
        rw [← hrun.2]
        simp [nob_log, actions_append, actions, hfork]
      · by_cases hzero : (os.fork (nob_log Nob_LogLevel.NOB_INFO "CMD: %s" [text] w).os args).1 = 0
        · simp [hneg, hzero, Outcome.andThen] at hrun
        · simp only [hneg, hzero, if_false, Outcome.andThen] at hrun
          have hvalid : ¬ (os.fork (nob_log Nob_LogLevel.NOB_INFO "CMD: %s" [text] w).os args).1
              = NOB_INVALID_PROC := by
            unfold NOB_INVALID_PROC
            omega
          simp only [hvalid, if_false, nob_proc_wait] at hrun
          obtain ⟨h1, h2⟩ := nob_proc_wait_loop_frame os
            (os.fork (nob_log Nob_LogLevel.NOB_INFO "CMD: %s" [text] w).os args).1 f hwait fuel
            { os := (os.fork (nob_log Nob_LogLevel.NOB_INFO "CMD: %s" [text] w).os args).2,
              trace := (nob_log Nob_LogLevel.NOB_INFO "CMD: %s" [text] w).trace ++
                [Event.fork args] }
          rw [hrun] at h1 h2
          simp only at h1 h2
          rw [h1, h2]
          simp [nob_log, actions_append, actions, hfork]

theorem nob_needs_rebuild_loop_silent (os : OS σ) (t_out : Int) (input_paths : List CStr)
    (w : World σ) (h : (nob_needs_rebuild_loop os t_out input_paths w).1 ≠ -1) :
    (nob_needs_rebuild_loop os t_out input_paths w).2 = w := by
  induction input_paths with
  | nil => rfl
  | cons p rest ih =>
    unfold nob_needs_rebuild_loop at h ⊢
    cases hs : os.stat w.os p with
    | ok t =>
      rw [hs] at h
      simp only at h ⊢
      by_cases hgt : c_int t > t_out
      · simp [hgt]
      · simp only [hgt, if_false] at h ⊢
        exact ih h
    | enoent => rw [hs] at h; simp at h
    | error => rw [hs] at h; simp at h

theorem nob_needs_rebuild_silent (os : OS σ) (output_path : CStr) (input_paths : List CStr)
    (w : World σ) (h : (nob_needs_rebuild os output_path input_paths w).1 ≠ -1) :
    (nob_needs_rebuild os output_path input_paths w).2 = w := by
  unfold nob_needs_rebuild at h ⊢
  cases hs : os.stat w.os output_path with
  | ok t =>
    rw [hs] at h
    exact nob_needs_rebuild_loop_silent os _ input_paths w h
  | enoent => rfl
  | error => rw [hs] at h; simp at h

/-- C7: when the staleness check of the binary `argv[0]` against the source reports
up-to-date, `NOB_GO_REBUILD_URSELF` leaves the world exactly as it was (no `rename`, no
`fork`, no `waitpid`, no log line) and control goes on behind the macro. The check reports
up-to-date whenever both files exist and the source's modification time is not greater
than the binary's (both in the `int` range), which is what a second invocation after a
successful rebuild finds. -/
theorem C7_up_to_date_does_nothing (os : OS σ) (fuel : Nat) (source_path : CStr) (argc : Int)
    (argv : List CStr) (binary_path : CStr) (rest : List CStr) (w : World σ)
    (hargc : 1 ≤ argc) (hargv : argv = binary_path :: rest) :
    ((nob_needs_rebuild1 os binary_path source_path w).1 = 0 →
      NOB_GO_REBUILD_URSELF os fuel source_path argc argv w = (Outcome.ret (), w)) ∧
    (∀ t_bin t_src : Int,
      os.stat w.os binary_path = StatResult.ok t_bin →
      os.stat w.os source_path = StatResult.ok t_src →
      INT_MIN ≤ t_bin ∧ t_bin ≤ INT_MAX → INT_MIN ≤ t_src ∧ t_src ≤ INT_MAX →
      t_src ≤ t_bin →
      (nob_needs_rebuild1 os binary_path source_path w).1 = 0 ∧
      NOB_GO_REBUILD_URSELF os fuel source_path argc argv w = (Outcome.ret (), w)) := by
  have hfirst : (nob_needs_rebuild1 os binary_path source_path w).1 = 0 →
      NOB_GO_REBUILD_URSELF os fuel source_path argc argv w = (Outcome.ret (), w) := by
    intro h0
    have hw : (nob_needs_rebuild1 os binary_path source_path w).2 = w := by
      apply nob_needs_rebuild_silent
      unfold nob_needs_rebuild1 at h0
      rw [h0]
      decide
    unfold NOB_GO_REBUILD_URSELF
    have hge : argc ≥ 1 := hargc
    simp [hge, hargv, h0, hw]
  refine ⟨hfirst, ?_⟩
  intro t_bin t_src hbin hsrc hrb hrs hle
  have h0 : (nob_needs_rebuild1 os binary_path source_path w).1 = 0 := by
    unfold nob_needs_rebuild1 nob_needs_rebuild
    simp only [hbin, nob_needs_rebuild_loop, hsrc]
    rw [c_int_of_int_range _ hrb, c_int_of_int_range _ hrs]
    have : ¬ t_src > t_bin := by omega
    simp [this]
  exact ⟨h0, hfirst h0⟩

theorem C7_up_to_date_does_nothing_witness :
    (1 : Int) ≤ 1 ∧ [pathNob] = pathNob :: [] ∧
    (nob_needs_rebuild1 simOS pathNob pathNobC worldFresh).1 = 0 ∧
    (((nob_needs_rebuild1 simOS pathNob pathNobC worldFresh).1 = 0 →
      NOB_GO_REBUILD_URSELF simOS 2 pathNobC 1 [pathNob] worldFresh
        = (Outcome.ret (), worldFresh)) ∧
    (∀ t_bin t_src : Int,
      simOS.stat worldFresh.os pathNob = StatResult.ok t_bin →
      simOS.stat worldFresh.os pathNobC = StatResult.ok t_src →
      INT_MIN ≤ t_bin ∧ t_bin ≤ INT_MAX → INT_MIN ≤ t_src ∧ t_src ≤ INT_MAX →
      t_src ≤ t_bin →
      (nob_needs_rebuild1 simOS pathNob pathNobC worldFresh).1 = 0 ∧
      NOB_GO_REBUILD_URSELF simOS 2 pathNobC 1 [pathNob] worldFresh
        = (Outcome.ret (), worldFresh))) :=
  ⟨by decide, rfl, by decide,
    C7_up_to_date_does_nothing simOS 2 pathNobC 1 [pathNob] pathNob [] worldFresh
      (by decide) rfl⟩

theorem nob_rename_effect (os : OS σ) (old_path new_path : CStr) (w : World σ) :
    (nob_rename os old_path new_path w).1 = (os.rename w.os old_path new_path).1 ∧
    (nob_rename os old_path new_path w).2.os = (os.rename w.os old_path new_path).2 ∧
    actions (nob_rename os old_path new_path w).2.trace =
      actions w.trace ++ [Event.rename old_path new_path] := by
  unfold nob_rename
  cases h : (os.rename (nob_log Nob_LogLevel.NOB_INFO "Renaming `%s` -> `%s`"
      [old_path, new_path] w).os old_path new_path).1 with
  | true =>
    simp only [if_true]
    simp only [nob_log] at h ⊢
    simp [h, actions_append, actions]
  | false =>
    simp only [Bool.false_eq_true, if_false]
    simp only [nob_log] at h ⊢
    simp [h, actions_append, actions]

theorem NOB_GO_REBUILD_URSELF_stale (os : OS σ) (fuel : Nat) (source_path : CStr) (argc : Int)
    (argv : List CStr) (binary_path : CStr) (rest : List CStr) (w : World σ)
    (hargc : 1 ≤ argc) (hargv : argv = binary_path :: rest) (hnul : NUL ∉ binary_path)
    (hlen : binary_path.length + 5 < 2 ^ 63)
    (hstale : (nob_needs_rebuild1 os binary_path source_path w).1 = 1) :
    NOB_GO_REBUILD_URSELF os fuel source_path argc argv w =
      if ¬ (nob_rename os binary_path (backup_of binary_path) w).1 then
        (Outcome.exit 1, (nob_rename os binary_path (backup_of binary_path) w).2)
      else
        Outcome.andThen
          (nob_cmd_run_sync os fuel (rebuild_cmd binary_path source_path)
            (nob_rename os binary_path (backup_of binary_path) w).2)
          fun rebuild_succeeded w3 =>
            if ¬ rebuild_succeeded then
              (Outcome.exit 1, (nob_rename os (backup_of binary_path) binary_path w3).2)
            else
              match nob_da_append_many Nob_DA.zero ((argv.take argc.toNat).map some) with
              | none => (Outcome.stuck, w3)
              | some cmd =>
                Outcome.andThen (nob_cmd_run_sync os fuel cmd w3) fun ran w5 =>
                  if ¬ ran then (Outcome.exit 1, w5)
                  else (Outcome.exit 0, w5) := by
  have hw : (nob_needs_rebuild1 os binary_path source_path w).2 = w := by
    apply nob_needs_rebuild_silent
    unfold nob_needs_rebuild1 at hstale
    rw [hstale]
    decide
  have hge : argc ≥ 1 := hargc
  unfold NOB_GO_REBUILD_URSELF
  simp only [hge, not_true_eq_false, if_false, hargv, List.head?_cons, hstale, hw,
    rebuild_backup_path_eq binary_path hnul hlen, nob_cmd_append_rebuild]
  have h1 : ¬ ((1 : Int) < 0) := by decide
  have h2 : (1 : Int) ≠ 0 := by decide
  simp only [h1, if_false, h2, ne_eq, not_false_eq_true, if_true]

theorem rebuild_cmd_elems (binary_path source_path : CStr) :
    1 ≤ (rebuild_cmd binary_path source_path).count ∧
    da_elems (rebuild_cmd binary_path source_path) =
      some (NOB_REBUILD_URSELF binary_path source_path) := by
  constructor
  · simp [rebuild_cmd]
  · rfl

/-- C8 as stated fails: the binary `nob` is stale and exists, the backup rename succeeds,
the compiler exits with status 1, and the rename that should restore the backup fails (its
result is not looked at). The process ends with status 1 and the path `nob` is missing. -/
theorem C8_backup_not_restored_counterexample :
    (nob_needs_rebuild1 simOS pathNob pathNobC
      (worldStale [true, false] [7] [WaitResult.status (WStatus.exited 1)])).1 = 1 ∧
    simOS.stat (worldStale [true, false] [7] [WaitResult.status (WStatus.exited 1)]).os pathNob
      = StatResult.ok 100 ∧
    (NOB_GO_REBUILD_URSELF simOS 2 pathNobC 1 [pathNob]
      (worldStale [true, false] [7] [WaitResult.status (WStatus.exited 1)])).1
      = Outcome.exit 1 ∧
    actions (NOB_GO_REBUILD_URSELF simOS 2 pathNobC 1 [pathNob]
      (worldStale [true, false] [7] [WaitResult.status (WStatus.exited 1)])).2.trace
      = [Event.rename pathNob (backup_of pathNob),
         Event.fork (NOB_REBUILD_URSELF pathNob pathNobC),
         Event.rename (backup_of pathNob) pathNob] ∧
    simOS.stat (NOB_GO_REBUILD_URSELF simOS 2 pathNobC 1 [pathNob]
      (worldStale [true, false] [7] [WaitResult.status (WStatus.exited 1)])).2.os pathNob
      = StatResult.enoent := by
  decide

/-- C8, amended: in a stale invocation the first action is the rename of the binary to
`<binary path>.old`; when it fails the process exits with status 1 and nothing else is
done. When it succeeds the compiler is started next, and when that run fails the rename of
the backup to the original path is attempted, no further process is started and the
process exits with status 1. If this last rename succeeds, the original path holds what
it held before (for every notion of content that `rename` moves and that the compiler run
leaves alone at the backup path). -/
theorem C8_failed_rebuild_renames_back (os : OS σ) (fuel : Nat) (source_path : CStr)
    (argc : Int) (argv : List CStr) (binary_path : CStr) (rest : List CStr) (w : World σ)
    (hargc : 1 ≤ argc) (hargv : argv = binary_path :: rest) (hnul : NUL ∉ binary_path)
    (hlen : binary_path.length + 5 < 2 ^ 63)
    (hstale : (nob_needs_rebuild1 os binary_path source_path w).1 = 1) :
    ((os.rename w.os binary_path (backup_of binary_path)).1 = false →
      (NOB_GO_REBUILD_URSELF os fuel source_path argc argv w).1 = Outcome.exit 1 ∧
      actions (NOB_GO_REBUILD_URSELF os fuel source_path argc argv w).2.trace =
        actions w.trace ++ [Event.rename binary_path (backup_of binary_path)]) ∧
    ((os.rename w.os binary_path (backup_of binary_path)).1 = true →
      ∀ w3, nob_cmd_run_sync os fuel (rebuild_cmd binary_path source_path)
          (nob_rename os binary_path (backup_of binary_path) w).2 = (Outcome.ret false, w3) →
        (NOB_GO_REBUILD_URSELF os fuel source_path argc argv w).1 = Outcome.exit 1 ∧
        actions (NOB_GO_REBUILD_URSELF os fuel source_path argc argv w).2.trace =
          actions w.trace ++
            [Event.rename binary_path (backup_of binary_path),
             Event.fork (NOB_REBUILD_URSELF binary_path source_path),
             Event.rename (backup_of binary_path) binary_path] ∧
        ∀ (β : Type) (content : σ → CStr → β),
          (∀ s a b, (os.rename s a b).1 = true → content (os.rename s a b).2 b = content s a) →
          (∀ s a, content (os.fork s a).2 (backup_of binary_path) =
            content s (backup_of binary_path)) →
          (∀ s q, content (os.waitpid s q).2 (backup_of binary_path) =
            content s (backup_of binary_path)) →
          (os.rename w3.os (backup_of binary_path) binary_path).1 = true →
          content (NOB_GO_REBUILD_URSELF os fuel source_path argc argv w).2.os binary_path =
            content w.os binary_path) := by
  have hform := NOB_GO_REBUILD_URSELF_stale os fuel source_path argc argv binary_path rest w
    hargc hargv hnul hlen hstale
  obtain ⟨hr1, hr2, hr3⟩ := nob_rename_effect os binary_path (backup_of binary_path) w
  constructor
  · intro hfail
    rw [← hr1] at hfail
    have hbody : NOB_GO_REBUILD_URSELF os fuel source_path argc argv w =
        (Outcome.exit 1, (nob_rename os binary_path (backup_of binary_path) w).2) := by
      rw [hform]
      simp [hfail]
    rw [hbody]
    exact ⟨rfl, hr3⟩
  · intro hok w3 hbuild
    rw [← hr1] at hok
    have hbody : NOB_GO_REBUILD_URSELF os fuel source_path argc argv w =
        (Outcome.exit 1, (nob_rename os (backup_of binary_path) binary_path w3).2) := by
      rw [hform]
      simp [hok, hbuild, Outcome.andThen]
    obtain ⟨hc, he⟩ := rebuild_cmd_elems binary_path source_path
    obtain ⟨hb1, hb2, hb3⟩ := nob_rename_effect os (backup_of binary_path) binary_path w3
    rw [hbody]
    refine ⟨rfl, ?_, ?_⟩
    · have hact := (nob_cmd_run_sync_frame os fuel (rebuild_cmd binary_path source_path)
        (NOB_REBUILD_URSELF binary_path source_path)
        (nob_rename os binary_path (backup_of binary_path) w).2 w3 false (fun _ => ())
        hc he hbuild (fun _ _ => rfl) (fun _ _ => rfl)).1
      simp only
      rw [hb3, hact, hr3]
      simp
    · intro β content hren hfork hwait hback
      have hkeep := (nob_cmd_run_sync_frame os fuel (rebuild_cmd binary_path source_path)
        (NOB_REBUILD_URSELF binary_path source_path)
        (nob_rename os binary_path (backup_of binary_path) w).2 w3 false
        (fun s => content s (backup_of binary_path)) hc he hbuild hfork hwait).2
      simp only at hkeep ⊢
      rw [hb2, hren _ _ _ hback, hkeep, hr2]
      apply hren
      rw [← hr1]
      exact hok

theorem simOS_rename_moves (s : Sim) (a b : CStr) (h : (simOS.rename s a b).1 = true) :
    simContent (simOS.rename s a b).2 b = simContent s a := by
  unfold simOS at h ⊢
  simp only at h ⊢
  cases hr : s.renames with
  | nil => rw [hr] at h; simp at h
  | cons allowed script =>
    rw [hr] at h
    simp only at h ⊢
    cases allowed with
    | false => simp at h
    | true =>
      cases hl : s.lookup a with
      | none => rw [hl] at h; simp at h
      | some f =>
        have hold : simContent s a = some f.2 := by simp [simContent, hl]
        rw [hold]
        simp [simContent, Sim.lookup]

theorem simOS_fork_keeps (s : Sim) (argv : List (Option CStr)) (path : CStr) :
    simContent (simOS.fork s argv).2 path = simContent s path := by
  unfold simOS
  simp only
  cases s.forks <;> rfl

theorem simOS_waitpid_keeps (s : Sim) (p : Int) (path : CStr) :
    simContent (simOS.waitpid s p).2 path = simContent s path := by
  unfold simOS
  simp only
  cases s.waits <;> rfl

theorem C8_failed_rebuild_renames_back_witness :
    ((1 : Int) ≤ 1 ∧ NUL ∉ pathNob ∧ pathNob.length + 5 < 2 ^ 63 ∧
      (nob_needs_rebuild1 simOS pathNob pathNobC worldC8).1 = 1 ∧
      (simOS.rename worldC8.os pathNob (backup_of pathNob)).1 = true) ∧
    (NOB_GO_REBUILD_URSELF simOS 2 pathNobC 1 [pathNob] worldC8).1 = Outcome.exit 1 ∧
    actions (NOB_GO_REBUILD_URSELF simOS 2 pathNobC 1 [pathNob] worldC8).2.trace =
      actions worldC8.trace ++
        [Event.rename pathNob (backup_of pathNob),
         Event.fork (NOB_REBUILD_URSELF pathNob pathNobC),
         Event.rename (backup_of pathNob) pathNob] ∧
    simContent (NOB_GO_REBUILD_URSELF simOS 2 pathNobC 1 [pathNob] worldC8).2.os pathNob =
      simContent worldC8.os pathNob :=
  have h := (C8_failed_rebuild_renames_back simOS 2 pathNobC 1 [pathNob] pathNob [] worldC8
    (by decide) rfl (by decide) (by decide) (by decide)).2 (by decide)
    (nob_cmd_run_sync simOS 2 (rebuild_cmd pathNob pathNobC)
      (nob_rename simOS pathNob (backup_of pathNob) worldC8).2).2
    (Prod.ext (by decide) rfl)
  ⟨⟨by decide, by decide, by decide, by decide, by decide⟩, h.1, h.2.1,
    h.2.2 (Option Nat) simContent simOS_rename_moves
      (fun s a => simOS_fork_keeps s a _) (fun s q => simOS_waitpid_keeps s q _) (by decide)⟩

theorem Nob_StringView.bytes_length (sv : Nob_StringView) (hwf : sv.count ≤ sv.items.length) :
    sv.bytes.length = sv.count := by
  simp [Nob_StringView.bytes, hwf]

theorem takeWhile_ne_split (b : List Char) (d : Char) :
    d ∉ b.takeWhile (fun c => c != d) ∧
    ((b.takeWhile (fun c => c != d)).length < b.length →
      ∃ tl, b = b.takeWhile (fun c => c != d) ++ d :: tl) ∧
    (¬ (b.takeWhile (fun c => c != d)).length < b.length →
      b.takeWhile (fun c => c != d) = b) := by
  induction b with
  | nil => simp
  | cons x xs ih =>
    by_cases hx : x = d
    · subst hx
      simp
    · obtain ⟨h1, h2, h3⟩ := ih
      have hp : (x != d) = true := by simpa using hx
      have htw : List.takeWhile (fun c => c != d) (x :: xs) =
          x :: List.takeWhile (fun c => c != d) xs := by
        simp [List.takeWhile_cons, hp]
      rw [htw]
      refine ⟨?_, ?_, ?_⟩
      · intro hmem
        rcases List.mem_cons.mp hmem with h | h
        · exact hx h.symm
        · exact h1 h
      · intro hlt
        simp only [List.length_cons] at hlt
        obtain ⟨tl, htl⟩ := h2 (by omega)
        exact ⟨tl, by rw [List.cons_append, ← htl]⟩
      · intro hge
        simp only [List.length_cons] at hge
        rw [h3 (by omega)]

theorem nob_sv_chop_scan_eq (sv : Nob_StringView) (delim : Char)
    (hwf : sv.count ≤ sv.items.length) :
    ∀ (fuel i : Nat), i ≤ sv.count → sv.count - i ≤ fuel →
      nob_sv_chop_scan sv delim fuel i =
        i + ((sv.bytes.drop i).takeWhile (fun c => c != delim)).length := by
  have hlen := sv.bytes_length hwf
  intro fuel
  induction fuel with
  | zero =>
    intro i hi hfuel
    have hdrop : sv.bytes.drop i = [] := List.drop_eq_nil_of_le (by omega)
    simp [nob_sv_chop_scan, hdrop]
  | succ fuel ih =>
    intro i hi hfuel
    by_cases hlt : i < sv.count
    · have hb : i < sv.bytes.length := by omega
      have hdrop : sv.bytes.drop i = sv.bytes[i] :: sv.bytes.drop (i + 1) :=
        List.drop_eq_getElem_cons hb
      have hget : sv.items[i]? = some sv.bytes[i] := by
        have h1 : sv.bytes[i]? = sv.items[i]? := by
          unfold Nob_StringView.bytes
          exact List.getElem?_take_of_lt hlt
        rw [← h1]
        exact List.getElem?_eq_getElem hb
      rw [nob_sv_chop_scan, hdrop, hget]
      by_cases heq : sv.bytes[i] = delim
      · simp [heq]
      · have hne : some sv.bytes[i] ≠ some delim := fun h => heq (Option.some.inj h)
        simp only [hlt, hne, ne_eq, not_false_eq_true, and_self, if_true]
        rw [ih (i + 1) (by omega) (by omega)]
        have hp : (sv.bytes[i] != delim) = true := by simpa using heq
        have htw : List.takeWhile (fun c => c != delim)
            (sv.bytes[i] :: List.drop (i + 1) sv.bytes) =
            sv.bytes[i] :: List.takeWhile (fun c => c != delim) (List.drop (i + 1) sv.bytes) := by
          simp only [List.takeWhile_cons, hp, if_true]
        rw [htw, List.length_cons]
        omega
    · have hdrop : sv.bytes.drop i = [] := List.drop_eq_nil_of_le (by omega)
      rw [nob_sv_chop_scan]
      simp [hlt, hdrop]

/-- C10: for a view that lies inside its buffer, `nob_sv_chop_by_delim` returns a view that
starts where the source started. If the delimiter occurs in the source, the result holds
the bytes before its first occurrence (so it contains no delimiter), the source is advanced
to just behind that occurrence, and result, delimiter and remaining source make up the
original bytes. If the delimiter does not occur, the result is the whole view and the
source is left with length 0. The remaining source lies inside its buffer again. -/
theorem C10_chop_by_delim_splits (sv : Nob_StringView) (delim : Char)
    (hwf : sv.count ≤ sv.items.length) :
    (delim ∈ sv.bytes →
      delim ∉ (nob_sv_chop_by_delim sv delim).1.bytes ∧
      (nob_sv_chop_by_delim sv delim).1.bytes ++ [delim] ++
        (nob_sv_chop_by_delim sv delim).2.bytes = sv.bytes ∧
      (nob_sv_chop_by_delim sv delim).2.items =
        sv.items.drop ((nob_sv_chop_by_delim sv delim).1.count + 1) ∧
      (nob_sv_chop_by_delim sv delim).2.count =
        sv.count - ((nob_sv_chop_by_delim sv delim).1.count + 1)) ∧
    (delim ∉ sv.bytes →
      (nob_sv_chop_by_delim sv delim).1.bytes = sv.bytes ∧
      (nob_sv_chop_by_delim sv delim).2.count = 0) ∧
    (nob_sv_chop_by_delim sv delim).1.items = sv.items ∧
    (nob_sv_chop_by_delim sv delim).1.count ≤ sv.count ∧
    (nob_sv_chop_by_delim sv delim).2.count ≤ (nob_sv_chop_by_delim sv delim).2.items.length := by
  have hlen := sv.bytes_length hwf
  have hscan : nob_sv_chop_scan sv delim sv.count 0 =
      (sv.bytes.takeWhile (fun c => c != delim)).length := by
    rw [nob_sv_chop_scan_eq sv delim hwf sv.count 0 (Nat.zero_le _) (by omega)]
    simp
  obtain ⟨hnotin, hocc, hnone⟩ := takeWhile_ne_split sv.bytes delim
  rw [hlen] at hocc hnone
  generalize sv.bytes.takeWhile (fun c => c != delim) = front at hscan hnotin hocc hnone
  by_cases hlt : front.length < sv.count
  · -- the delimiter occurs
    obtain ⟨tl, hb⟩ := hocc hlt
    have hfront : sv.items.take front.length = front := by
      have h1 : (sv.items.take sv.count).take front.length = sv.items.take front.length := by
        rw [List.take_take, Nat.min_eq_left (le_of_lt hlt)]
      rw [← h1]
      change List.take front.length sv.bytes = front
      rw [hb]
      exact List.take_left _ _
    have hrest : (sv.items.drop (front.length + 1)).take (sv.count - (front.length + 1)) =
        tl := by
      rw [← List.drop_take]
      change List.drop (front.length + 1) sv.bytes = tl
      rw [hb, ← List.drop_drop, List.drop_left]
      rfl
    have hmem : delim ∈ sv.bytes := by
      rw [hb]
      simp
    have hval : nob_sv_chop_by_delim sv delim =
        (nob_sv_from_parts sv.items front.length,
         { items := sv.items.drop (front.length + 1),
           count := sv.count - (front.length + 1) }) := by
      unfold nob_sv_chop_by_delim
      simp only [hscan, hlt, if_true]
    rw [hval]
    refine ⟨fun _ => ⟨?_, ?_, rfl, rfl⟩, fun h => absurd hmem h, rfl, le_of_lt hlt, ?_⟩
    · simp only [Nob_StringView.bytes, nob_sv_from_parts, hfront]
      exact hnotin
    · simp only [Nob_StringView.bytes, nob_sv_from_parts, hfront, hrest]
      rw [List.append_assoc]
      exact hb.symm
    · simp only [List.length_drop]
      omega
  · -- the delimiter does not occur
    have hall : front = sv.bytes := hnone hlt
    have hcount : front.length = sv.count := by rw [hall, hlen]
    have hval : nob_sv_chop_by_delim sv delim =
        (nob_sv_from_parts sv.items front.length,
         { items := sv.items.drop front.length, count := sv.count - front.length }) := by
      unfold nob_sv_chop_by_delim
      simp only [hscan, hlt, if_false]
    have hnomem : delim ∉ sv.bytes := by
      rw [← hall]
      exact hnotin
    rw [hval]
    refine ⟨fun h => absurd h hnomem, fun _ => ⟨?_, ?_⟩, rfl, le_of_eq hcount, ?_⟩
    · simp only [Nob_StringView.bytes, nob_sv_from_parts, hcount]
    · simp only
      omega
    · simp only [List.length_drop]
      omega

theorem C10_chop_by_delim_splits_witness :
    (5 : Nat) ≤ ['a', ':', 'b', ':', 'c', 'x'].length ∧
    (nob_sv_chop_by_delim { items := ['a', ':', 'b', ':', 'c', 'x'], count := 5 } ':').1.bytes
      = ['a'] ∧
    (nob_sv_chop_by_delim { items := ['a', ':', 'b', ':', 'c', 'x'], count := 5 } ':').2.bytes
      = ['b', ':', 'c'] ∧
    (nob_sv_chop_by_delim { items := ['a', ':', 'b', ':', 'c', 'x'], count := 5 } ':').1.items
      = ['a', ':', 'b', ':', 'c', 'x'] ∧
    (nob_sv_chop_by_delim { items := ['a', ':', 'b', ':', 'c', 'x'], count := 5 } ':').1.count
      ≤ 5 :=
  ⟨by decide, by decide, by decide,
    (C10_chop_by_delim_splits { items := ['a', ':', 'b', ':', 'c', 'x'], count := 5 } ':'
      (by decide)).2.2.1,
    (C10_chop_by_delim_splits { items := ['a', ':', 'b', ':', 'c', 'x'], count := 5 } ':'
      (by decide)).2.2.2.1⟩

/-! ### String views: repeated splitting (C11) -/

theorem sv_scan_eq (l : List Char) (p : Char → Bool) (test : Nat → Bool)
    (htest : ∀ i, i < l.length → test i = (l[i]?).any p) :
    ∀ (fuel i : Nat), i ≤ l.length → l.length - i ≤ fuel →
      sv_scan l.length test fuel i = i + ((l.drop i).takeWhile p).length := by
  intro fuel
  induction fuel with
  | zero =>
    intro i hi hfuel
    have hdrop : l.drop i = [] := List.drop_eq_nil_of_le (by omega)
    simp [sv_scan, hdrop]
  | succ fuel ih =>
    intro i hi hfuel
    by_cases hlt : i < l.length
    · have hdrop : l.drop i = l[i] :: l.drop (i + 1) := List.drop_eq_getElem_cons hlt
      have hti : test i = p l[i] := by
        rw [htest i hlt, List.getElem?_eq_getElem hlt]
        rfl
      rw [sv_scan, hdrop]
      by_cases hp : p l[i] = true
      · have htw : List.takeWhile p (l[i] :: List.drop (i + 1) l) =
            l[i] :: List.takeWhile p (List.drop (i + 1) l) := by
          simp only [List.takeWhile_cons, hp, if_true]
        simp only [hlt, hti, hp, and_self, if_true]
        rw [ih (i + 1) (by omega) (by omega), htw, List.length_cons]
        omega
      · have htw : List.takeWhile p (l[i] :: List.drop (i + 1) l) = [] := by
          simp only [List.takeWhile_cons, hp, Bool.false_eq_true, if_false]
        have hf : ¬ (i < l.length ∧ test i = true) := fun h => hp (hti ▸ h.2)
        rw [if_neg hf, htw]
        rfl
    · have hdrop : l.drop i = [] := List.drop_eq_nil_of_le (by omega)
      rw [sv_scan]
      simp [hlt, hdrop]

theorem sv_scan_from_zero (l : List Char) (p : Char → Bool) (test : Nat → Bool)
    (htest : ∀ i, i < l.length → test i = (l[i]?).any p) :
    sv_scan l.length test l.length 0 = (l.takeWhile p).length := by
  rw [sv_scan_eq l p test htest l.length 0 (Nat.zero_le _) (by omega)]
  simp

theorem nob_sv_chop_by_delim_bytes (sv : Nob_StringView) (delim : Char)
    (hwf : sv.count ≤ sv.items.length) :
    (nob_sv_chop_by_delim sv delim).1.bytes = sv.bytes.takeWhile (fun c => c != delim) ∧
    (nob_sv_chop_by_delim sv delim).2.bytes =
      (sv.bytes.dropWhile (fun c => c != delim)).drop 1 ∧
    (nob_sv_chop_by_delim sv delim).2.count =
      ((sv.bytes.dropWhile (fun c => c != delim)).drop 1).length ∧
    (nob_sv_chop_by_delim sv delim).2.count ≤ (nob_sv_chop_by_delim sv delim).2.items.length := by
  have hlen := sv.bytes_length hwf
  have hscan : nob_sv_chop_scan sv delim sv.count 0 =
      (sv.bytes.takeWhile (fun c => c != delim)).length := by
    rw [nob_sv_chop_scan_eq sv delim hwf sv.count 0 (Nat.zero_le _) (by omega)]
    simp
  have hsplit : sv.bytes.takeWhile (fun c => c != delim) ++
      sv.bytes.dropWhile (fun c => c != delim) = sv.bytes :=
    List.takeWhile_append_dropWhile _ _
  generalize sv.bytes.takeWhile (fun c => c != delim) = front at hscan hsplit
  generalize sv.bytes.dropWhile (fun c => c != delim) = back at hsplit
  have hcount : front.length + back.length = sv.count := by
    rw [← hlen, ← hsplit, List.length_append]
  have hfront : sv.items.take front.length = front := by
    have h1 : (sv.items.take sv.count).take front.length = sv.items.take front.length := by
      rw [List.take_take, Nat.min_eq_left (by omega)]
    rw [← h1]
    change List.take front.length sv.bytes = front
    rw [← hsplit]
    exact List.take_left _ _
  have hback : sv.bytes.drop front.length = back := by
    rw [← hsplit]
    exact List.drop_left _ _
  by_cases hlt : front.length < sv.count
  · have hval : nob_sv_chop_by_delim sv delim =
        (nob_sv_from_parts sv.items front.length,
         { items := sv.items.drop (front.length + 1),
           count := sv.count - (front.length + 1) }) := by
      unfold nob_sv_chop_by_delim
      simp only [hscan, hlt, if_true]
    have hrest : (sv.items.drop (front.length + 1)).take (sv.count - (front.length + 1)) =
        back.drop 1 := by
      rw [← List.drop_take]
      change List.drop (front.length + 1) sv.bytes = back.drop 1
      rw [← List.drop_drop, hback]
    rw [hval]
    refine ⟨?_, ?_, ?_, ?_⟩
    · simp only [Nob_StringView.bytes, nob_sv_from_parts, hfront]
    · simp only [Nob_StringView.bytes, hrest]
    · simp only [List.length_drop]
      omega
    · simp only [List.length_drop]
      omega
  · have hval : nob_sv_chop_by_delim sv delim =
        (nob_sv_from_parts sv.items front.length,
         { items := sv.items.drop front.length, count := sv.count - front.length }) := by
      unfold nob_sv_chop_by_delim
      simp only [hscan, hlt, if_false]
    have hnil : back = [] := List.eq_nil_of_length_eq_zero (by omega)
    rw [hval]
    refine ⟨?_, ?_, ?_, ?_⟩
    · simp only [Nob_StringView.bytes, nob_sv_from_parts, hfront]
    · have hz : sv.count - front.length = 0 := by omega
      simp [Nob_StringView.bytes, hz, hnil]
    · simp only [hnil, List.drop_nil, List.length_nil]
      omega
    · simp only [List.length_drop]
      omega

theorem takeWhile_ne_of_not_mem (front : List Char) (d : Char) (tl : List Char)
    (h : d ∉ front) :
    (front ++ d :: tl).takeWhile (fun c => c != d) = front ∧
    (front ++ d :: tl).dropWhile (fun c => c != d) = d :: tl ∧
    front.takeWhile (fun c => c != d) = front ∧
    front.dropWhile (fun c => c != d) = [] := by
  have hall : ∀ a ∈ front, (fun c => c != d) a = true := by
    intro a ha
    have : a ≠ d := fun e => h (e ▸ ha)
    simpa using this
  refine ⟨?_, ?_, ?_, ?_⟩
  · rw [List.takeWhile_append_of_pos hall]
    simp
  · rw [List.dropWhile_append_of_pos hall]
    simp
  · exact List.takeWhile_eq_self_iff.mpr hall
  · exact List.dropWhile_eq_nil_iff.mpr hall

theorem chop_repeat_of_empty (delim : Char) (k : Nat) :
    ∀ (sv : Nob_StringView), sv.count = 0 →
      (∀ v ∈ (chop_repeat delim k sv).1, v.count = 0) ∧ (chop_repeat delim k sv).2.count = 0 := by
  induction k with
  | zero => intro sv h; simp [chop_repeat, h]
  | succ k ih =>
    intro sv h
    have hval : nob_sv_chop_by_delim sv delim =
        (nob_sv_from_parts sv.items 0, { items := sv.items.drop 0, count := 0 }) := by
      unfold nob_sv_chop_by_delim
      simp [h, nob_sv_chop_scan]
    obtain ⟨h1, h2⟩ := ih { items := sv.items.drop 0, count := 0 } rfl
    simp only [chop_repeat, hval]
    refine ⟨?_, h2⟩
    intro v hv
    rcases List.mem_cons.mp hv with e | e
    · rw [e]; rfl
    · exact h1 v e

/-- C11: for a non-empty list of fields none of which contains the delimiter, and a view
(inside its buffer) of the fields joined by the delimiter, as many successive calls of
`nob_sv_chop_by_delim` as there are fields return the fields one by one, in order; after
them the source has length 0, and every further call returns a view of length 0 and leaves
the source at length 0. -/
theorem C11_chop_repeat_returns_fields (delim : Char) (fields : List (List Char)) :
    ∀ (sv : Nob_StringView), fields ≠ [] → (∀ f ∈ fields, delim ∉ f) →
      sv.count ≤ sv.items.length → sv.bytes = join_fields delim fields →
      (chop_repeat delim fields.length sv).1.map Nob_StringView.bytes = fields ∧
      (chop_repeat delim fields.length sv).2.count = 0 ∧
      ∀ k, (∀ v ∈ (chop_repeat delim k (chop_repeat delim fields.length sv).2).1,
              v.count = 0) ∧
            (chop_repeat delim k (chop_repeat delim fields.length sv).2).2.count = 0 := by
  induction fields with
  | nil => intro sv hne; exact absurd rfl hne
  | cons f rest ih =>
    intro sv _ hclean hwf hbytes
    have hf : delim ∉ f := hclean f (List.mem_cons_self _ _)
    obtain ⟨hb1, hb2, hb3, hb4⟩ := nob_sv_chop_by_delim_bytes sv delim hwf
    cases rest with
    | nil =>
      simp only [join_fields] at hbytes
      obtain ⟨_, _, ht, hd⟩ := takeWhile_ne_of_not_mem f delim [] hf
      rw [hbytes, ht] at hb1
      rw [hbytes, hd] at hb3
      simp only [List.drop_nil, List.length_nil] at hb3
      simp only [List.length_singleton, chop_repeat, List.map_cons, List.map_nil, hb1, hb3,
        true_and]
      intro k
      exact chop_repeat_of_empty delim k _ hb3
    | cons g more =>
      simp only [join_fields] at hbytes
      obtain ⟨ht, hd, _, _⟩ :=
        takeWhile_ne_of_not_mem f delim (join_fields delim (g :: more)) hf
      rw [hbytes, ht] at hb1
      rw [hbytes, hd] at hb2
      simp only [List.drop_succ_cons, List.drop_zero] at hb2
      obtain ⟨h1, h2, h3⟩ := ih (nob_sv_chop_by_delim sv delim).2 (by simp)
        (fun x hx => hclean x (List.mem_cons_of_mem _ hx)) hb4 hb2
      have hlen : (f :: g :: more).length = (g :: more).length + 1 := rfl
      rw [hlen]
      refine ⟨?_, h2, h3⟩
      show List.map Nob_StringView.bytes ((nob_sv_chop_by_delim sv delim).1 ::
        (chop_repeat delim (g :: more).length (nob_sv_chop_by_delim sv delim).2).1) =
        f :: g :: more
      rw [List.map_cons, hb1, h1]

theorem C11_chop_repeat_returns_fields_witness :
    ([['a'], ['b'], ['c']] ≠ ([] : List (List Char)) ∧
      (∀ f ∈ [['a'], ['b'], ['c']], ':' ∉ f) ∧
      (sv_of ['a', ':', 'b', ':', 'c']).count ≤ (sv_of ['a', ':', 'b', ':', 'c']).items.length ∧
      (sv_of ['a', ':', 'b', ':', 'c']).bytes = join_fields ':' [['a'], ['b'], ['c']]) ∧
    (chop_repeat ':' 3 (sv_of ['a', ':', 'b', ':', 'c'])).1.map Nob_StringView.bytes
      = [['a'], ['b'], ['c']] ∧
    (chop_repeat ':' 3 (sv_of ['a', ':', 'b', ':', 'c'])).2.count = 0 ∧
    ∀ k, (∀ v ∈ (chop_repeat ':' k (chop_repeat ':' 3 (sv_of ['a', ':', 'b', ':', 'c'])).2).1,
            v.count = 0) ∧
          (chop_repeat ':' k (chop_repeat ':' 3 (sv_of ['a', ':', 'b', ':', 'c'])).2).2.count
            = 0 :=
  ⟨⟨by decide, by decide, by decide, by decide⟩,
    C11_chop_repeat_returns_fields ':' [['a'], ['b'], ['c']] (sv_of ['a', ':', 'b', ':', 'c'])
      (by decide) (by decide) (by decide) (by decide)⟩

/-! ### String views: splitting from the back (C12) -/

theorem sv_forward_index (sv : Nob_StringView) (i : Nat) (hi : i < sv.count) :
    sv.items[i]? = sv.bytes[i]? := by
  unfold Nob_StringView.bytes
  exact (List.getElem?_take_of_lt hi).symm

theorem sv_backward_index (sv : Nob_StringView) (hwf : sv.count ≤ sv.items.length) (i : Nat)
    (hi : i < sv.bytes.reverse.length) :
    sv.items[sv.count - 1 - i]? = sv.bytes.reverse[i]? := by
  have hlen := sv.bytes_length hwf
  rw [List.length_reverse] at hi
  rw [List.getElem?_reverse hi, hlen]
  exact sv_forward_index sv _ (by omega)

theorem sv_back_parts (sv : Nob_StringView) (hwf : sv.count ≤ sv.items.length) (n : Nat)
    (hn : n ≤ sv.count) :
    (sv.items.drop (sv.count - n)).take n = (sv.bytes.reverse.take n).reverse ∧
    sv.items.take (sv.count - n) = (sv.bytes.reverse.drop n).reverse := by
  have hlen := sv.bytes_length hwf
  constructor
  · rw [List.take_reverse, List.reverse_reverse, hlen]
    have h1 : List.drop (sv.count - n) (List.take sv.count sv.items) =
        List.take n (List.drop (sv.count - n) sv.items) := by
      rw [List.drop_take]
      congr 1
      omega
    rw [← h1]
    rfl
  · rw [List.drop_reverse, List.reverse_reverse, hlen]
    unfold Nob_StringView.bytes
    rw [List.take_take, Nat.min_eq_left (by omega)]

theorem nob_sv_rchop_by_delim_bytes (sv : Nob_StringView) (delim : Char)
    (hwf : sv.count ≤ sv.items.length) :
    (nob_sv_rchop_by_delim sv delim).1.bytes =
      (sv.bytes.reverse.takeWhile (fun c => c != delim)).reverse ∧
    (nob_sv_rchop_by_delim sv delim).2.bytes =
      ((sv.bytes.reverse.dropWhile (fun c => c != delim)).drop 1).reverse ∧
    (nob_sv_rchop_by_delim sv delim).2.count =
      ((sv.bytes.reverse.dropWhile (fun c => c != delim)).drop 1).length ∧
    (nob_sv_rchop_by_delim sv delim).2.items = sv.items := by
  have hlen := sv.bytes_length hwf
  have hrl : sv.bytes.reverse.length = sv.count := by rw [List.length_reverse, hlen]
  have hscan : sv_scan sv.count (fun i => sv.items[sv.count - 1 - i]? != some delim)
      sv.count 0 = (sv.bytes.reverse.takeWhile (fun c => c != delim)).length := by
    have h := sv_scan_from_zero sv.bytes.reverse (fun c => c != delim)
      (fun i => sv.items[sv.count - 1 - i]? != some delim)
      (by
        intro i hi
        simp only
        rw [sv_backward_index sv hwf i hi, List.getElem?_eq_getElem hi]
        generalize sv.bytes.reverse[i] = c
        by_cases he : c = delim
        · simp [he]
        · have h1 : (c != delim) = true := bne_iff_ne.mpr he
          have h2 : (some c != some delim) = true :=
            bne_iff_ne.mpr (fun h => he (Option.some.inj h))
          simp only [Option.any_some, h1, h2])
    rw [hrl] at h
    exact h
  have hsplit : sv.bytes.reverse.takeWhile (fun c => c != delim) ++
      sv.bytes.reverse.dropWhile (fun c => c != delim) = sv.bytes.reverse :=
    List.takeWhile_append_dropWhile _ _
  generalize sv.bytes.reverse.takeWhile (fun c => c != delim) = front at hscan hsplit
  generalize sv.bytes.reverse.dropWhile (fun c => c != delim) = back at hsplit
  have hcount : front.length + back.length = sv.count := by
    rw [← hrl, ← hsplit, List.length_append]
  have htake : sv.bytes.reverse.take front.length = front := by
    rw [← hsplit]
    exact List.take_left _ _
  have hdrop : sv.bytes.reverse.drop front.length = back := by
    rw [← hsplit]
    exact List.drop_left _ _
  obtain ⟨hp1, _⟩ := sv_back_parts sv hwf front.length (by omega)
  by_cases hlt : front.length < sv.count
  · have hval : nob_sv_rchop_by_delim sv delim =
        (nob_sv_from_parts (sv.items.drop (sv.count - front.length)) front.length,
         { items := sv.items, count := sv.count - (front.length + 1) }) := by
      unfold nob_sv_rchop_by_delim
      simp only [hscan, hlt, if_true]
    obtain ⟨_, hp2⟩ := sv_back_parts sv hwf (front.length + 1) (by omega)
    rw [hval]
    refine ⟨?_, ?_, ?_, rfl⟩
    · simp only [Nob_StringView.bytes, nob_sv_from_parts]
      rw [hp1, htake]
    · simp only [Nob_StringView.bytes]
      rw [hp2, ← List.drop_drop, hdrop]
    · simp only [List.length_drop]
      omega
  · have hval : nob_sv_rchop_by_delim sv delim =
        (nob_sv_from_parts (sv.items.drop (sv.count - front.length)) front.length,
         { items := sv.items, count := sv.count - front.length }) := by
      unfold nob_sv_rchop_by_delim
      simp only [hscan, hlt, if_false]
    have hnil : back = [] := List.eq_nil_of_length_eq_zero (by omega)
    have hz : sv.count - front.length = 0 := by omega
    rw [hval]
    refine ⟨?_, ?_, ?_, rfl⟩
    · simp only [Nob_StringView.bytes, nob_sv_from_parts]
      rw [hp1, htake]
    · simp [Nob_StringView.bytes, hz, hnil]
    · simp [hz, hnil]

theorem sv_of_bytes (l : List Char) : (sv_of l).bytes = l ∧ (sv_of l).count ≤ (sv_of l).items.length := by
  simp [sv_of, Nob_StringView.bytes]

/-- C12: for a view inside its buffer, `nob_sv_rchop_by_delim` mirrors
`nob_sv_chop_by_delim`. If the delimiter occurs, the result holds the bytes behind its last
occurrence (so it contains no delimiter), the source keeps its start and is cut to the
bytes before that occurrence, and remaining source, delimiter and result make up the
original bytes. If the delimiter does not occur, the result is the whole view and the
source is left with length 0. Result and remaining source are the reversed result and
remaining source of `nob_sv_chop_by_delim` on the reversed bytes. -/
theorem C12_rchop_mirrors_chop (sv : Nob_StringView) (delim : Char)
    (hwf : sv.count ≤ sv.items.length) :
    (delim ∈ sv.bytes →
      delim ∉ (nob_sv_rchop_by_delim sv delim).1.bytes ∧
      (nob_sv_rchop_by_delim sv delim).2.bytes ++ [delim] ++
        (nob_sv_rchop_by_delim sv delim).1.bytes = sv.bytes) ∧
    (delim ∉ sv.bytes →
      (nob_sv_rchop_by_delim sv delim).1.bytes = sv.bytes ∧
      (nob_sv_rchop_by_delim sv delim).2.count = 0) ∧
    (nob_sv_rchop_by_delim sv delim).2.items = sv.items ∧
    (nob_sv_rchop_by_delim sv delim).1.bytes =
      ((nob_sv_chop_by_delim (sv_of sv.bytes.reverse) delim).1.bytes).reverse ∧
    (nob_sv_rchop_by_delim sv delim).2.bytes =
      ((nob_sv_chop_by_delim (sv_of sv.bytes.reverse) delim).2.bytes).reverse := by
  obtain ⟨hr1, hr2, hr3, hr4⟩ := nob_sv_rchop_by_delim_bytes sv delim hwf
  obtain ⟨hv1, hv2⟩ := sv_of_bytes sv.bytes.reverse
  obtain ⟨hc1, hc2, _, _⟩ := nob_sv_chop_by_delim_bytes (sv_of sv.bytes.reverse) delim hv2
  rw [hv1] at hc1 hc2
  obtain ⟨hnotin, hocc, hnone⟩ := takeWhile_ne_split sv.bytes.reverse delim
  have hsplit : sv.bytes.reverse.takeWhile (fun c => c != delim) ++
      sv.bytes.reverse.dropWhile (fun c => c != delim) = sv.bytes.reverse :=
    List.takeWhile_append_dropWhile _ _
  rw [hr1, hr2, hr3, hc1, hc2]
  refine ⟨?_, ?_, hr4, rfl, rfl⟩
  · intro hmem
    have hlt : (sv.bytes.reverse.takeWhile (fun c => c != delim)).length <
        sv.bytes.reverse.length := by
      by_contra hge
      have hall := hnone hge
      rw [hall] at hnotin
      exact hnotin (List.mem_reverse.mpr hmem)
    obtain ⟨tl, htl⟩ := hocc hlt
    have hback : sv.bytes.reverse.dropWhile (fun c => c != delim) = delim :: tl := by
      have h := hsplit
      conv_rhs at h => rw [htl]
      exact List.append_cancel_left h
    constructor
    · intro h
      exact hnotin (List.mem_reverse.mp h)
    · rw [hback]
      simp only [List.drop_succ_cons, List.drop_zero]
      have hrev := congrArg List.reverse htl
      rw [List.reverse_reverse] at hrev
      generalize List.takeWhile (fun c => c != delim) sv.bytes.reverse = front at hrev ⊢
      rw [hrev]
      simp
  · intro hnomem
    have hall : ∀ x ∈ sv.bytes.reverse, (fun c => c != delim) x = true := by
      intro x hx
      have : x ≠ delim := fun e => hnomem (e ▸ List.mem_reverse.mp hx)
      simpa using this
    rw [List.takeWhile_eq_self_iff.mpr hall, List.dropWhile_eq_nil_iff.mpr hall]
    simp

theorem C12_rchop_mirrors_chop_witness :
    (sv_of ['a', '/', 'b', '/', 'c']).count ≤ (sv_of ['a', '/', 'b', '/', 'c']).items.length ∧
    (nob_sv_rchop_by_delim (sv_of ['a', '/', 'b', '/', 'c']) '/').1.bytes = ['c'] ∧
    (nob_sv_rchop_by_delim (sv_of ['a', '/', 'b', '/', 'c']) '/').2.bytes = ['a', '/', 'b'] ∧
    (nob_sv_rchop_by_delim (sv_of ['a', '/', 'b', '/', 'c']) '/').2.items
      = (sv_of ['a', '/', 'b', '/', 'c']).items ∧
    (nob_sv_rchop_by_delim (sv_of ['a', '/', 'b', '/', 'c']) '/').1.bytes =
      ((nob_sv_chop_by_delim (sv_of (sv_of ['a', '/', 'b', '/', 'c']).bytes.reverse) '/').1.bytes
        ).reverse :=
  ⟨by decide, by decide, by decide,
    (C12_rchop_mirrors_chop (sv_of ['a', '/', 'b', '/', 'c']) '/' (by decide)).2.2.1,
    (C12_rchop_mirrors_chop (sv_of ['a', '/', 'b', '/', 'c']) '/' (by decide)).2.2.2.1⟩

/-! ### String views: trimming (C13) -/

theorem nob_sv_trim_left_value (sv : Nob_StringView) (hwf : sv.count ≤ sv.items.length) :
    nob_sv_trim_left sv =
      nob_sv_from_parts (sv.items.drop (sv.bytes.takeWhile isspace).length)
        (sv.count - (sv.bytes.takeWhile isspace).length) := by
  have hlen := sv.bytes_length hwf
  have h := sv_scan_from_zero sv.bytes isspace (fun i => (sv.items[i]?).any isspace)
    (by
      intro i hi
      simp only
      rw [sv_forward_index sv i (by omega)])
  rw [hlen] at h
  unfold nob_sv_trim_left
  simp only [h]

theorem nob_sv_trim_right_value (sv : Nob_StringView) (hwf : sv.count ≤ sv.items.length) :
    nob_sv_trim_right sv =
      nob_sv_from_parts sv.items (sv.count - (sv.bytes.reverse.takeWhile isspace).length) := by
  have hlen := sv.bytes_length hwf
  have hrl : sv.bytes.reverse.length = sv.count := by rw [List.length_reverse, hlen]
  have h := sv_scan_from_zero sv.bytes.reverse isspace
    (fun i => (sv.items[sv.count - 1 - i]?).any isspace)
    (by
      intro i hi
      simp only
      rw [sv_backward_index sv hwf i hi])
  rw [hrl] at h
  unfold nob_sv_trim_right
  simp only [h]

theorem nob_sv_trim_left_bytes (sv : Nob_StringView) (hwf : sv.count ≤ sv.items.length) :
    (nob_sv_trim_left sv).bytes = sv.bytes.dropWhile isspace ∧
    (nob_sv_trim_left sv).count ≤ (nob_sv_trim_left sv).items.length := by
  have hlen := sv.bytes_length hwf
  have hsplit : sv.bytes.takeWhile isspace ++ sv.bytes.dropWhile isspace = sv.bytes :=
    List.takeWhile_append_dropWhile _ _
  rw [nob_sv_trim_left_value sv hwf]
  generalize sv.bytes.takeWhile isspace = lead at hsplit
  have hle : lead.length ≤ sv.count := by
    rw [← hlen, ← hsplit, List.length_append]
    omega
  constructor
  · simp only [Nob_StringView.bytes, nob_sv_from_parts]
    rw [← List.drop_take]
    change List.drop lead.length sv.bytes = _
    conv_lhs => rw [← hsplit]
    exact List.drop_left _ _
  · simp only [nob_sv_from_parts, List.length_drop]
    omega

theorem nob_sv_trim_right_bytes (sv : Nob_StringView) (hwf : sv.count ≤ sv.items.length) :
    (nob_sv_trim_right sv).bytes = (sv.bytes.reverse.dropWhile isspace).reverse ∧
    (nob_sv_trim_right sv).count ≤ (nob_sv_trim_right sv).items.length ∧
    (nob_sv_trim_right sv).items = sv.items := by
  have hlen := sv.bytes_length hwf
  have hrl : sv.bytes.reverse.length = sv.count := by rw [List.length_reverse, hlen]
  have hsplit : sv.bytes.reverse.takeWhile isspace ++ sv.bytes.reverse.dropWhile isspace =
      sv.bytes.reverse := List.takeWhile_append_dropWhile _ _
  rw [nob_sv_trim_right_value sv hwf]
  generalize sv.bytes.reverse.takeWhile isspace = trail at hsplit
  have hle : trail.length ≤ sv.count := by
    rw [← hrl, ← hsplit, List.length_append]
    omega
  refine ⟨?_, ?_, rfl⟩
  · simp only [Nob_StringView.bytes, nob_sv_from_parts]
    rw [(sv_back_parts sv hwf trail.length hle).2]
    congr 1
    conv_lhs => rw [← hsplit]
    exact List.drop_left _ _
  · simp only [nob_sv_from_parts]
    omega

theorem dropWhile_head_not (p : Char → Bool) (l : List Char) (c : Char)
    (h : (l.dropWhile p).head? = some c) : p c = false := by
  have h1 := List.head?_dropWhile_not p l
  rw [h] at h1
  exact h1

theorem strip_front_facts (p : Char → Bool) (l : List Char) :
    l = l.takeWhile p ++ l.dropWhile p ∧ (∀ c ∈ l.takeWhile p, p c = true) ∧
    (∀ c, (l.dropWhile p).head? = some c → p c = false) :=
  ⟨(List.takeWhile_append_dropWhile p l).symm, fun _ hc => List.mem_takeWhile_imp hc,
    fun c h => dropWhile_head_not p l c h⟩

theorem strip_back_facts (p : Char → Bool) (l : List Char) :
    l = (l.reverse.dropWhile p).reverse ++ (l.reverse.takeWhile p).reverse ∧
    (∀ c ∈ (l.reverse.takeWhile p).reverse, p c = true) ∧
    (∀ c, (l.reverse.dropWhile p).reverse.getLast? = some c → p c = false) := by
  refine ⟨?_, ?_, ?_⟩
  · rw [← List.reverse_append, List.takeWhile_append_dropWhile, List.reverse_reverse]
  · intro c hc
    exact List.mem_takeWhile_imp (List.mem_reverse.mp hc)
  · intro c hc
    rw [List.getLast?_reverse] at hc
    exact dropWhile_head_not p l.reverse c hc

theorem takeWhile_nil_of_head (p : Char → Bool) (l : List Char)
    (h : ∀ c, l.head? = some c → p c = false) : l.takeWhile p = [] := by
  cases l with
  | nil => rfl
  | cons x xs =>
    have hx : p x = false := h x rfl
    simp [List.takeWhile_cons, hx]

theorem nob_sv_trim_fixed (sv : Nob_StringView) (hwf : sv.count ≤ sv.items.length)
    (hhead : ∀ c, sv.bytes.head? = some c → isspace c = false)
    (hlast : ∀ c, sv.bytes.getLast? = some c → isspace c = false) :
    nob_sv_trim sv = sv := by
  have h1 : sv.bytes.takeWhile isspace = [] := takeWhile_nil_of_head isspace _ hhead
  have hleft : nob_sv_trim_left sv = sv := by
    rw [nob_sv_trim_left_value sv hwf, h1]
    simp [nob_sv_from_parts]
  have h2 : sv.bytes.reverse.takeWhile isspace = [] := by
    apply takeWhile_nil_of_head
    intro c hc
    rw [List.head?_reverse] at hc
    exact hlast c hc
  unfold nob_sv_trim
  rw [hleft, nob_sv_trim_right_value sv hwf, h2]
  simp [nob_sv_from_parts]

/-- C13: for a view inside its buffer, `nob_sv_trim_left` removes exactly the maximal run of
leading whitespace bytes, `nob_sv_trim_right` exactly the maximal run of trailing
whitespace bytes, and `nob_sv_trim` both: the original bytes are the removed leading run,
the result and the removed trailing run, every removed byte is whitespace, and the result
neither starts nor ends with whitespace. A view of only whitespace becomes empty, and
trimming a trimmed view changes nothing. The result starts in the same buffer, behind the
leading run, and lies inside the buffer. -/
theorem C13_trim_removes_whitespace_runs (sv : Nob_StringView)
    (hwf : sv.count ≤ sv.items.length) :
    (∃ lead trail, sv.bytes = lead ++ (nob_sv_trim sv).bytes ++ trail ∧
      (∀ c ∈ lead, isspace c = true) ∧ (∀ c ∈ trail, isspace c = true)) ∧
    (∀ c, (nob_sv_trim sv).bytes.head? = some c → isspace c = false) ∧
    (∀ c, (nob_sv_trim sv).bytes.getLast? = some c → isspace c = false) ∧
    ((∀ c ∈ sv.bytes, isspace c = true) → (nob_sv_trim sv).count = 0) ∧
    nob_sv_trim (nob_sv_trim sv) = nob_sv_trim sv ∧
    (∃ lead, sv.bytes = lead ++ (nob_sv_trim_left sv).bytes ∧
      (∀ c ∈ lead, isspace c = true) ∧
      (∀ c, (nob_sv_trim_left sv).bytes.head? = some c → isspace c = false)) ∧
    (∃ trail, sv.bytes = (nob_sv_trim_right sv).bytes ++ trail ∧
      (∀ c ∈ trail, isspace c = true) ∧
      (∀ c, (nob_sv_trim_right sv).bytes.getLast? = some c → isspace c = false)) ∧
    (nob_sv_trim sv).bytes =
      ((sv.bytes.dropWhile isspace).reverse.dropWhile isspace).reverse ∧
    (nob_sv_trim sv).items = sv.items.drop (sv.bytes.takeWhile isspace).length ∧
    (nob_sv_trim sv).count ≤ (nob_sv_trim sv).items.length := by
  obtain ⟨hl1, hl2⟩ := nob_sv_trim_left_bytes sv hwf
  obtain ⟨hr1, hr2, _⟩ := nob_sv_trim_right_bytes sv hwf
  obtain ⟨ht1, ht2, ht3⟩ := nob_sv_trim_right_bytes (nob_sv_trim_left sv) hl2
  have hitems : (nob_sv_trim sv).items = sv.items.drop (sv.bytes.takeWhile isspace).length := by
    unfold nob_sv_trim
    rw [ht3, nob_sv_trim_left_value sv hwf]
    rfl
  have htrim : (nob_sv_trim sv).bytes =
      ((sv.bytes.dropWhile isspace).reverse.dropWhile isspace).reverse := by
    unfold nob_sv_trim
    rw [ht1, hl1]
  have htwf : (nob_sv_trim sv).count ≤ (nob_sv_trim sv).items.length := ht2
  obtain ⟨hf1, hf2, hf3⟩ := strip_front_facts isspace sv.bytes
  obtain ⟨hb1, hb2, hb3⟩ := strip_back_facts isspace (sv.bytes.dropWhile isspace)
  obtain ⟨hs1, hs2, hs3⟩ := strip_back_facts isspace sv.bytes
  have hhead : ∀ c, (nob_sv_trim sv).bytes.head? = some c → isspace c = false := by
    intro c hc
    apply hf3 c
    rw [hb1, List.head?_append, ← htrim, hc]
    rfl
  have hlast : ∀ c, (nob_sv_trim sv).bytes.getLast? = some c → isspace c = false := by
    intro c hc
    rw [htrim] at hc
    exact hb3 c hc
  refine ⟨⟨sv.bytes.takeWhile isspace,
      ((sv.bytes.dropWhile isspace).reverse.takeWhile isspace).reverse, ?_, hf2, hb2⟩,
    hhead, hlast, ?_, nob_sv_trim_fixed _ htwf hhead hlast,
    ⟨sv.bytes.takeWhile isspace, ?_, hf2, ?_⟩,
    ⟨(sv.bytes.reverse.takeWhile isspace).reverse, ?_, hs2, ?_⟩, htrim, hitems, htwf⟩
  · rw [htrim, List.append_assoc, ← hb1]
    exact hf1
  · intro hall
    have hnil : sv.bytes.dropWhile isspace = [] := List.dropWhile_eq_nil_iff.mpr hall
    have hb : (nob_sv_trim sv).bytes = [] := by rw [htrim, hnil]; rfl
    have hlen := (nob_sv_trim sv).bytes_length htwf
    rw [hb] at hlen
    exact hlen.symm
  · rw [hl1]
    exact hf1
  · rw [hl1]
    exact hf3
  · rw [hr1]
    exact hs1
  · rw [hr1]
    exact hs3

theorem C13_trim_removes_whitespace_runs_witness :
    (sv_of [' ', 'x', ' ']).count ≤ (sv_of [' ', 'x', ' ']).items.length ∧
    (nob_sv_trim (sv_of [' ', 'x', ' '])).bytes = ['x'] ∧
    (nob_sv_trim_left (sv_of [' ', 'x', ' '])).bytes = ['x', ' '] ∧
    (nob_sv_trim_right (sv_of [' ', 'x', ' '])).bytes = [' ', 'x'] ∧
    nob_sv_trim (nob_sv_trim (sv_of [' ', 'x', ' '])) = nob_sv_trim (sv_of [' ', 'x', ' ']) ∧
    (nob_sv_trim (sv_of [' ', 'x', ' '])).bytes =
      (((sv_of [' ', 'x', ' ']).bytes.dropWhile isspace).reverse.dropWhile isspace).reverse :=
  ⟨by decide, by decide, by decide, by decide,
    (C13_trim_removes_whitespace_runs (sv_of [' ', 'x', ' ']) (by decide)).2.2.2.2.1,
    (C13_trim_removes_whitespace_runs (sv_of [' ', 'x', ' ']) (by decide)).2.2.2.2.2.2.2.1⟩

/-! ### String views: comparison (C14) -/

theorem nob_sv_eq_iff (a b : Nob_StringView) :
    nob_sv_eq a b = true ↔ a.count = b.count ∧ a.items.take a.count = b.items.take a.count := by
  unfold nob_sv_eq memcmp_is_zero
  by_cases h : a.count = b.count
  · simp [h]
  · simp [h]

theorem sv_last_bytes (sv : Nob_StringView) (n : Nat) (hn : n ≤ sv.count) :
    (sv.items.drop (sv.count - n)).take n = sv.bytes.drop (sv.count - n) := by
  unfold Nob_StringView.bytes
  rw [List.drop_take]
  congr 1
  omega

/-- C14: for views inside their buffers, `nob_sv_starts_with sv p` is true exactly when the
bytes of `p` are a leading part of the bytes of `sv`, and `nob_sv_ends_with sv p` exactly
when they are a trailing part; both are false when `p` is longer than `sv` and true when
`p` is empty. `nob_sv_eq` is true exactly when the bytes are equal, which needs equal
lengths. -/
theorem C14_starts_ends_eq (sv p : Nob_StringView) (hsv : sv.count ≤ sv.items.length)
    (hp : p.count ≤ p.items.length) :
    (nob_sv_starts_with sv p = true ↔ ∃ t, sv.bytes = p.bytes ++ t) ∧
    (nob_sv_ends_with sv p = true ↔ ∃ t, sv.bytes = t ++ p.bytes) ∧
    (sv.count < p.count → nob_sv_starts_with sv p = false ∧ nob_sv_ends_with sv p = false) ∧
    (p.count = 0 → nob_sv_starts_with sv p = true ∧ nob_sv_ends_with sv p = true) ∧
    (nob_sv_eq sv p = true ↔ sv.bytes = p.bytes) ∧
    (nob_sv_eq sv p = true → sv.count = p.count) := by
  have hls := sv.bytes_length hsv
  have hlp := p.bytes_length hp
  have hstarts : nob_sv_starts_with sv p = true ↔ ∃ t, sv.bytes = p.bytes ++ t := by
    unfold nob_sv_starts_with
    by_cases hle : p.count ≤ sv.count
    · simp only [hle, if_true, nob_sv_eq_iff, nob_sv_from_parts, true_and]
      have htake : List.take p.count sv.items = List.take p.count sv.bytes := by
        unfold Nob_StringView.bytes
        rw [List.take_take, Nat.min_eq_left hle]
      rw [htake]
      change p.bytes = List.take p.count sv.bytes ↔ _
      constructor
      · intro h
        refine ⟨sv.bytes.drop p.count, ?_⟩
        rw [h]
        simp
      · rintro ⟨t, ht⟩
        rw [ht, ← hlp]
        exact (List.take_left _ _).symm
    · simp only [hle, if_false, Bool.false_eq_true, false_iff]
      rintro ⟨t, ht⟩
      have := congrArg List.length ht
      rw [List.length_append, hls, hlp] at this
      omega
  have hends : nob_sv_ends_with sv p = true ↔ ∃ t, sv.bytes = t ++ p.bytes := by
    unfold nob_sv_ends_with
    by_cases hle : p.count ≤ sv.count
    · simp only [hle, if_true, nob_sv_eq_iff, nob_sv_from_parts, true_and]
      rw [sv_last_bytes sv p.count hle]
      change p.bytes = List.drop (sv.count - p.count) sv.bytes ↔ _
      constructor
      · intro h
        refine ⟨sv.bytes.take (sv.count - p.count), ?_⟩
        rw [h]
        simp
      · rintro ⟨t, ht⟩
        have hlen := congrArg List.length ht
        rw [List.length_append, hls, hlp] at hlen
        have ht2 : t.length = sv.count - p.count := by omega
        rw [ht, ← ht2]
        exact (List.drop_left _ _).symm
    · simp only [hle, if_false, Bool.false_eq_true, false_iff]
      rintro ⟨t, ht⟩
      have := congrArg List.length ht
      rw [List.length_append, hls, hlp] at this
      omega
  have heq : nob_sv_eq sv p = true ↔ sv.bytes = p.bytes := by
    rw [nob_sv_eq_iff]
    constructor
    · rintro ⟨hc, hb⟩
      unfold Nob_StringView.bytes
      rw [hb, hc]
    · intro hb
      have hc : sv.count = p.count := by rw [← hls, ← hlp, hb]
      refine ⟨hc, ?_⟩
      unfold Nob_StringView.bytes at hb
      rw [hb, hc]
  refine ⟨hstarts, hends, ?_, ?_, heq, fun h => ((nob_sv_eq_iff sv p).mp h).1⟩
  · intro hlt
    have hle : ¬ p.count ≤ sv.count := by omega
    simp [nob_sv_starts_with, nob_sv_ends_with, hle]
  · intro hz
    have hnil : p.bytes = [] := List.eq_nil_of_length_eq_zero (by rw [hlp, hz])
    constructor
    · rw [hstarts, hnil]
      exact ⟨sv.bytes, rfl⟩
    · rw [hends, hnil]
      exact ⟨sv.bytes, (List.append_nil _).symm⟩

theorem C14_starts_ends_eq_witness :
    ((sv_of ['n', 'o', 'b', '.', 'c']).count ≤ (sv_of ['n', 'o', 'b', '.', 'c']).items.length ∧
      (sv_of ['.', 'c']).count ≤ (sv_of ['.', 'c']).items.length) ∧
    nob_sv_ends_with (sv_of ['n', 'o', 'b', '.', 'c']) (sv_of ['.', 'c']) = true ∧
    nob_sv_starts_with (sv_of ['n', 'o', 'b', '.', 'c']) (sv_of ['.', 'c']) = false ∧
    ((nob_sv_starts_with (sv_of ['n', 'o', 'b', '.', 'c']) (sv_of ['.', 'c']) = true ↔
      ∃ t, (sv_of ['n', 'o', 'b', '.', 'c']).bytes = (sv_of ['.', 'c']).bytes ++ t) ∧
    (nob_sv_ends_with (sv_of ['n', 'o', 'b', '.', 'c']) (sv_of ['.', 'c']) = true ↔
      ∃ t, (sv_of ['n', 'o', 'b', '.', 'c']).bytes = t ++ (sv_of ['.', 'c']).bytes)) :=
  ⟨⟨by decide, by decide⟩, by decide, by decide,
    (C14_starts_ends_eq (sv_of ['n', 'o', 'b', '.', 'c']) (sv_of ['.', 'c'])
      (by decide) (by decide)).1,
    (C14_starts_ends_eq (sv_of ['n', 'o', 'b', '.', 'c']) (sv_of ['.', 'c'])
      (by decide) (by decide)).2.1⟩

/-! ### Temporary arena (C15, C16) -/

theorem nob_temp_alloc_no_wrap (size : Nat) (a : TempArena)
    (hsum : a.nob_temp_size + size < SIZE_MOD) :
    (a.nob_temp_size + size > NOB_TEMP_CAPACITY → nob_temp_alloc size a = (none, a)) ∧
    (a.nob_temp_size + size ≤ NOB_TEMP_CAPACITY →
      (nob_temp_alloc size a).1 = some a.nob_temp_size ∧
      (nob_temp_alloc size a).2.nob_temp_size = a.nob_temp_size + size ∧
      (nob_temp_alloc size a).2.nob_temp = a.nob_temp) := by
  unfold nob_temp_alloc
  rw [Nat.mod_eq_of_lt hsum]
  constructor
  · intro h
    simp [h]
  · intro h
    have : ¬ a.nob_temp_size + size > NOB_TEMP_CAPACITY := by omega
    simp [this]

/-- C15, evaluated where it fails: with the cursor at 8 and a request of `2 ^ 64 - 4`
bytes (a value of `size_t`), cursor + size exceeds `NOB_TEMP_CAPACITY`, yet the `size_t`
sum wraps to 4, so `nob_temp_alloc` returns the address at offset 8 instead of `NULL` and
moves the cursor back to 4. -/
theorem C15_temp_alloc_size_wraps :
    SIZE_MOD - 4 < SIZE_MOD ∧
    arenaC15.nob_temp_size ≤ NOB_TEMP_CAPACITY ∧
    arenaC15.nob_temp_size + (SIZE_MOD - 4) > NOB_TEMP_CAPACITY ∧
    (nob_temp_alloc (SIZE_MOD - 4) arenaC15).1 = some 8 ∧
    (nob_temp_alloc (SIZE_MOD - 4) arenaC15).2.nob_temp_size = 4 := by
  decide

theorem nob_temp_alloc_buffer (size : Nat) (a : TempArena) :
    (nob_temp_alloc size a).2.nob_temp = a.nob_temp := by
  unfold nob_temp_alloc
  split <;> rfl

theorem arena_write_length (a : TempArena) (offset : Nat) (data : List Char) :
    (arena_write a offset data).nob_temp.length = a.nob_temp.length := by
  simp only [arena_write, List.length_take, List.length_append, List.length_drop]
  omega

theorem arena_run_length (steps : List ArenaStep) :
    ∀ a : TempArena, (arena_run steps a).nob_temp.length = a.nob_temp.length := by
  induction steps with
  | nil => intro a; rfl
  | cons step rest ih =>
    intro a
    cases step with
    | alloc size =>
      simp only [arena_run]
      rw [ih, nob_temp_alloc_buffer]
    | write offset data =>
      simp only [arena_run]
      rw [ih, arena_write_length]

theorem arena_write_read (a : TempArena) (offset : Nat) (data : List Char)
    (hfit : offset + data.length ≤ a.nob_temp.length) :
    arena_read (arena_write a offset data) offset data.length = data := by
  unfold arena_read arena_write
  simp only
  have hlen : (a.nob_temp.take offset ++ data ++
      a.nob_temp.drop (offset + data.length)).length = a.nob_temp.length := by
    simp only [List.length_take, List.length_append, List.length_drop]
    omega
  have hwhole : List.take a.nob_temp.length (a.nob_temp.take offset ++ data ++
      a.nob_temp.drop (offset + data.length)) =
      a.nob_temp.take offset ++ data ++ a.nob_temp.drop (offset + data.length) :=
    List.take_of_length_le (le_of_eq hlen)
  have hoff : (a.nob_temp.take offset).length = offset := by
    rw [List.length_take]
    omega
  rw [hwhole, List.append_assoc, List.drop_left' hoff]
  exact List.take_left _ _

/-- C16: after `c = nob_temp_save()`, any sequence of allocations and writes, and
`nob_temp_rewind(c)`, the cursor is `c` again, and the next `nob_temp_alloc(n)` returns the
same pointer and leaves the same cursor as an allocation made right after the save. When
that allocation succeeds (and cursor + n does not wrap), `n` bytes written through the new
pointer are the bytes read back at that offset, whatever was written before the rewind.
`nob_temp_reset()` has the effect of `nob_temp_rewind(0)`. -/
theorem C16_rewind_restores_cursor (a : TempArena) (steps : List ArenaStep) (n : Nat)
    (hbuf : a.nob_temp.length = NOB_TEMP_CAPACITY) :
    (nob_temp_rewind (nob_temp_save a) (arena_run steps a)).nob_temp_size = nob_temp_save a ∧
    (nob_temp_alloc n (nob_temp_rewind (nob_temp_save a) (arena_run steps a))).1 =
      (nob_temp_alloc n a).1 ∧
    (nob_temp_alloc n (nob_temp_rewind (nob_temp_save a) (arena_run steps a))).2.nob_temp_size =
      (nob_temp_alloc n a).2.nob_temp_size ∧
    (∀ p data,
      (nob_temp_alloc n (nob_temp_rewind (nob_temp_save a) (arena_run steps a))).1 = some p →
      data.length = n → a.nob_temp_size + n < SIZE_MOD →
      p = a.nob_temp_size ∧
      arena_read
        (arena_write
          (nob_temp_alloc n (nob_temp_rewind (nob_temp_save a) (arena_run steps a))).2 p data)
        p n = data) ∧
    nob_temp_reset (arena_run steps a) = nob_temp_rewind 0 (arena_run steps a) := by
  have hptr : (nob_temp_alloc n (nob_temp_rewind (nob_temp_save a) (arena_run steps a))).1 =
      (nob_temp_alloc n a).1 := by
    unfold nob_temp_alloc nob_temp_rewind nob_temp_save
    simp only
    split <;> rfl
  refine ⟨rfl, hptr, ?_, ?_, rfl⟩
  · unfold nob_temp_alloc nob_temp_rewind nob_temp_save
    simp only
    split <;> rfl
  · intro p data hp hlen hsum
    rw [hptr] at hp
    obtain ⟨hfail, hok⟩ := nob_temp_alloc_no_wrap n a hsum
    have hfit : a.nob_temp_size + n ≤ NOB_TEMP_CAPACITY := by
      by_contra hgt
      rw [hfail (by omega)] at hp
      exact Option.noConfusion hp
    have hp2 : p = a.nob_temp_size := by
      rw [(hok hfit).1] at hp
      exact (Option.some.inj hp).symm
    refine ⟨hp2, ?_⟩
    subst hlen
    apply arena_write_read
    rw [nob_temp_alloc_buffer]
    have hrun : (nob_temp_rewind (nob_temp_save a) (arena_run steps a)).nob_temp.length =
        NOB_TEMP_CAPACITY := by
      show (arena_run steps a).nob_temp.length = NOB_TEMP_CAPACITY
      rw [arena_run_length, hbuf]
    rw [hrun, hp2]
    exact hfit

theorem C16_rewind_restores_cursor_witness :
    arenaC15.nob_temp.length = NOB_TEMP_CAPACITY ∧
    (nob_temp_alloc 2
      (nob_temp_rewind (nob_temp_save arenaC15)
        (arena_run [ArenaStep.alloc 3, ArenaStep.write 8 ['o', 'l', 'd']] arenaC15))).1
      = some 8 ∧
    arena_read
      (arena_write
        (nob_temp_alloc 2
          (nob_temp_rewind (nob_temp_save arenaC15)
            (arena_run [ArenaStep.alloc 3, ArenaStep.write 8 ['o', 'l', 'd']] arenaC15))).2
        8 ['h', 'i'])
      8 2 = ['h', 'i'] :=
  have h := C16_rewind_restores_cursor arenaC15
    [ArenaStep.alloc 3, ArenaStep.write 8 ['o', 'l', 'd']] 2 (by simp [arenaC15])
  ⟨by simp [arenaC15], h.2.1.trans (by decide),
    (h.2.2.2.1 8 ['h', 'i'] (h.2.1.trans (by decide)) rfl (by decide)).2⟩

/-! ### Dynamic arrays: append (C17) -/

theorem Nob_DA.sound_count_le {α : Type} (da : Nob_DA α) (hs : da.sound) :
    da.count ≤ da.capacity := by
  obtain ⟨_, _, h3, h4⟩ := hs
  omega

theorem da_elems_of_sound {α : Type} (da : Nob_DA α) (hs : da.sound) :
    da_elems da = some da.contents := by
  obtain ⟨_, h2, h3, h4⟩ := hs
  unfold da_elems Nob_DA.contents
  by_cases hz : da.count = 0
  · simp [hz]
  · cases hi : da.items with
    | none =>
      rw [hi] at h4
      simp at h4
      exact absurd h4 hz
    | some block =>
      rw [hi] at h4
      simp only [Option.getD_some] at h4 ⊢
      simp [hz, h4]

theorem da_store_facts {α : Type} (block : List α) (count : Nat) (new_items : List α)
    (h : count ≤ block.length) :
    (da_store block count new_items).take (count + new_items.length) =
      block.take count ++ new_items ∧
    count + new_items.length ≤ (da_store block count new_items).length ∧
    ((da_store block count new_items).length = block.length ∨
      (da_store block count new_items).length = count + new_items.length) := by
  have hlt : (block.take count).length = count := by
    rw [List.length_take]
    omega
  have hlen : (block.take count ++ new_items).length = count + new_items.length := by
    rw [List.length_append, hlt]
  refine ⟨?_, ?_, ?_⟩
  · unfold da_store
    rw [← hlen]
    exact List.take_left _ _
  · unfold da_store
    rw [List.length_append, hlen]
    omega
  · unfold da_store
    rw [List.length_append, hlen, List.length_drop]
    omega

theorem nob_da_append_sound {α : Type} (da : Nob_DA α) (item : α) (hs : da.sound)
    (hroom : da.count = da.capacity → da.capacity * 2 < SIZE_MOD) :
    ∃ grown, nob_da_append da item =
        some { items := some (da_store (da.items.getD []) da.count [item]),
               count := da.count + 1, capacity := grown } ∧
      (da.count ≠ da.capacity → grown = da.capacity) ∧
      (da.count = da.capacity →
        grown = if da.capacity = 0 then DA_INIT_CAP else 2 * da.capacity) ∧
      da.count + 1 ≤ grown ∧ da.capacity ≤ grown ∧ grown < SIZE_MOD ∧
      (da_store (da.items.getD []) da.count [item]).length ≤ grown := by
  obtain ⟨h1, h2, h3, h4⟩ := hs
  obtain ⟨_, hst2, hst3⟩ := da_store_facts (da.items.getD []) da.count [item] h4
  simp only [List.length_singleton] at hst2 hst3
  by_cases hge : da.count ≥ da.capacity
  · have heq : da.count = da.capacity := by omega
    have hdouble := hroom heq
    have hcap : ((if da.capacity = 0 then 1 else 0) * DA_INIT_CAP +
        (if da.capacity ≠ 0 then 1 else 0) * (da.capacity * 2 % SIZE_MOD)) % SIZE_MOD =
        (if da.capacity = 0 then DA_INIT_CAP else 2 * da.capacity) := by
      by_cases hz : da.capacity = 0
      · simp [hz, DA_INIT_CAP, SIZE_MOD]
      · simp only [hz, if_false, ne_eq, not_false_eq_true, if_true, Nat.zero_mul, Nat.one_mul,
          Nat.zero_add, Nat.mod_eq_of_lt hdouble, Nat.mod_mod]
        omega
    have hnew : da.capacity < (if da.capacity = 0 then DA_INIT_CAP else 2 * da.capacity) := by
      unfold DA_INIT_CAP
      split <;> omega
    have hnewlt : (if da.capacity = 0 then DA_INIT_CAP else 2 * da.capacity) < SIZE_MOD := by
      unfold DA_INIT_CAP
      split
      · unfold SIZE_MOD; omega
      · omega
    have hrealloc : da_realloc da.items
        (if da.capacity = 0 then DA_INIT_CAP else 2 * da.capacity) = da.items.getD [] := by
      unfold da_realloc
      exact List.take_of_length_le (by omega)
    refine ⟨(if da.capacity = 0 then DA_INIT_CAP else 2 * da.capacity), ?_,
      fun h => absurd heq h, fun _ => rfl, by omega, by omega, hnewlt, by omega⟩
    unfold nob_da_append
    simp only [hge, if_true, hcap, hrealloc]
    have hlt : da.count < (if da.capacity = 0 then DA_INIT_CAP else 2 * da.capacity) := by
      omega
    have hmod : (da.count + 1) % SIZE_MOD = da.count + 1 := Nat.mod_eq_of_lt (by omega)
    simp only [hlt, if_true, hmod]
  · have hsome : ∃ block, da.items = some block := by
      cases hi : da.items with
      | none => have := h2 hi; omega
      | some block => exact ⟨block, rfl⟩
    obtain ⟨block, hb⟩ := hsome
    refine ⟨da.capacity, ?_, fun _ => rfl, fun h => by omega, by omega, le_refl _, h1,
      by omega⟩
    unfold nob_da_append
    have hlt : da.count < da.capacity := by omega
    have hmod : (da.count + 1) % SIZE_MOD = da.count + 1 := Nat.mod_eq_of_lt (by omega)
    simp only [hge, if_false, hb, hlt, if_true, hmod, Option.getD_some]

theorem Nob_DA.contents_length {α : Type} (da : Nob_DA α) (hs : da.sound) :
    da.contents.length = da.count := by
  obtain ⟨_, _, _, h4⟩ := hs
  unfold Nob_DA.contents
  rw [List.length_take]
  omega

/-- C17: for a dynamic array with a sound representation (so `count ≤ capacity`) whose
doubled capacity is a `size_t` value when it is full, `nob_da_append` keeps the first
`count` elements, stores the item at index `count` and increases `count` by one. The
capacity changes only when `count` equals `capacity`, and then becomes 256 if it was 0 and
twice the old capacity otherwise. Afterwards `count ≤ capacity`, the capacity is not
smaller than before, and the representation is sound again. -/
theorem C17_da_append_keeps_and_grows {α : Type} (da : Nob_DA α) (item : α) (hs : da.sound)
    (hroom : da.count = da.capacity → da.capacity * 2 < SIZE_MOD) :
    ∃ da1, nob_da_append da item = some da1 ∧
      da1.contents = da.contents ++ [item] ∧
      (∀ i, i < da.count → da1.contents[i]? = da.contents[i]?) ∧
      da1.contents[da.count]? = some item ∧
      da1.count = da.count + 1 ∧
      (da.count ≠ da.capacity → da1.capacity = da.capacity) ∧
      (da.count = da.capacity →
        da1.capacity = if da.capacity = 0 then DA_INIT_CAP else 2 * da.capacity) ∧
      da1.count ≤ da1.capacity ∧ da.capacity ≤ da1.capacity ∧ da1.sound := by
  obtain ⟨grown, hval, hsame, hfull, hc1, hc2, hc3, hc4⟩ := nob_da_append_sound da item hs hroom
  have hlen := da.contents_length hs
  obtain ⟨_, _, _, h4⟩ := hs
  obtain ⟨hst1, hst2, _⟩ := da_store_facts (da.items.getD []) da.count [item] h4
  simp only [List.length_singleton] at hst1 hst2
  have hcontents : (Nob_DA.contents
      { items := some (da_store (da.items.getD []) da.count [item]),
        count := da.count + 1, capacity := grown }) = da.contents ++ [item] := by
    simp only [Nob_DA.contents, Option.getD_some]
    exact hst1
  refine ⟨_, hval, hcontents, ?_, ?_, rfl, hsame, hfull, hc1, hc2, ?_⟩
  · intro i hi
    rw [hcontents]
    exact List.getElem?_append_left (by omega)
  · rw [hcontents, List.getElem?_append_right (by omega), hlen]
    simp
  · exact ⟨hc3, fun h => Option.noConfusion h, hc4, hst2⟩

theorem C17_da_append_keeps_and_grows_witness :
    (daC17.sound ∧ (daC17.count = daC17.capacity → daC17.capacity * 2 < SIZE_MOD)) ∧
    ∃ da1, nob_da_append daC17 30 = some da1 ∧
      da1.contents = daC17.contents ++ [30] ∧
      (∀ i, i < daC17.count → da1.contents[i]? = daC17.contents[i]?) ∧
      da1.contents[daC17.count]? = some 30 ∧
      da1.count = daC17.count + 1 ∧
      (daC17.count ≠ daC17.capacity → da1.capacity = daC17.capacity) ∧
      (daC17.count = daC17.capacity →
        da1.capacity = if daC17.capacity = 0 then DA_INIT_CAP else 2 * daC17.capacity) ∧
      da1.count ≤ da1.capacity ∧ daC17.capacity ≤ da1.capacity ∧ da1.sound :=
  ⟨⟨by unfold Nob_DA.sound; decide, by decide⟩,
    C17_da_append_keeps_and_grows daC17 30 (by unfold Nob_DA.sound; decide) (by decide)⟩

/-! ### Dynamic arrays: append many (C18) -/

theorem da_grow_loop_pow (need : Nat) (hneed : need < 2 ^ 63) :
    ∀ (fuel capacity grown : Nat), da_grow_loop fuel need capacity = some grown →
      ∃ k, grown = capacity * 2 ^ k := by
  intro fuel
  induction fuel with
  | zero =>
    intro capacity grown h
    simp [da_grow_loop] at h
  | succ fuel ih =>
    intro capacity grown h
    rw [da_grow_loop] at h
    by_cases hge : need ≥ capacity
    · have hdouble : capacity * 2 % SIZE_MOD = capacity * 2 := by
        apply Nat.mod_eq_of_lt
        unfold SIZE_MOD
        omega
      simp only [hge, if_true, hdouble] at h
      obtain ⟨k, hk⟩ := ih (capacity * 2) grown h
      refine ⟨k + 1, ?_⟩
      rw [hk]
      ring
    · simp only [hge, if_false, Option.some.injEq] at h
      exact ⟨0, by rw [← h]; simp⟩

theorem nob_da_append_many_sound {α : Type} (da : Nob_DA α) (new_items : List α)
    (hs : da.sound) (hbound : da.count + new_items.length < 2 ^ 63) :
    ∃ da1, nob_da_append_many da new_items = some da1 ∧
      da1.contents = da.contents ++ new_items ∧
      da1.count = da.count + new_items.length ∧
      da.capacity ≤ da1.capacity ∧
      (da.count + new_items.length < da.capacity → da1.capacity = da.capacity) ∧
      (da.count + new_items.length ≥ da.capacity →
        ∃ k, da1.capacity = (if da.capacity = 0 then DA_INIT_CAP else da.capacity) * 2 ^ k) ∧
      da1.count ≤ da1.capacity ∧ da1.sound := by
  obtain ⟨h1, h2, h3, h4⟩ := hs
  obtain ⟨grown, hval, hg1, hg2, hg3, hg4⟩ :=
    nob_da_append_many_grows da new_items h1 h2 h3 hbound
  obtain ⟨hst1, hst2, hst3⟩ := da_store_facts (da.items.getD []) da.count new_items h4
  refine ⟨_, hval, ?_, rfl, hg2, hg4, ?_, hg1, ⟨hg3, fun h => Option.noConfusion h, ?_, hst2⟩⟩
  · simp only [Nob_DA.contents, Option.getD_some]
    exact hst1
  · intro hge
    have hmod : (da.count + new_items.length) % SIZE_MOD = da.count + new_items.length := by
      apply Nat.mod_eq_of_lt
      unfold SIZE_MOD
      omega
    have hcap0 : ((if da.capacity = 0 then 1 else 0) * DA_INIT_CAP +
        (if da.capacity ≠ 0 then 1 else 0) * da.capacity) % SIZE_MOD =
        (if da.capacity = 0 then DA_INIT_CAP else da.capacity) := by
      by_cases hz : da.capacity = 0
      · simp [hz, DA_INIT_CAP, SIZE_MOD]
      · simp [hz, Nat.mod_eq_of_lt h1]
    unfold nob_da_append_many at hval
    simp only [hmod, hge, if_true, hcap0] at hval
    cases hloop : da_grow_loop 65 (da.count + new_items.length)
        (if da.capacity = 0 then DA_INIT_CAP else da.capacity) with
    | none =>
      rw [hloop] at hval
      simp at hval
    | some g =>
      rw [hloop] at hval
      simp only at hval
      have hgeq : g = grown := by
        by_cases hfit : da.count + new_items.length ≤ g
        · simp only [hfit, if_true, Option.some.injEq, Nob_DA.mk.injEq] at hval
          exact hval.2.2
        · simp [hfit] at hval
      rw [← hgeq]
      exact da_grow_loop_pow _ hbound 65 _ g hloop
  · simp only [Option.getD_some]
    rcases hst3 with h | h <;> omega

/-- C18: for a container with a sound representation (so `count ≤ capacity`) and a buffer
of `n` items with `count + n < 2 ^ 63`, `nob_da_append_many` yields the old contents
followed by the new items in order and increases `count` by exactly `n`. The capacity never
decreases; it stays as it is when `count + n < capacity` and otherwise becomes the old
capacity (256 if that was 0) times a power of two. Afterwards `count ≤ capacity`.
`nob_sb_append_cstr` appends exactly the bytes of the string, with no terminator, and
`nob_sb_append_null` appends exactly one zero byte. -/
theorem C18_da_append_many_appends {α : Type} (da : Nob_DA α) (new_items : List α)
    (hs : da.sound) (hbound : da.count + new_items.length < 2 ^ 63) :
    (∃ da1, nob_da_append_many da new_items = some da1 ∧
      da1.contents = da.contents ++ new_items ∧
      da1.count = da.count + new_items.length ∧
      da.capacity ≤ da1.capacity ∧
      (da.count + new_items.length < da.capacity → da1.capacity = da.capacity) ∧
      (da.count + new_items.length ≥ da.capacity →
        ∃ k, da1.capacity = (if da.capacity = 0 then DA_INIT_CAP else da.capacity) * 2 ^ k) ∧
      da1.count ≤ da1.capacity ∧ da1.sound) ∧
    (∀ (sb : Nob_StringBuilder) (cstr : CStr), sb.sound → sb.count + cstr.length < 2 ^ 63 →
      ∃ sb1, nob_sb_append_cstr sb cstr = some sb1 ∧ sb1.contents = sb.contents ++ cstr ∧
        sb1.count = sb.count + cstr.length ∧ sb.capacity ≤ sb1.capacity) ∧
    (∀ (sb : Nob_StringBuilder), sb.sound → sb.count + 1 < 2 ^ 63 →
      ∃ sb1, nob_sb_append_null sb = some sb1 ∧ sb1.contents = sb.contents ++ [NUL] ∧
        sb1.count = sb.count + 1 ∧ sb.capacity ≤ sb1.capacity) := by
  refine ⟨nob_da_append_many_sound da new_items hs hbound, ?_, ?_⟩
  · intro sb cstr hsb hb
    obtain ⟨sb1, h1, h2, h3, h4, _⟩ := nob_da_append_many_sound sb cstr hsb hb
    exact ⟨sb1, h1, h2, h3, h4⟩
  · intro sb hsb hb
    obtain ⟨sb1, h1, h2, h3, h4, _⟩ := nob_da_append_many_sound sb [NUL] hsb hb
    exact ⟨sb1, h1, h2, h3, h4⟩

theorem C18_da_append_many_appends_witness :
    (sbC18.sound ∧ sbC18.count + ['c', 'd', 'e'].length < 2 ^ 63) ∧
    (∃ da1, nob_da_append_many sbC18 ['c', 'd', 'e'] = some da1 ∧
      da1.contents = sbC18.contents ++ ['c', 'd', 'e'] ∧
      da1.count = sbC18.count + ['c', 'd', 'e'].length ∧
      sbC18.capacity ≤ da1.capacity ∧
      (sbC18.count + ['c', 'd', 'e'].length < sbC18.capacity →
        da1.capacity = sbC18.capacity) ∧
      (sbC18.count + ['c', 'd', 'e'].length ≥ sbC18.capacity →
        ∃ k, da1.capacity =
          (if sbC18.capacity = 0 then DA_INIT_CAP else sbC18.capacity) * 2 ^ k) ∧
      da1.count ≤ da1.capacity ∧ da1.sound) ∧
    (∃ sb1, nob_sb_append_null sbC18 = some sb1 ∧ sb1.contents = sbC18.contents ++ [NUL] ∧
        sb1.count = sbC18.count + 1 ∧ sbC18.capacity ≤ sb1.capacity) :=
  ⟨⟨by unfold Nob_DA.sound; decide, by decide⟩,
    (C18_da_append_many_appends sbC18 ['c', 'd', 'e'] (by unfold Nob_DA.sound; decide)
      (by decide)).1,
    (C18_da_append_many_appends sbC18 ['c', 'd', 'e'] (by unfold Nob_DA.sound; decide)
      (by decide)).2.2 sbC18 (by unfold Nob_DA.sound; decide) (by decide)⟩

/-! ### Dynamic arrays: free (C19) -/

/-- C19, evaluated where it fails: `nob_da_free` (the text of `nob_sb_free` and
`nob_cmd_free` as well) sets `items` to `NULL` and leaves `count` and `capacity` as they
were. For a builder with `count = 4` and `capacity = 256` the freed container is not the
zero-initialised one, and the next append, which finds `count < capacity` and does not
reallocate, writes through `NULL`, whereas the same append to a fresh container succeeds. -/
theorem C19_free_keeps_count_and_capacity :
    (∀ (α : Type) (da : Nob_DA α),
      (nob_da_free da).items = none ∧ (nob_da_free da).count = da.count ∧
      (nob_da_free da).capacity = da.capacity) ∧
    (nob_da_free sbC19).count = 4 ∧ (nob_da_free sbC19).capacity = 256 ∧
    nob_sb_append_cstr (nob_da_free sbC19) ['x'] = none ∧
    nob_da_append (nob_da_free sbC19) 'x' = none ∧
    nob_sb_append_cstr Nob_DA.zero ['x'] =
      some { items := some ['x'], count := 1, capacity := 256 } ∧
    nob_da_append (Nob_DA.zero : Nob_StringBuilder) 'x' =
      some { items := some ['x'], count := 1, capacity := 256 } :=
  ⟨fun _ _ => ⟨rfl, rfl, rfl⟩, rfl, rfl, rfl, rfl, rfl, rfl⟩

/-! ### Rendering a command (C20) -/

theorem join_fields_cons (delim : Char) (field : List Char) (rest : List (List Char)) :
    join_fields delim (field :: rest) = field ++ join_rest delim rest := by
  induction rest generalizing field with
  | nil => simp [join_fields, join_rest]
  | cons next more ih =>
    simp only [join_fields, join_rest]
    rw [ih]

theorem nob_da_append_contents {α : Type} (da : Nob_DA α) (item : α) (hs : da.sound)
    (hbound : da.count + 1 < 2 ^ 63) :
    ∃ da1, nob_da_append da item = some da1 ∧ da1.sound ∧
      da1.contents = da.contents ++ [item] ∧ da1.count = da.count + 1 := by
  have hroom : da.count = da.capacity → da.capacity * 2 < SIZE_MOD := by
    intro h
    unfold SIZE_MOD
    omega
  obtain ⟨grown, hval, _, _, _, _, hc3, hc4⟩ := nob_da_append_sound da item hs hroom
  obtain ⟨_, _, _, h4⟩ := hs
  obtain ⟨hst1, hst2, _⟩ := da_store_facts (da.items.getD []) da.count [item] h4
  simp only [List.length_singleton] at hst1 hst2
  refine ⟨_, hval, ⟨hc3, fun h => Option.noConfusion h, hc4, hst2⟩, ?_, rfl⟩
  simp only [Nob_DA.contents, Option.getD_some]
  exact hst1

theorem nob_da_append_many_contents {α : Type} (da : Nob_DA α) (new_items : List α)
    (hs : da.sound) (hbound : da.count + new_items.length < 2 ^ 63) :
    ∃ da1, nob_da_append_many da new_items = some da1 ∧ da1.sound ∧
      da1.contents = da.contents ++ new_items ∧ da1.count = da.count + new_items.length := by
  obtain ⟨da1, h1, h2, h3, _, _, _, _, h8⟩ := nob_da_append_many_sound da new_items hs hbound
  exact ⟨da1, h1, h8, h2, h3⟩

theorem quote_arg_length (arg : CStr) :
    (quote_arg arg).length = if ' ' ∈ arg then arg.length + 2 else arg.length := by
  unfold quote_arg
  split <;> simp

theorem nob_cmd_render_one (r1 : Nob_StringBuilder) (arg : CStr) (hs : r1.sound)
    (hbound : r1.count + (quote_arg arg).length < 2 ^ 63) :
    ∃ r4, (if ¬ (' ' ∈ arg) then nob_sb_append_cstr r1 arg
        else (nob_da_append r1 QUOTE).bind fun r2 =>
          (nob_sb_append_cstr r2 arg).bind fun r3 => nob_da_append r3 QUOTE) = some r4 ∧
      r4.sound ∧ r4.contents = r1.contents ++ quote_arg arg ∧
      r4.count = r1.count + (quote_arg arg).length := by
  have hql := quote_arg_length arg
  by_cases hsp : ' ' ∈ arg
  · rw [if_pos hsp] at hql
    obtain ⟨r2, e2, s2, c2, n2⟩ := nob_da_append_contents r1 QUOTE hs (by omega)
    obtain ⟨r3, e3, s3, c3, n3⟩ := nob_da_append_many_contents r2 arg s2 (by omega)
    obtain ⟨r4, e4, s4, c4, n4⟩ := nob_da_append_contents r3 QUOTE s3 (by omega)
    refine ⟨r4, ?_, s4, ?_, by omega⟩
    · simp only [hsp, not_true_eq_false, if_false, e2, Option.bind, nob_sb_append_cstr, e3, e4]
    · rw [c4, c3, c2]
      simp [quote_arg, hsp]
  · rw [if_neg hsp] at hql
    obtain ⟨r4, e4, s4, c4, n4⟩ := nob_da_append_many_contents r1 arg hs (by omega)
    refine ⟨r4, ?_, s4, ?_, by omega⟩
    · simp only [hsp, not_false_eq_true, if_true, nob_sb_append_cstr, e4]
    · rw [c4]
      simp [quote_arg, hsp]

theorem nob_cmd_render_loop_rest (args : List CStr) :
    ∀ (i : Nat) (render : Nob_StringBuilder), i > 0 → render.sound →
      render.count + (join_rest ' ' (args.map quote_arg)).length < 2 ^ 63 →
      ∃ r, nob_cmd_render_loop i (args.map some) render = some r ∧ r.sound ∧
        r.contents = render.contents ++ join_rest ' ' (args.map quote_arg) ∧
        r.count = render.count + (join_rest ' ' (args.map quote_arg)).length := by
  induction args with
  | nil =>
    intro i render _ hs _
    exact ⟨render, rfl, hs, by simp [join_rest], by simp [join_rest]⟩
  | cons arg rest ih =>
    intro i render hi hs hbound
    simp only [List.map_cons, join_rest, List.length_cons, List.length_append] at hbound
    obtain ⟨r1, e1, s1, c1, n1⟩ := nob_da_append_many_contents render [' '] hs
      (by simp only [List.length_singleton]; omega)
    simp only [List.length_singleton] at n1
    obtain ⟨r4, e4, s4, c4, n4⟩ := nob_cmd_render_one r1 arg s1 (by omega)
    obtain ⟨r, e, s5, c5, n5⟩ := ih (i + 1) r4 (by omega) s4 (by omega)
    refine ⟨r, ?_, s5, ?_, ?_⟩
    · simp only [List.map_cons, nob_cmd_render_loop, hi, if_true, nob_sb_append_cstr, e1]
      simp only [nob_sb_append_cstr] at e4
      rw [e4]
      exact e
    · rw [c5, c4, c1]
      simp [join_rest]
    · simp only [List.map_cons, join_rest, List.length_cons, List.length_append]
      omega

/-- C20: for a command whose arguments are all non-`NULL` and a builder with a sound
representation (the rendering fitting below `2 ^ 63` bytes), `nob_cmd_render` keeps the
previous contents of the builder and appends the arguments in order, joined by single
spaces, where an argument that contains a space stands between two single quotes and every
other argument is copied as it is; quotes inside an argument are copied as they are, and
nothing else (no terminator) is appended. -/
theorem C20_cmd_render_text (cmd : Nob_Cmd) (args : List CStr) (render : Nob_StringBuilder)
    (hargs : da_elems cmd = some (args.map some)) (hs : render.sound)
    (hbound : render.count + (render_text args).length < 2 ^ 63) :
    ∃ r, nob_cmd_render cmd render = some r ∧
      r.contents = render.contents ++ render_text args ∧
      r.count = render.count + (render_text args).length ∧ r.sound := by
  unfold nob_cmd_render
  rw [hargs]
  simp only
  cases args with
  | nil =>
    exact ⟨render, rfl, by simp [render_text, join_fields], by simp [render_text, join_fields],
      hs⟩
  | cons arg rest =>
    have htext : render_text (arg :: rest) =
        quote_arg arg ++ join_rest ' ' (rest.map quote_arg) := by
      unfold render_text
      rw [List.map_cons, join_fields_cons]
    rw [htext, List.length_append] at hbound
    rw [htext]
    obtain ⟨r4, e4, s4, c4, n4⟩ := nob_cmd_render_one render arg hs (by omega)
    obtain ⟨r, e, s5, c5, n5⟩ := nob_cmd_render_loop_rest rest 1 r4 (by omega) s4 (by omega)
    refine ⟨r, ?_, ?_, ?_, s5⟩
    · simp only [List.map_cons, nob_cmd_render_loop, gt_iff_lt, lt_self_iff_false, if_false]
      rw [e4]
      exact e
    · rw [c5, c4, List.append_assoc]
    · rw [n5, n4, List.length_append]
      omega

theorem C20_cmd_render_text_witness :
    (da_elems cmdC20 = some (argsC20.map some) ∧ sbC20.sound ∧
      sbC20.count + (render_text argsC20).length < 2 ^ 63) ∧
    render_text argsC20 =
      ['c', 'c', ' ', '-', 'o', ' ', QUOTE, 'm', 'y', ' ', 'p', 'r', 'o', 'g', QUOTE, ' ',
        'i', 't', QUOTE, 's'] ∧
    ∃ r, nob_cmd_render cmdC20 sbC20 = some r ∧
      r.contents = sbC20.contents ++ render_text argsC20 ∧
      r.count = sbC20.count + (render_text argsC20).length ∧ r.sound :=
  ⟨⟨by decide, by unfold Nob_DA.sound; decide, by decide⟩, by decide,
    C20_cmd_render_text cmdC20 argsC20 sbC20 (by decide) (by unfold Nob_DA.sound; decide)
      (by decide)⟩

/-! ### Running a command and clearing it (C21) -/

theorem nob_cmd_append_null_in_place (args : List CStr) :
    ∀ cmd : Nob_Cmd, cmd.sound → cmd.count + args.length ≤ cmd.capacity →
      ∃ cmd2, nob_cmd_append_null cmd (args.map some ++ [none]) = some cmd2 ∧
        cmd2.capacity = cmd.capacity ∧ cmd2.count = cmd.count + args.length ∧
        cmd2.contents = cmd.contents ++ args.map some ∧ cmd2.sound := by
  induction args with
  | nil =>
    intro cmd hs _
    exact ⟨cmd, rfl, rfl, rfl, by simp, hs⟩
  | cons arg rest ih =>
    intro cmd hs hfit
    rw [List.length_cons] at hfit
    have hne : cmd.count ≠ cmd.capacity := by omega
    obtain ⟨grown, hval, hsame, _, _, _, hc3, hc4⟩ :=
      nob_da_append_sound cmd (some arg) hs (fun h => absurd h hne)
    have hgrown : grown = cmd.capacity := hsame hne
    obtain ⟨_, _, _, h4⟩ := hs
    obtain ⟨hst1, hst2, _⟩ := da_store_facts (cmd.items.getD []) cmd.count [some arg] h4
    simp only [List.length_singleton] at hst1 hst2
    obtain ⟨cmd2, e2, cap2, n2, c2, s2⟩ := ih
      { items := some (da_store (cmd.items.getD []) cmd.count [some arg]),
        count := cmd.count + 1, capacity := grown }
      ⟨hc3, fun h => Option.noConfusion h, hc4, hst2⟩
      (by
        show cmd.count + 1 + rest.length ≤ grown
        omega)
    refine ⟨cmd2, ?_, ?_, ?_, ?_, s2⟩
    · simp only [List.map_cons, List.cons_append, nob_cmd_append_null]
      rw [hval]
      exact e2
    · rw [cap2]
      exact hgrown
    · rw [n2]
      show cmd.count + 1 + rest.length = cmd.count + (rest.length + 1)
      omega
    · rw [c2]
      simp only [Nob_DA.contents, Option.getD_some, List.map_cons]
      rw [hst1, List.append_assoc]
      rfl

/-- C21: for every command, `nob_cmd_run_sync_and_reset` has the effects of
`nob_cmd_run_sync` on the system and on the log and returns whenever `nob_cmd_run_sync`
returns (success, child failure, spawn failure, empty command), with the same boolean;
it leaves the command with `count` 0 and with the same `items` block and `capacity`. For a
command with a sound representation, appending afterwards any arguments no more than the
old capacity stores them in that block: the capacity stays the same (no reallocation)
and the command holds exactly the new arguments. -/
theorem C21_run_sync_and_reset_keeps_storage (os : OS σ) (fuel : Nat) (cmd : Nob_Cmd)
    (w : World σ) :
    (nob_cmd_run_sync_and_reset os fuel cmd w).2 = (nob_cmd_run_sync os fuel cmd w).2 ∧
    (∀ res, (nob_cmd_run_sync os fuel cmd w).1 = Outcome.ret res →
      (nob_cmd_run_sync_and_reset os fuel cmd w).1 =
        Outcome.ret (res, { items := cmd.items, count := 0, capacity := cmd.capacity })) ∧
    (∀ r, (nob_cmd_run_sync_and_reset os fuel cmd w).1 = Outcome.ret r →
      (nob_cmd_run_sync os fuel cmd w).1 = Outcome.ret r.1 ∧ r.2.count = 0 ∧
        r.2.items = cmd.items ∧ r.2.capacity = cmd.capacity) ∧
    (cmd.sound → ∀ args : List CStr, args.length ≤ cmd.capacity →
      ∃ cmd2, nob_cmd_append { items := cmd.items, count := 0, capacity := cmd.capacity }
          (args.map some) = some cmd2 ∧
        cmd2.capacity = cmd.capacity ∧ cmd2.count = args.length ∧
        cmd2.contents = args.map some ∧ cmd2.sound) := by
  refine ⟨?_, ?_, ?_, ?_⟩
  · unfold nob_cmd_run_sync_and_reset
    rcases nob_cmd_run_sync os fuel cmd w with ⟨o, w1⟩
    cases o <;> rfl
  · intro res h
    unfold nob_cmd_run_sync_and_reset
    revert h
    rcases nob_cmd_run_sync os fuel cmd w with ⟨o, w1⟩
    intro h
    cases o with
    | ret a =>
      have ha : a = res := Outcome.ret.inj h
      rw [ha]
      rfl
    | exit status => exact Outcome.noConfusion h
    | abort => exact Outcome.noConfusion h
    | child => exact Outcome.noConfusion h
    | stuck => exact Outcome.noConfusion h
  · intro r h
    unfold nob_cmd_run_sync_and_reset at h
    revert h
    rcases nob_cmd_run_sync os fuel cmd w with ⟨o, w1⟩
    intro h
    cases o with
    | ret a =>
      have hr : (a, ({ items := cmd.items, count := 0, capacity := cmd.capacity } : Nob_Cmd)) = r :=
        Outcome.ret.inj h
      rw [← hr]
      exact ⟨rfl, rfl, rfl, rfl⟩
    | exit status => exact Outcome.noConfusion h
    | abort => exact Outcome.noConfusion h
    | child => exact Outcome.noConfusion h
    | stuck => exact Outcome.noConfusion h
  · intro hs args hfit
    obtain ⟨h1, h2, h3, _⟩ := hs
    have hs0 : Nob_DA.sound
        ({ items := cmd.items, count := 0, capacity := cmd.capacity } : Nob_Cmd) :=
      ⟨h1, h2, h3, Nat.zero_le _⟩
    obtain ⟨cmd2, e2, cap2, n2, c2, s2⟩ := nob_cmd_append_null_in_place args _ hs0
      (by
        show 0 + args.length ≤ cmd.capacity
        omega)
    refine ⟨cmd2, e2, cap2, ?_, ?_, s2⟩
    · rw [n2]
      exact Nat.zero_add _
    · rw [c2]
      simp [Nob_DA.contents]

theorem C21_run_sync_and_reset_keeps_storage_witness :
    (cmdC20.sound ∧ argsC21.length ≤ cmdC20.capacity) ∧
    (nob_cmd_run_sync_and_reset simOS 3 cmdC20 worldC21).1 =
      Outcome.ret (true, { items := cmdC20.items, count := 0, capacity := cmdC20.capacity }) ∧
    (nob_cmd_run_sync_and_reset simOS 3 cmdC20
        (simWorld [] [] [7] [WaitResult.status (WStatus.exited 1)])).1 =
      Outcome.ret (false, { items := cmdC20.items, count := 0, capacity := cmdC20.capacity }) ∧
    (nob_cmd_run_sync_and_reset simOS 3 cmdC20 (simWorld [] [] [-1] [])).1 =
      Outcome.ret (false, { items := cmdC20.items, count := 0, capacity := cmdC20.capacity }) ∧
    (nob_cmd_run_sync_and_reset simOS 3 Nob_DA.zero worldC21).1 =
      Outcome.ret (false, Nob_DA.zero) ∧
    ∃ cmd2, nob_cmd_append { items := cmdC20.items, count := 0, capacity := cmdC20.capacity }
        (argsC21.map some) = some cmd2 ∧
      cmd2.capacity = cmdC20.capacity ∧ cmd2.count = argsC21.length ∧
      cmd2.contents = argsC21.map some ∧ cmd2.sound :=
  ⟨⟨by unfold Nob_DA.sound; decide, by decide⟩,
    (C21_run_sync_and_reset_keeps_storage simOS 3 cmdC20 worldC21).2.1 true (by decide),
    rfl, rfl, rfl,
    (C21_run_sync_and_reset_keeps_storage simOS 3 cmdC20 worldC21).2.2.2
      (by unfold Nob_DA.sound; decide) argsC21 (by decide)⟩

/-! ### Timestamps as `int` (C22) -/

/-- C22: the modification times 2147483648 (input) and 1700000000 (output) are values of a
64-bit `time_t` and the input is the newer file, yet the `int` copy of the input time is
`INT_MIN`, the comparison of the copies says that the input is not newer, and
`nob_needs_rebuild` returns 0 (up to date) for these two files. -/
theorem C22_int_copies_lose_order :
    (-(2 : Int) ^ 63 ≤ 2147483648 ∧ (2147483648 : Int) < 2 ^ 63) ∧
    (-(2 : Int) ^ 63 ≤ 1700000000 ∧ (1700000000 : Int) < 2 ^ 63) ∧
    (2147483648 : Int) > 1700000000 ∧
    c_int 2147483648 = INT_MIN ∧ c_int 1700000000 = 1700000000 ∧
    ¬ (c_int 2147483648 > c_int 1700000000) ∧
    (nob_needs_rebuild (statOnlyOS tableC22) ['o', 'u', 't'] [['i', 'n']] world0).1 = 0 := by
  decide

/-! ### Track times (C23) -/

theorem moddiv_eq (a b : Nat) (ha : a < UINT_MOD) (hb : b ≠ 0) :
    moddiv a b = some (a % b, a / b) := by
  have h : a / b * b + a % b = a := Nat.div_add_mod' a b
  unfold moddiv
  rw [if_neg hb]
  simp only [Option.some.injEq, Prod.mk.injEq, and_true]
  unfold UINT_MOD at ha ⊢
  generalize a / b * b = x at h ⊢
  generalize a % b = r at h ⊢
  omega

theorem digit_char_facts : ∀ d, d < 10 →
    isdigit (digit_char d) = true ∧ (digit_char d).toNat - 48 = d ∧
    digit_char d ≠ ':' ∧ digit_char d ≠ NUL ∧ isspace (digit_char d) = false ∧
    digit_char d ≠ '-' ∧ digit_char d ≠ '+' := by
  decide

theorem all_digits_append (l r : List Char) (hl : all_digits l) (hr : all_digits r) :
    all_digits (l ++ r) := by
  intro c hc
  rcases List.mem_append.mp hc with h | h
  · exact hl c h
  · exact hr c h

theorem utoa_digits_all (fuel n : Nat) : all_digits (utoa_digits fuel n) := by
  induction fuel generalizing n with
  | zero =>
    intro c hc
    simp [utoa_digits] at hc
  | succ fuel ih =>
    unfold utoa_digits
    apply all_digits_append
    · split
      · intro c hc
        simp at hc
      · exact ih _
    · intro c hc
      exact ⟨n % 10, Nat.mod_lt _ (by decide), List.mem_singleton.mp hc⟩

theorem atoi_digits_append (l : List Char) (hl : all_digits l) (r : List Char) (acc : Nat) :
    atoi_digits (l ++ r) acc = atoi_digits r (atoi_digits l acc) := by
  induction l generalizing acc with
  | nil => rfl
  | cons c rest ih =>
    obtain ⟨d, hd, hc⟩ := hl c (List.mem_cons_self _ _)
    have hdig : isdigit c = true := hc ▸ (digit_char_facts d hd).1
    simp only [List.cons_append, atoi_digits, hdig, if_true]
    exact ih (fun x hx => hl x (List.mem_cons_of_mem _ hx)) _

theorem atoi_digits_utoa (fuel n : Nat) (hn : n < 10 ^ fuel) :
    atoi_digits (utoa_digits fuel n) 0 = n := by
  induction fuel generalizing n with
  | zero =>
    have : n = 0 := by
      simp at hn
      exact hn
    rw [this]
    rfl
  | succ fuel ih =>
    unfold utoa_digits
    have hlast : atoi_digits [digit_char (n % 10)] (n / 10) = n := by
      obtain ⟨h1, h2, _⟩ := digit_char_facts (n % 10) (Nat.mod_lt _ (by decide))
      simp only [atoi_digits, h1, if_true, h2]
      omega
    by_cases hz : n / 10 = 0
    · rw [if_pos hz, List.nil_append]
      rw [hz] at hlast
      exact hlast
    · rw [if_neg hz, atoi_digits_append _ (utoa_digits_all fuel _), ih (n / 10)]
      · exact hlast
      · rw [pow_succ] at hn
        omega

theorem utoa_digits_length (fuel n : Nat) :
    (utoa_digits (fuel + 1) n).length ≤ fuel + 1 ∧ 1 ≤ (utoa_digits (fuel + 1) n).length := by
  induction fuel generalizing n with
  | zero =>
    unfold utoa_digits
    split <;> simp [utoa_digits]
  | succ fuel ih =>
    unfold utoa_digits
    split
    · simp
    · have := ih (n / 10)
      rw [List.length_append, List.length_singleton]
      omega

theorem printf_u_all (width n : Nat) : all_digits (printf_u width n) := by
  unfold printf_u
  apply all_digits_append
  · intro c hc
    exact ⟨0, by decide, (List.mem_replicate.mp hc).2⟩
  · exact utoa_digits_all _ _

theorem atoi_digits_printf_u (width n : Nat) (hn : n < 10 ^ 10) :
    atoi_digits (printf_u width n) 0 = n := by
  unfold printf_u
  generalize width - (utoa_digits 10 n).length = k
  induction k with
  | zero => exact atoi_digits_utoa 10 n hn
  | succ k ih =>
    rw [List.replicate_succ, List.cons_append]
    exact ih

theorem printf_u_length (width n : Nat) :
    1 ≤ (printf_u width n).length ∧ (printf_u width n).length ≤ max width 10 := by
  obtain ⟨h1, h2⟩ := utoa_digits_length 9 n
  simp only [Nat.reduceAdd] at h1 h2
  unfold printf_u
  rw [List.length_append, List.length_replicate]
  omega

theorem printf_u_two : ∀ v, v < 100 → printf_u 2 v = two_digits v := by
  decide

theorem printf_u_one (n : Nat) : printf_u 1 n = printf_u 0 n := by
  obtain ⟨_, h2⟩ := utoa_digits_length 9 n
  simp only [Nat.reduceAdd] at h2
  unfold printf_u
  have h : 1 - (utoa_digits 10 n).length = 0 := by omega
  rw [h, Nat.zero_sub]

theorem all_digits_not_mem (l : List Char) (hl : all_digits l) : ':' ∉ l ∧ NUL ∉ l := by
  constructor
  · intro h
    obtain ⟨d, hd, hc⟩ := hl _ h
    exact (digit_char_facts d hd).2.2.1 hc.symm
  · intro h
    obtain ⟨d, hd, hc⟩ := hl _ h
    exact (digit_char_facts d hd).2.2.2.1 hc.symm

theorem atoi_of_digits (l : List Char) (hl : all_digits l) (hne : l ≠ []) (n : Nat)
    (hval : atoi_digits l 0 = n) (hn : (n : Int) ≤ INT_MAX) : atoi l = some (n : Int) := by
  cases l with
  | nil => exact absurd rfl hne
  | cons c rest =>
    obtain ⟨d, hd, hc⟩ := hl c (List.mem_cons_self _ _)
    obtain ⟨_, _, _, _, hsp, hminus, hplus⟩ := digit_char_facts d hd
    rw [← hc] at hsp hminus hplus
    have hdrop : (c :: rest).dropWhile isspace = c :: rest := by
      simp only [List.dropWhile_cons, hsp]
      rfl
    unfold atoi
    rw [hdrop]
    simp only [if_neg hminus, if_neg hplus, hval]
    have hmin : INT_MIN ≤ (n : Int) := by
      unfold INT_MIN
      omega
    rw [if_pos ⟨hmin, hn⟩]

theorem uint32_of_int_nat (n : Nat) (hn : n < UINT_MOD) : uint32_of_int (n : Int) = n := by
  unfold uint32_of_int
  unfold UINT_MOD at hn
  omega

theorem nob_temp_sv_to_cstr_value (sv : Nob_StringView) (a : TempArena)
    (hwf : sv.count ≤ sv.items.length) (hnul : NUL ∉ sv.bytes)
    (hroom : a.nob_temp_size + sv.count + 1 ≤ NOB_TEMP_CAPACITY)
    (hbuf : NOB_TEMP_CAPACITY ≤ a.nob_temp.length) :
    ∃ a1, nob_temp_sv_to_cstr sv a = some (a.nob_temp_size, a1) ∧
      a1.nob_temp_size = a.nob_temp_size + sv.count + 1 ∧
      a1.nob_temp.length = a.nob_temp.length ∧
      arena_cstr a1 a.nob_temp_size = sv.bytes := by
  have hcap : NOB_TEMP_CAPACITY = 8192 := rfl
  have hmod : (sv.count + 1) % SIZE_MOD = sv.count + 1 := by
    apply Nat.mod_eq_of_lt
    unfold SIZE_MOD
    omega
  have hsum : a.nob_temp_size + (sv.count + 1) < SIZE_MOD := by
    unfold SIZE_MOD
    omega
  obtain ⟨h1, h2, h3⟩ := (nob_temp_alloc_no_wrap (sv.count + 1) a hsum).2 (by omega)
  have hlen := sv.bytes_length hwf
  unfold nob_temp_sv_to_cstr
  rw [hmod]
  revert h1 h2 h3
  rcases nob_temp_alloc (sv.count + 1) a with ⟨r, a1⟩
  intro h1 h2 h3
  simp only at h1 h2 h3
  rw [h1]
  refine ⟨arena_write a1 a.nob_temp_size (sv.bytes ++ [NUL]), rfl, ?_, ?_, ?_⟩
  · show a1.nob_temp_size = a.nob_temp_size + sv.count + 1
    rw [h2]
    omega
  · rw [arena_write_length, h3]
  · have hfit : a.nob_temp_size + (sv.bytes ++ [NUL]).length ≤ a1.nob_temp.length := by
      rw [List.length_append, List.length_singleton, h3, hlen]
      omega
    have hread := arena_write_read a1 a.nob_temp_size (sv.bytes ++ [NUL]) hfit
    unfold arena_read at hread
    unfold arena_cstr
    generalize (arena_write a1 a.nob_temp_size (sv.bytes ++ [NUL])).nob_temp.drop
      a.nob_temp_size = mem at hread
    have hmem : mem = (sv.bytes ++ [NUL]) ++ mem.drop (sv.bytes ++ [NUL]).length := by
      conv_lhs => rw [← List.take_append_drop (sv.bytes ++ [NUL]).length mem]
      rw [hread]
    rw [hmem, List.append_assoc, List.singleton_append]
    exact (takeWhile_ne_of_not_mem sv.bytes NUL _ hnul).1

theorem nob_sv_chop_by_delim_first (sv : Nob_StringView) (delim : Char)
    (hwf : sv.count ≤ sv.items.length) :
    (nob_sv_chop_by_delim sv delim).1.count =
      (sv.bytes.takeWhile (fun c => c != delim)).length ∧
    (nob_sv_chop_by_delim sv delim).1.count ≤ (nob_sv_chop_by_delim sv delim).1.items.length := by
  have hlen := sv.bytes_length hwf
  have hscan : nob_sv_chop_scan sv delim sv.count 0 =
      (sv.bytes.takeWhile (fun c => c != delim)).length := by
    rw [nob_sv_chop_scan_eq sv delim hwf sv.count 0 (Nat.zero_le _) (by omega)]
    simp
  have hle : (sv.bytes.takeWhile (fun c => c != delim)).length ≤ sv.bytes.length :=
    (List.takeWhile_sublist _).length_le
  have hfirst : (nob_sv_chop_by_delim sv delim).1 =
      nob_sv_from_parts sv.items (nob_sv_chop_scan sv delim sv.count 0) := by
    unfold nob_sv_chop_by_delim
    simp only
    split <;> rfl
  rw [hfirst, hscan]
  constructor
  · rfl
  · show (sv.bytes.takeWhile (fun c => c != delim)).length ≤ sv.items.length
    omega

theorem seconds_from_time_fields_step (fuel i : Nat) (time : Nob_StringView)
    (value : List Nat) (a : TempArena) (field tail : List Char) (n : Nat)
    (hi : i < 3) (hwf : time.count ≤ time.items.length)
    (hbytes : time.bytes = field ++ tail) (htail : tail = [] ∨ ∃ tl, tail = ':' :: tl)
    (hfield : all_digits field) (hne : field ≠ []) (hval : atoi_digits field 0 = n)
    (hn : n < 2147483648)
    (hroom : a.nob_temp_size + field.length + 1 ≤ NOB_TEMP_CAPACITY)
    (hbuf : NOB_TEMP_CAPACITY ≤ a.nob_temp.length) :
    ∃ time1 a1, seconds_from_time_fields (fuel + 1) i time value a =
        seconds_from_time_fields fuel (i + 1) time1 (value.set i n) a1 ∧
      time1.bytes = tail.drop 1 ∧ time1.count = (tail.drop 1).length ∧
      time1.count ≤ time1.items.length ∧
      a1.nob_temp_size = a.nob_temp_size + field.length + 1 ∧
      a1.nob_temp.length = a.nob_temp.length := by
  obtain ⟨hcolon, hnul⟩ := all_digits_not_mem field hfield
  have hsplit : time.bytes.takeWhile (fun c => c != ':') = field ∧
      (time.bytes.dropWhile (fun c => c != ':')).drop 1 = tail.drop 1 := by
    rw [hbytes]
    rcases htail with h | ⟨tl, h⟩
    · rw [h, List.append_nil]
      obtain ⟨_, _, h3, h4⟩ := takeWhile_ne_of_not_mem field ':' [] hcolon
      rw [h3, h4]
      exact ⟨rfl, rfl⟩
    · rw [h]
      obtain ⟨h1, h2, _, _⟩ := takeWhile_ne_of_not_mem field ':' tl hcolon
      rw [h1, h2]
      exact ⟨rfl, rfl⟩
  obtain ⟨c1, c2, c3, c4⟩ := nob_sv_chop_by_delim_bytes time ':' hwf
  obtain ⟨f1, f2⟩ := nob_sv_chop_by_delim_first time ':' hwf
  rw [hsplit.1] at c1 f1
  rw [hsplit.2] at c2 c3
  have hlen := time.bytes_length hwf
  have hcount : time.count ≠ 0 := by
    rw [← hlen, hbytes, List.length_append]
    have : 0 < field.length := List.length_pos.mpr hne
    omega
  obtain ⟨a1, e1, s1, b1, r1⟩ := nob_temp_sv_to_cstr_value (nob_sv_chop_by_delim time ':').1 a
    f2 (c1 ▸ hnul) (by rw [f1]; exact hroom) hbuf
  rw [c1] at r1
  have hatoi : atoi (arena_cstr a1 a.nob_temp_size) = some (n : Int) := by
    rw [r1]
    apply atoi_of_digits field hfield hne n hval
    unfold INT_MAX
    omega
  have huint : uint32_of_int (n : Int) = n := by
    apply uint32_of_int_nat
    unfold UINT_MOD
    omega
  refine ⟨(nob_sv_chop_by_delim time ':').2, a1, ?_, c2, c3, c4, ?_, b1⟩
  · rw [seconds_from_time_fields, if_pos ⟨hi, hcount⟩]
    simp only [e1, hatoi, huint]
  · rw [s1, f1]

theorem printf_u_field (width n : Nat) (hn : n < 10 ^ 10) :
    all_digits (printf_u width n) ∧ printf_u width n ≠ [] ∧
    atoi_digits (printf_u width n) 0 = n :=
  ⟨printf_u_all width n,
    fun h => by
      have h1 := (printf_u_length width n).1
      rw [h, List.length_nil] at h1
      exact absurd h1 (by decide),
    atoi_digits_printf_u width n hn⟩

theorem time_from_seconds_text (s : Nat) (hs : s < UINT_MOD) :
    time_from_seconds s = some (time_text s) := by
  have hs1 : s / 60 < UINT_MOD := by
    unfold UINT_MOD at hs ⊢
    omega
  unfold time_from_seconds
  rw [moddiv_eq s SEC60 hs (by decide)]
  simp only [SEC60]
  by_cases hlt : s < 3600
  · have hsmall : ¬ s / 60 ≥ 60 := by omega
    rw [if_neg hsmall]
    unfold time_text
    rw [if_pos hlt, printf_u_one, printf_u_two (s % 60) (by omega)]
  · have hbig : s / 60 ≥ 60 := by omega
    have hdiv : s / 60 / 60 = s / 3600 := by omega
    rw [if_pos hbig, moddiv_eq (s / 60) 60 hs1 (by decide)]
    simp only
    unfold time_text
    rw [if_neg hlt, printf_u_two (s % 60) (by omega), printf_u_two (s / 60 % 60) (by omega),
      hdiv]

theorem time_text_fields (s : Nat) :
    time_text s =
      if s < 3600 then printf_u 0 (s / 60) ++ (':' :: printf_u 2 (s % 60))
      else
        printf_u 0 (s / 3600) ++
          (':' :: (printf_u 2 (s / 60 % 60) ++ (':' :: printf_u 2 (s % 60)))) := by
  unfold time_text
  rw [printf_u_two (s % 60) (by omega), printf_u_two (s / 60 % 60) (by omega)]

theorem seconds_from_time_of_text (s : Nat) (hs : s < UINT_MOD) (a : TempArena)
    (time : Nob_StringView) (hwf : time.count ≤ time.items.length)
    (htime : time.bytes = time_text s)
    (hroom : a.nob_temp_size + (time_text s).length + 1 ≤ NOB_TEMP_CAPACITY)
    (hbuf : NOB_TEMP_CAPACITY ≤ a.nob_temp.length) :
    ∃ a1, seconds_from_time time a = some (s, a1) ∧
      a1.nob_temp_size = a.nob_temp_size + (time_text s).length + 1 ∧
      a1.nob_temp.length = a.nob_temp.length := by
  unfold UINT_MOD at hs
  have htext := time_text_fields s
  generalize time_text s = text at htext htime hroom ⊢
  by_cases hlt : s < 3600
  · rw [if_pos hlt] at htext
    obtain ⟨d1, n1, v1⟩ := printf_u_field 0 (s / 60) (by omega)
    obtain ⟨d2, n2, v2⟩ := printf_u_field 2 (s % 60) (by omega)
    generalize printf_u 0 (s / 60) = f1 at htext d1 n1 v1
    generalize printf_u 2 (s % 60) = f2 at htext d2 n2 v2
    subst htext
    simp only [List.length_append, List.length_cons] at hroom ⊢
    obtain ⟨t1, a1, e1, b1, c1, w1, s1, l1⟩ := seconds_from_time_fields_step 2 0 time
      [0, 0, 0] a f1 (':' :: f2) (s / 60) (by decide) hwf htime (Or.inr ⟨f2, rfl⟩) d1 n1 v1
      (by omega) (by omega) hbuf
    simp only [List.drop_succ_cons, List.drop_zero] at b1 c1
    obtain ⟨t2, a2, e2, b2, c2, w2, s2, l2⟩ := seconds_from_time_fields_step 1 1 t1
      ([0, 0, 0].set 0 (s / 60)) a1 f2 [] (s % 60) (by decide) w1
      (by rw [b1, List.append_nil]) (Or.inl rfl) d2 n2 v2
      (by omega) (by omega) (by omega)
    simp only [List.drop_nil, List.length_nil] at b2 c2
    refine ⟨a2, ?_, by omega, by omega⟩
    unfold seconds_from_time
    rw [e1, e2]
    simp only [seconds_from_time_fields, c2, ne_eq, not_true_eq_false, and_false, if_false,
      List.set, seconds_from_time_sum, seconds_from_time_mult, SEC60, UINT_MOD]
    simp
    omega
  · rw [if_neg hlt] at htext
    obtain ⟨d1, n1, v1⟩ := printf_u_field 0 (s / 3600) (by omega)
    obtain ⟨d2, n2, v2⟩ := printf_u_field 2 (s / 60 % 60) (by omega)
    obtain ⟨d3, n3, v3⟩ := printf_u_field 2 (s % 60) (by omega)
    generalize printf_u 0 (s / 3600) = f1 at htext d1 n1 v1
    generalize printf_u 2 (s / 60 % 60) = f2 at htext d2 n2 v2
    generalize printf_u 2 (s % 60) = f3 at htext d3 n3 v3
    subst htext
    simp only [List.length_append, List.length_cons] at hroom ⊢
    obtain ⟨t1, a1, e1, b1, c1, w1, s1, l1⟩ := seconds_from_time_fields_step 2 0 time
      [0, 0, 0] a f1 (':' :: (f2 ++ (':' :: f3))) (s / 3600) (by decide) hwf htime
      (Or.inr ⟨_, rfl⟩) d1 n1 v1 (by omega) (by omega) hbuf
    simp only [List.drop_succ_cons, List.drop_zero] at b1 c1
    obtain ⟨t2, a2, e2, b2, c2, w2, s2, l2⟩ := seconds_from_time_fields_step 1 1 t1
      ([0, 0, 0].set 0 (s / 3600)) a1 f2 (':' :: f3) (s / 60 % 60) (by decide) w1 b1
      (Or.inr ⟨f3, rfl⟩) d2 n2 v2 (by omega) (by omega) (by omega)
    simp only [List.drop_succ_cons, List.drop_zero] at b2 c2
    obtain ⟨t3, a3, e3, b3, c3, w3, s3, l3⟩ := seconds_from_time_fields_step 0 2 t2
      (([0, 0, 0].set 0 (s / 3600)).set 1 (s / 60 % 60)) a2 f3 [] (s % 60) (by decide) w2
      (by rw [b2, List.append_nil]) (Or.inl rfl) d3 n3 v3 (by omega) (by omega) (by omega)
    refine ⟨a3, ?_, by omega, by omega⟩
    unfold seconds_from_time
    rw [e1, e2, e3]
    simp only [seconds_from_time_fields,
      List.set, seconds_from_time_sum, seconds_from_time_mult, SEC60, UINT_MOD]
    have hdiv : s / 60 / 60 = s / 3600 := Nat.div_div_eq_div_mul s 60 60
    have hsum : s % 60 + s / 60 % 60 * 60 + s / 3600 * 3600 = s := by
      clear * - hdiv
      omega
    simp
    rw [hsum]
    exact Nat.mod_eq_of_lt hs

/-- C23: for every 32-bit unsigned number of seconds `s`, `time_from_seconds` produces the
text `m:ss` when `s` is below one hour and `h:mm:ss` otherwise, where `mm` and `ss` are the
two digits of `s / 60 % 60` and `s % 60` (both below 60) and `m`, `h` are `s / 60`,
`s / 3600` in decimal. Whenever the temporary arena has room for the text and one
terminator, `seconds_from_time` on a view of that text returns `s` (and moves the arena
cursor by that amount). And `moddiv a b` with `b ≠ 0` stores `a % b` and `a / b`. -/
theorem C23_time_text_round_trip (s : Nat) (hs : s < UINT_MOD) :
    time_from_seconds s = some (time_text s) ∧
    (s < 3600 → time_text s = printf_u 0 (s / 60) ++ (':' :: two_digits (s % 60))) ∧
    (3600 ≤ s → time_text s = printf_u 0 (s / 3600) ++
      (':' :: (two_digits (s / 60 % 60) ++ (':' :: two_digits (s % 60))))) ∧
    s / 60 % 60 < 60 ∧ s % 60 < 60 ∧
    (∀ (a : TempArena) (time : Nob_StringView), time.count ≤ time.items.length →
      time.bytes = time_text s →
      a.nob_temp_size + (time_text s).length + 1 ≤ NOB_TEMP_CAPACITY →
      NOB_TEMP_CAPACITY ≤ a.nob_temp.length →
      ∃ a1, seconds_from_time time a = some (s, a1) ∧
        a1.nob_temp_size = a.nob_temp_size + (time_text s).length + 1) ∧
    (∀ a b : Nat, a < UINT_MOD → b ≠ 0 → moddiv a b = some (a % b, a / b)) := by
  refine ⟨time_from_seconds_text s hs, ?_, ?_, Nat.mod_lt _ (by decide),
    Nat.mod_lt _ (by decide), ?_, moddiv_eq⟩
  · intro h
    unfold time_text
    rw [if_pos h]
  · intro h
    unfold time_text
    rw [if_neg (by omega)]
  · intro a time hwf htime hroom hbuf
    obtain ⟨a1, h1, h2, _⟩ := seconds_from_time_of_text s hs a time hwf htime hroom hbuf
    exact ⟨a1, h1, h2⟩

theorem C23_time_text_round_trip_witness :
    3725 < UINT_MOD ∧
    time_from_seconds 3725 = some ['1', ':', '0', '2', ':', '0', '5'] ∧
    time_from_seconds 59 = some ['0', ':', '5', '9'] ∧
    moddiv 3725 60 = some (5, 62) ∧
    ∃ a1, seconds_from_time (sv_of ['1', ':', '0', '2', ':', '0', '5']) arenaC15 =
        some (3725, a1) ∧
      a1.nob_temp_size = 16 :=
  have h := C23_time_text_round_trip 3725 (by decide)
  ⟨by decide, h.1.trans (by decide), by decide, by decide,
    h.2.2.2.2.2.1 arenaC15 (sv_of ['1', ':', '0', '2', ':', '0', '5']) (by decide) (by decide)
      (by decide) (by simp [arenaC15])⟩

end Nob
